import Mathlib

/-!
# FileCache: a pin-based file cache with a free list of unpinned buffers

A verification development for `file_cache_impl.cpp`.  The C++ object graph is
embedded as follows.

* Every `WriteCacheBuffer` allocated with `new` lives in `FileCacheImpl.heap`;
  a pointer is the index of the object in that list, a nullable pointer is an
  `Option Nat`.  Address `0` is the sentinel allocated by `freeListInit`.
* `std::map<std::string, WriteCacheBuffer *>` is an association list kept in
  key order.
* The file system is a finite map from file names to byte sequences together
  with the sequence of stream operations performed on it.
* `unsigned int` fields are natural numbers reduced modulo `2 ^ 32`.
* An operation that trips an `assert` or dereferences an invalid pointer
  yields `Outcome.aborted`; one that would wait on `freeListCV_` (there is no
  other thread to signal it) yields `Outcome.blocked`.
* The size of a buffer (`FILESIZE` in the source) is the parameter `FS` of the
  operations, so that the model can be evaluated on small buffers; every
  theorem holds for each value of it, `FILESIZE` included.
* `max_cache_entries_` belongs to the base class `FileCache`, whose header is
  not among the sources; it is the natural number that the capacity test
  compares `writeCache_.size()` with.
* What a client does with a returned pointer is outside the cache; the one
  client action modelled is the `memcpy` of the test driver to the start of the
  view returned by `MutableFileData` (`writeThrough`).
-/

namespace FileCache

/-! ## Constants and basic types -/

/-- One `char` of a buffer or of a file. -/
abbrev Byte := Fin 256

/-- Status bit 1: pinned. -/
def PINNED : Nat := 1

/-- Status bit 2: dirty. -/
def DIRTY : Nat := 2

/-- Size of a cache buffer in the source. -/
def FILESIZE : Nat := 10240000

/-- Modulus of `unsigned int` arithmetic. -/
def UINT_MOD : Nat := 4294967296

/-- Bitwise complement `~x` as it is seen by an `unsigned int` operand. -/
def bitNot (x : Nat) : Nat := UINT_MOD - 1 - x

/-- Result of running an operation of the cache in a single thread. -/
inductive Outcome (α : Type) where
  | ok (a : α)
  | blocked
  | aborted
  deriving DecidableEq, Repr

/-- Sequencing of outcomes: the first fault ends the run. -/
def Outcome.bind {α β : Type} (x : Outcome α) (f : α → Outcome β) : Outcome β :=
  match x with
  | .ok a => f a
  | .blocked => .blocked
  | .aborted => .aborted

instance : Monad Outcome where
  pure := Outcome.ok
  bind := Outcome.bind

/-- Dereferencing a nullable value: `none` is a crash. -/
def Outcome.ofOption {α : Type} : Option α → Outcome α
  | some a => .ok a
  | none => .aborted

/-! ## The file system -/

/-- Stream operations of the cache that reach the file system. -/
inductive IOEvent where
  | load (name : String)
  | create (name : String)
  | store (name : String) (bytes : List Byte)
  deriving DecidableEq, Repr

/-- Replace the content of file `n` by `c`, creating the file when absent. -/
def writeFile : List (String × List Byte) → String → List Byte → List (String × List Byte)
  | [], n, c => [(n, c)]
  | (m, d) :: fs, n, c => if m = n then (m, c) :: fs else (m, d) :: writeFile fs n c

/-- The file system: the files by name and the trace of stream operations. -/
structure Disk where
  files : List (String × List Byte)
  log : List IOEvent
  deriving DecidableEq, Repr

/-- Content of file `n`, if the file exists. -/
def Disk.read (d : Disk) (n : String) : Option (List Byte) := d.files.lookup n

/-! ## WriteCacheBuffer -/

/-- One element of the file cache. -/
structure WriteCacheBuffer where
  fileName : String
  pinCount : Nat
  status : Nat
  next : Option Nat
  prev : Option Nat
  buffer : List Byte
  deriving DecidableEq, Repr

/-- Load the buffer from its file (`WriteCacheBuffer::initialize`): when the
file cannot be opened for reading an empty file is created and the buffer is
marked dirty, otherwise up to `FS` bytes are read into the start of the buffer.
The file system does not open an output stream on the names in `refused`; on
such a name the assertion `wstream.is_open()` fails. -/
def WriteCacheBuffer.initialize (FS : Nat) (refused : List String) (b : WriteCacheBuffer)
    (d : Disk) : Outcome (WriteCacheBuffer × Disk) :=
  match d.read b.fileName with
  | none =>
    if b.fileName ∈ refused then .aborted
    else
      .ok ({ b with status := b.status ||| DIRTY },
           { files := writeFile d.files b.fileName [],
             log := d.log ++ [IOEvent.create b.fileName] })
  | some content =>
    .ok ({ b with buffer := content.take FS ++ b.buffer.drop (content.take FS).length },
         { d with log := d.log ++ [IOEvent.load b.fileName] })

/-- The constructor `WriteCacheBuffer( f )`: a zero-filled, unlinked, unpinned
buffer, loaded from its file unless the name is `"dummy"`. -/
def WriteCacheBuffer.construct (FS : Nat) (refused : List String) (f : String) (d : Disk) :
    Outcome (WriteCacheBuffer × Disk) :=
  let b : WriteCacheBuffer :=
    { fileName := f, pinCount := 0, status := 0, next := none, prev := none,
      buffer := List.replicate FS 0 }
  if f ≠ "dummy" then WriteCacheBuffer.initialize FS refused b d else .ok (b, d)

/-- Reuse of an existing buffer for another file (`WriteCacheBuffer::reinitialize`). -/
def WriteCacheBuffer.reinitialize (FS : Nat) (refused : List String) (b : WriteCacheBuffer)
    (f : String) (d : Disk) : Outcome (WriteCacheBuffer × Disk) :=
  WriteCacheBuffer.initialize FS refused
    { b with fileName := f, pinCount := 0, status := 0, buffer := List.replicate FS 0 } d

/-- Write the buffer to its file and clear the dirty bit
(`WriteCacheBuffer::writeBack`); the assertion `wstream.is_open()` fails on a
name in `refused`. -/
def WriteCacheBuffer.writeBack (FS : Nat) (refused : List String) (b : WriteCacheBuffer)
    (d : Disk) : Outcome (WriteCacheBuffer × Disk) :=
  if b.fileName ∈ refused then .aborted
  else
    .ok ({ b with status := b.status &&& bitNot DIRTY },
         { files := writeFile d.files b.fileName (b.buffer.take FS),
           log := d.log ++ [IOEvent.store b.fileName (b.buffer.take FS)] })

/-! ### What the stream operations yield when they return -/

/-- The buffer and the file system after `initialize` returned. -/
def WriteCacheBuffer.loaded (FS : Nat) (b : WriteCacheBuffer) (d : Disk) :
    WriteCacheBuffer × Disk :=
  match d.read b.fileName with
  | none =>
    ({ b with status := b.status ||| DIRTY },
     { files := writeFile d.files b.fileName [], log := d.log ++ [IOEvent.create b.fileName] })
  | some content =>
    ({ b with buffer := content.take FS ++ b.buffer.drop (content.take FS).length },
     { d with log := d.log ++ [IOEvent.load b.fileName] })

/-- The buffer and the file system after the constructor `WriteCacheBuffer( f )`
returned. -/
def WriteCacheBuffer.new (FS : Nat) (f : String) (d : Disk) : WriteCacheBuffer × Disk :=
  let b : WriteCacheBuffer :=
    { fileName := f, pinCount := 0, status := 0, next := none, prev := none,
      buffer := List.replicate FS 0 }
  if f ≠ "dummy" then WriteCacheBuffer.loaded FS b d else (b, d)

/-- The buffer and the file system after `reinitialize( f )` returned. -/
def WriteCacheBuffer.reloaded (FS : Nat) (b : WriteCacheBuffer) (f : String) (d : Disk) :
    WriteCacheBuffer × Disk :=
  WriteCacheBuffer.loaded FS
    { b with fileName := f, pinCount := 0, status := 0, buffer := List.replicate FS 0 } d

/-- The buffer and the file system after `writeBack` returned. -/
def WriteCacheBuffer.stored (FS : Nat) (b : WriteCacheBuffer) (d : Disk) :
    WriteCacheBuffer × Disk :=
  ({ b with status := b.status &&& bitNot DIRTY },
   { files := writeFile d.files b.fileName (b.buffer.take FS),
     log := d.log ++ [IOEvent.store b.fileName (b.buffer.take FS)] })

/-- The creation of the file `f` by `initialize` fails: there is no file `f`
to read and no output stream opens on `f`. -/
def createFails (refused : List String) (d : Disk) (f : String) : Prop :=
  d.read f = none ∧ f ∈ refused

instance (refused : List String) (d : Disk) (f : String) :
    Decidable (createFails refused d f) := by
  unfold createFails
  infer_instance

/-! ## The map from file names to buffers -/

/-- Order of `std::string` keys: lexicographic on the characters. -/
def keyLt (a b : String) : Prop := a.data < b.data

instance (a b : String) : Decidable (keyLt a b) := by
  unfold keyLt; infer_instance

/-- The lookup `writeCache_.find( k )`: the mapped pointer, or `none` for `end()`. -/
def mapFind (m : List (String × Nat)) (k : String) : Option Nat := m.lookup k

/-- The assignment `writeCache_[ k ] = v` on a map kept in key order. -/
def mapInsert : List (String × Nat) → String → Nat → List (String × Nat)
  | [], k, v => [(k, v)]
  | (k', v') :: rest, k, v =>
    if k' = k then (k, v) :: rest
    else if keyLt k k' then (k, v) :: (k', v') :: rest
    else (k', v') :: mapInsert rest k v

/-! ## FileCacheImpl -/

/-- The cache object, the objects it allocated and the file system it runs on.
The last two fields are not members of the class: `disk` is the content of the
file system and `refused` lists the names on which the file system opens no
output stream (the empty name, a name in a directory that does not exist, a
directory, a file without write permission). -/
structure FileCacheImpl where
  max_cache_entries_ : Nat
  writeCache_ : List (String × Nat)
  freeListHead_ : Nat
  freeListSize_ : Nat
  heap : List WriteCacheBuffer
  disk : Disk
  refused : List String
  deriving DecidableEq, Repr

/-- Apply `f` to the object at address `a`. -/
def modifyAt (h : List WriteCacheBuffer) (a : Nat) (f : WriteCacheBuffer → WriteCacheBuffer) :
    List WriteCacheBuffer :=
  match h, a with
  | [], _ => []
  | b :: bs, 0 => f b :: bs
  | b :: bs, a + 1 => b :: modifyAt bs a f

/-- Read through a pointer. -/
def FileCacheImpl.deref (s : FileCacheImpl) (a : Nat) : Outcome WriteCacheBuffer :=
  Outcome.ofOption s.heap[a]?

/-- Write through a pointer: the object at `a` becomes `f` of itself. -/
def FileCacheImpl.update (s : FileCacheImpl) (a : Nat)
    (f : WriteCacheBuffer → WriteCacheBuffer) : Outcome FileCacheImpl :=
  if a < s.heap.length then .ok { s with heap := modifyAt s.heap a f } else .aborted

/-- The sentinel `"dummy"` is allocated and linked to itself (`freeListInit`).
For the name `"dummy"` the constructor opens no stream, so no assertion can
fail in it. -/
def freeListInit (FS : Nat) (s : FileCacheImpl) : FileCacheImpl :=
  let r := WriteCacheBuffer.new FS "dummy" s.disk
  let head := s.heap.length
  { s with
    freeListHead_ := head
    heap := s.heap ++ [{ r.1 with next := some head, prev := some head }]
    freeListSize_ := 0
    disk := r.2 }

/-- The constructor `FileCacheImpl( max_cache_entries )` on the file system
`d`, which opens no output stream on the names in `refused`: an empty map,
nothing allocated yet, then `freeListInit`. -/
def FileCacheImpl.newIn (FS : Nat) ( max_cache_entries : Nat) (d : Disk)
    (refused : List String) : FileCacheImpl :=
  freeListInit FS
    { max_cache_entries_ := max_cache_entries
      writeCache_ := []
      freeListHead_ := 0
      freeListSize_ := 0
      heap := []
      disk := d
      refused := refused }

/-- The constructor `FileCacheImpl( max_cache_entries )` on a file system `d`
that opens an output stream on every name. -/
def FileCacheImpl.new (FS : Nat) ( max_cache_entries : Nat) (d : Disk) : FileCacheImpl :=
  FileCacheImpl.newIn FS max_cache_entries d []

/-- Append `buf` at the tail of the free list (`freeList_push_back`). -/
def freeList_push_back (s : FileCacheImpl) (buf : Nat) : Outcome FileCacheImpl := do
  let head ← s.deref s.freeListHead_
  let prevToHead := head.prev
  let s ← s.update buf (fun b => { b with prev := prevToHead })
  let s ← s.update buf (fun b => { b with next := some s.freeListHead_ })
  let p ← Outcome.ofOption prevToHead
  let s ← s.update p (fun b => { b with next := some buf })
  let s ← s.update s.freeListHead_ (fun b => { b with prev := some buf })
  pure { s with freeListSize_ := (s.freeListSize_ + 1) % UINT_MOD }

/-- Unlink and return the buffer after the sentinel (`freeList_pop_front`). -/
def freeList_pop_front (s : FileCacheImpl) : Outcome (FileCacheImpl × Nat) := do
  let head ← s.deref s.freeListHead_
  let retBuf ← Outcome.ofOption head.next
  let rb ← s.deref retBuf
  let nextToNext ← Outcome.ofOption rb.next
  let s ← s.update retBuf (fun b => { b with next := none })
  let s ← s.update retBuf (fun b => { b with prev := none })
  let s ← s.update s.freeListHead_ (fun b => { b with next := some nextToNext })
  let s ← s.update nextToNext (fun b => { b with prev := some s.freeListHead_ })
  pure ({ s with freeListSize_ := (s.freeListSize_ + UINT_MOD - 1) % UINT_MOD }, retBuf)

/-- Unlink the buffer `buf` from wherever it is in the free list (`freeList_pop`). -/
def freeList_pop (s : FileCacheImpl) (buf : Nat) : Outcome FileCacheImpl := do
  let b ← s.deref buf
  let next ← Outcome.ofOption b.next
  let prev ← Outcome.ofOption b.prev
  let s ← s.update prev (fun b => { b with next := some next })
  let s ← s.update next (fun b => { b with prev := some prev })
  let s ← s.update buf (fun b => { b with next := none })
  let s ← s.update buf (fun b => { b with prev := none })
  pure { s with freeListSize_ := (s.freeListSize_ + UINT_MOD - 1) % UINT_MOD }

/-- One iteration of the loop of `PinFiles`, for the file name `f`. -/
def pinFile (FS : Nat) (s : FileCacheImpl) (f : String) : Outcome FileCacheImpl :=
  match mapFind s.writeCache_ f with
  | some buffer => do
    let b ← s.deref buffer
    let s ←
      if b.status &&& PINNED = 0 then do
        let s ← freeList_pop s buffer
        s.update buffer (fun b => { b with status := b.status ||| PINNED })
      else pure s
    s.update buffer (fun b => { b with pinCount := (b.pinCount + 1) % UINT_MOD })
  | none =>
    if s.writeCache_.length < s.max_cache_entries_ then do
      let r ← WriteCacheBuffer.construct FS s.refused f s.disk
      let b := { r.1 with status := r.1.status ||| PINNED }
      let b := { b with pinCount := (b.pinCount + 1) % UINT_MOD }
      pure { s with heap := s.heap ++ [b]
                    disk := r.2
                    writeCache_ := mapInsert s.writeCache_ f s.heap.length }
    else if ¬ (s.freeListSize_ > 0) then .blocked
    else do
      let (s, buffer) ← freeList_pop_front s
      let b ← s.deref buffer
      if b.status &&& PINNED ≠ 0 then .aborted
      else do
        let r ← if b.status &&& DIRTY ≠ 0 then b.writeBack FS s.refused s.disk
                 else pure (b, s.disk)
        let r ← WriteCacheBuffer.reinitialize FS s.refused r.1 f r.2
        let b := { r.1 with status := r.1.status ||| PINNED }
        let b := { b with pinCount := (b.pinCount + 1) % UINT_MOD }
        let s ← s.update buffer (fun _ => b)
        pure { s with disk := r.2, writeCache_ := mapInsert s.writeCache_ f buffer }

/-- The operation `PinFiles( file_vec )`. -/
def PinFiles (FS : Nat) (s : FileCacheImpl) : List String → Outcome FileCacheImpl
  | [] => .ok s
  | f :: rest => (pinFile FS s f).bind (fun s => PinFiles FS s rest)

/-- One iteration of the loop of `UnpinFiles`, for the file name `f`. -/
def unpinFile (s : FileCacheImpl) (f : String) : Outcome FileCacheImpl :=
  match mapFind s.writeCache_ f with
  | some buffer => do
    let b ← s.deref buffer
    if b.status &&& PINNED ≠ 0 then
      if ¬ (b.pinCount > 0) then .aborted
      else do
        let s ← s.update buffer (fun b => { b with pinCount := b.pinCount - 1 })
        let b ← s.deref buffer
        if b.pinCount = 0 then do
          let s ← s.update buffer (fun b => { b with status := b.status &&& bitNot PINNED })
          freeList_push_back s buffer
        else pure s
    else pure s
  | none => .ok s

/-- The operation `UnpinFiles( file_vec )`. -/
def UnpinFiles (s : FileCacheImpl) : List String → Outcome FileCacheImpl
  | [] => .ok s
  | f :: rest => (unpinFile s f).bind (fun s => UnpinFiles s rest)

/-- The operation `FileData( file_name )`: the address of the entry whose
buffer is returned, or `none` for `NULL`. -/
def FileData (s : FileCacheImpl) ( file_name : String) : Outcome (Option Nat) :=
  match mapFind s.writeCache_ file_name with
  | some buffer => do
    let b ← s.deref buffer
    if b.status &&& PINNED ≠ 0 then pure (some buffer) else pure none
  | none => .ok none

/-- The operation `MutableFileData( file_name )`: the state afterwards and the
address of the entry whose buffer is returned, or `none` for `NULL`. -/
def MutableFileData (s : FileCacheImpl) ( file_name : String) :
    Outcome (FileCacheImpl × Option Nat) :=
  match mapFind s.writeCache_ file_name with
  | some buffer => do
    let b ← s.deref buffer
    if b.status &&& PINNED ≠ 0 then do
      let s ← s.update buffer (fun b => { b with status := b.status ||| DIRTY })
      pure (s, some buffer)
    else pure (s, none)
  | none => .ok (s, none)

/-- Content of the view at address `a`. -/
def viewContent (s : FileCacheImpl) (a : Nat) : Option (List Byte) :=
  s.heap[a]?.map (fun b => b.buffer)

/-- What `FileData( file_name )` lets the caller read: the bytes of the
returned buffer, `none` when it returns `NULL`. -/
def FileDataBytes (s : FileCacheImpl) ( file_name : String) : Outcome (Option (List Byte)) :=
  (FileData s file_name).bind (fun v => .ok (v.bind (viewContent s)))

/-- The client of the test driver: `memcpy` of `w` to the start of the view
returned by `MutableFileData( file_name )`.  Copying to `NULL` or past the end
of the buffer crashes. -/
def writeThrough (FS : Nat) (s : FileCacheImpl) ( file_name : String) (w : List Byte) :
    Outcome FileCacheImpl := do
  let (s, v) ← MutableFileData s file_name
  let a ← Outcome.ofOption v
  if w.length ≤ FS then
    s.update a (fun b => { b with buffer := w ++ b.buffer.drop w.length })
  else .aborted

/-- A call made by a client of the cache. -/
inductive Call where
  | PinFiles (file_vec : List String)
  | UnpinFiles (file_vec : List String)
  | FileData (file_name : String)
  | MutableFileData (file_name : String)
  | write (file_name : String) (w : List Byte)
  deriving DecidableEq, Repr

/-- State after one call. -/
def step (FS : Nat) (s : FileCacheImpl) : Call → Outcome FileCacheImpl
  | .PinFiles v => PinFiles FS s v
  | .UnpinFiles v => UnpinFiles s v
  | .FileData n => (FileData s n).bind (fun _ => .ok s)
  | .MutableFileData n => (MutableFileData s n).bind (fun r => .ok r.1)
  | .write n w => writeThrough FS s n w

/-- State after a sequence of calls, each of which returns. -/
def run (FS : Nat) (s : FileCacheImpl) : List Call → Outcome FileCacheImpl
  | [] => .ok s
  | c :: cs => (step FS s c).bind (fun s => run FS s cs)


/-- The write-back that precedes reuse: `b` is written to its file when it is dirty. -/
def persistIfDirty (FS : Nat) (b : WriteCacheBuffer) (d : Disk) : WriteCacheBuffer × Disk :=
  if b.status &&& DIRTY ≠ 0 then b.stored FS d else (b, d)

/-- The buffer and the file system after `b` was reclaimed for the file `f`:
written back if dirty, then reinitialised. -/
def reclaim (FS : Nat) (b : WriteCacheBuffer) (f : String) (d : Disk) : WriteCacheBuffer × Disk :=
  WriteCacheBuffer.reloaded FS (persistIfDirty FS b d).1 f (persistIfDirty FS b d).2

/-! ## The free list as a sequence of addresses -/

/-- The `next` pointer of the object at address `a`. -/
def nextOf (h : List WriteCacheBuffer) (a : Nat) : Option Nat := h[a]?.bind (fun b => b.next)

/-- The `prev` pointer of the object at address `a`. -/
def prevOf (h : List WriteCacheBuffer) (a : Nat) : Option Nat := h[a]?.bind (fun b => b.prev)

/-- Two consecutive nodes of a doubly linked list. -/
def Link (nx pv : Nat → Option Nat) (a b : Nat) : Prop := nx a = some b ∧ pv b = some a

/-- The links form a ring that leaves the sentinel `hd`, runs through `l` and returns. -/
def Ring (nx pv : Nat → Option Nat) (hd : Nat) (l : List Nat) : Prop :=
  List.Chain' (Link nx pv) (hd :: l ++ [hd])

/-- Follow the `next` links from `cur` until the sentinel `hd` is met. -/
def walk (nx : Nat → Option Nat) (hd : Nat) : Nat → Nat → List Nat
  | 0, _ => []
  | fuel + 1, cur =>
    if cur = hd then []
    else
      match nx cur with
      | some n => cur :: walk nx hd fuel n
      | none => [cur]

/-- The addresses linked in the free list, from `freeListHead_->next` onwards. -/
def freeList (s : FileCacheImpl) : List Nat :=
  match nextOf s.heap s.freeListHead_ with
  | some n => walk (nextOf s.heap) s.freeListHead_ s.heap.length n
  | none => []

/-! ## Invariants -/

/-- The fields of a buffer other than its links. -/
def WriteCacheBuffer.data (b : WriteCacheBuffer) : String × Nat × Nat × List Byte :=
  (b.fileName, b.pinCount, b.status, b.buffer)

/-- Two heaps hold the same objects up to their links. -/
def SameData (h h' : List WriteCacheBuffer) : Prop :=
  h'.length = h.length ∧
    ∀ i : Nat, h'[i]?.map WriteCacheBuffer.data = h[i]?.map WriteCacheBuffer.data

/-- Shape of the free list: the links of the heap form a ring through the
sentinel and the addresses `l`, `freeListSize_` counts them, and every other
object is unlinked. -/
structure ListInv (s : FileCacheImpl) (l : List Nat) : Prop where
  head : s.freeListHead_ = 0
  heap_pos : 0 < s.heap.length
  ring : Ring (nextOf s.heap) (prevOf s.heap) 0 l
  nodup : (0 :: l).Nodup
  bound : ∀ a ∈ l, a < s.heap.length
  size : s.freeListSize_ = l.length % UINT_MOD
  unlinked : ∀ a, a ≠ 0 → a ∉ l → nextOf s.heap a = none ∧ prevOf s.heap a = none

/-- The step from `s` to `s'` rewired links and nothing else. -/
def LinksOnly (s s' : FileCacheImpl) : Prop :=
  s'.max_cache_entries_ = s.max_cache_entries_ ∧ s'.writeCache_ = s.writeCache_ ∧
    s'.disk = s.disk ∧ SameData s.heap s'.heap

/-- The invariant of the cache in a state whose free list is `l`: besides the
shape of the list, an object other than the sentinel is unpinned exactly when
it is linked, an unpinned object has pin count zero, the map points at objects
other than the sentinel, every such object is reached from the map through its
own file name, at most one object was allocated per key and none beyond the
capacity, every buffer has `FS` bytes, and the keys of the map are distinct. -/
structure Inv (FS : Nat) (s : FileCacheImpl) (l : List Nat) : Prop where
  list : ListInv s l
  pinned : ∀ a b, a ≠ 0 → s.heap[a]? = some b → (b.status &&& PINNED = 0 ↔ a ∈ l)
  count : ∀ a b, a ≠ 0 → s.heap[a]? = some b → b.status &&& PINNED = 0 → b.pinCount = 0
  dir : ∀ k a, mapFind s.writeCache_ k = some a → a ≠ 0 ∧ a < s.heap.length
  named : ∀ a b, a ≠ 0 → s.heap[a]? = some b → mapFind s.writeCache_ b.fileName = some a
  alloc : s.heap.length ≤ s.writeCache_.length + 1
  cap : s.heap.length ≤ s.max_cache_entries_ + 1
  buflen : ∀ a b, a ≠ 0 → s.heap[a]? = some b → b.buffer.length = FS
  keys : (s.writeCache_.map Prod.fst).Nodup

/-! ## Derived notions used in the statements -/

/-- The distinct buffers the map refers to. -/
def residentBuffers (s : FileCacheImpl) : List Nat := (s.writeCache_.map Prod.snd).dedup

/-- The keys of the map. -/
def directoryKeys (s : FileCacheImpl) : List String := s.writeCache_.map Prod.fst

/-- The stream operation by which `initialize` brings the file `f` into a
buffer: a load when the file exists, its creation otherwise. -/
def loadEvent (d : Disk) (f : String) : IOEvent :=
  match d.read f with
  | some _ => IOEvent.load f
  | none => IOEvent.create f

/-- The name `A` is still a key of the map although no buffer carries it. -/
def Orphaned (s : FileCacheImpl) (A : String) : Prop :=
  mapFind s.writeCache_ A ≠ none ∧
    ∀ a b, a ≠ 0 → s.heap[a]? = some b → b.fileName ≠ A

/-! ## Small instances -/

/-- A file system with two files of two bytes. -/
def demoDisk : Disk := { files := [("A", [1, 1]), ("B", [2, 2])], log := [] }

/-- A file system without files. -/
def emptyDisk : Disk := { files := [], log := [] }

/-- The clean, unpinned buffer of `A`, linked between the sentinel and itself. -/
def demoBufferA : WriteCacheBuffer :=
  { fileName := "A", pinCount := 0, status := 0, next := some 0, prev := some 0,
    buffer := [1, 1] }

/-- The cache of capacity one after `A` was pinned and unpinned: `A` is queued. -/
def demoQueued : FileCacheImpl :=
  { max_cache_entries_ := 1
    writeCache_ := [("A", 1)]
    freeListHead_ := 0
    freeListSize_ := 1
    heap := [{ fileName := "dummy", pinCount := 0, status := 0, next := some 1, prev := some 1,
               buffer := [0, 0] },
             demoBufferA]
    disk := { files := [("A", [1, 1]), ("B", [2, 2])], log := [IOEvent.load "A"] }
    refused := [] }

/-- The cache of capacity one after `A` was pinned and unpinned and `B` was pinned. -/
def demoReclaimed : FileCacheImpl :=
  { max_cache_entries_ := 1
    writeCache_ := [("A", 1), ("B", 1)]
    freeListHead_ := 0
    freeListSize_ := 0
    heap := [{ fileName := "dummy", pinCount := 0, status := 0, next := some 0, prev := some 0,
               buffer := [0, 0] },
             { fileName := "B", pinCount := 1, status := 1, next := none, prev := none,
               buffer := [2, 2] }]
    disk := { files := [("A", [1, 1]), ("B", [2, 2])],
              log := [IOEvent.load "A", IOEvent.load "B"] }
    refused := [] }

/-- A pinned, dirty buffer of one byte for the file `f`, as created for a file
that did not exist. -/
def demoPinnedBuffer (f : String) : WriteCacheBuffer :=
  { fileName := f, pinCount := 1, status := 3, next := none, prev := none, buffer := [0] }

/-- The cache of capacity three, on an empty file system, after `A`, `B` and
`C` were pinned: three pinned entries, an empty free list. -/
def demoThree : FileCacheImpl :=
  { max_cache_entries_ := 3
    writeCache_ := [("A", 1), ("B", 2), ("C", 3)]
    freeListHead_ := 0
    freeListSize_ := 0
    heap := [{ fileName := "dummy", pinCount := 0, status := 0, next := some 0, prev := some 0,
               buffer := [0] },
             demoPinnedBuffer "A", demoPinnedBuffer "B", demoPinnedBuffer "C"]
    disk := { files := [("A", []), ("B", []), ("C", [])],
              log := [IOEvent.create "A", IOEvent.create "B", IOEvent.create "C"] }
    refused := [] }

/-- The cache of capacity one, on an empty file system, after `A` was pinned once. -/
def demoOne : FileCacheImpl :=
  { max_cache_entries_ := 1
    writeCache_ := [("A", 1)]
    freeListHead_ := 0
    freeListSize_ := 0
    heap := [{ fileName := "dummy", pinCount := 0, status := 0, next := some 0, prev := some 0,
               buffer := [0] },
             demoPinnedBuffer "A"]
    disk := { files := [("A", [])], log := [IOEvent.create "A"] }
    refused := [] }

/-- The dirty, unpinned buffer of `A` after the byte `7` was written to it. -/
def demoDirtyBufferA : WriteCacheBuffer :=
  { fileName := "A", pinCount := 0, status := 2, next := some 0, prev := some 0,
    buffer := [7, 0] }

/-- The cache of capacity one, on an empty file system, after `A` was pinned,
written to and unpinned: the dirty entry of `A` is queued. -/
def demoDirtyQueued : FileCacheImpl :=
  { max_cache_entries_ := 1
    writeCache_ := [("A", 1)]
    freeListHead_ := 0
    freeListSize_ := 1
    heap := [{ fileName := "dummy", pinCount := 0, status := 0, next := some 1, prev := some 1,
               buffer := [0, 0] },
             demoDirtyBufferA]
    disk := { files := [("A", [])], log := [IOEvent.create "A"] }
    refused := [] }

/-! ## Notions used for the loading of buffers -/

/-- The first `FS` bytes of a file, zero-filled up to `FS` bytes. -/
def zeroPad (FS : Nat) (c : List Byte) : List Byte :=
  c.take FS ++ List.replicate (FS - (c.take FS).length) 0

/-- The status with which `initialize` leaves a buffer whose status was 0,
given what the file system holds for its name. -/
def loadedStatus (r : Option (List Byte)) : Nat :=
  match r with
  | none => 0 ||| DIRTY
  | some _ => 0

/-- The content with which `initialize` leaves a zero-filled buffer, given what
the file system holds for its name. -/
def loadedBuffer (FS : Nat) (r : Option (List Byte)) : List Byte :=
  match r with
  | none => List.replicate FS 0
  | some c => c.take FS ++ (List.replicate FS 0).drop (c.take FS).length

/-- A file system whose only file is called `dummy`. -/
def dummyDisk : Disk := { files := [("dummy", [5, 5])], log := [] }


/-! ## The destructor -/

/-- The loop of the destructor over the entries of the map, in the order of
the keys: a buffer whose `DIRTY` bit is set is written back. -/
def destroyLoop (FS : Nat) (s : FileCacheImpl) : List (String × Nat) → Outcome FileCacheImpl
  | [] => .ok s
  | p :: rest =>
    (s.deref p.2).bind (fun b =>
      (if b.status &&& DIRTY ≠ 0 then
        (b.writeBack FS s.refused s.disk).bind (fun r =>
          (s.update p.2 (fun _ => r.1)).bind (fun s1 => .ok { s1 with disk := r.2 }))
      else .ok s).bind (fun s2 => destroyLoop FS s2 rest))

/-- The destructor `~FileCacheImpl()`: the dirty buffers the map refers to are
written back, the map is cleared and the sentinel is deleted.  What is left of
the cache is the file system. -/
def FileCacheImpl.destroy (FS : Nat) (s : FileCacheImpl) : Outcome Disk :=
  (destroyLoop FS s s.writeCache_).bind (fun s1 =>
    (s1.deref s1.freeListHead_).bind (fun _ => .ok s1.disk))

/-- The stream operations of `d2` that came after those of `d1`. -/
def newEvents (d1 d2 : Disk) : List IOEvent := d2.log.drop d1.log.length

/-! ## Synchronisation -/

/-- The two mutexes of the cache. -/
inductive Mutex where
  | mapMut_
  | freeListMut_
  deriving DecidableEq, Repr

/-- The operations of a thread on the mutexes and on the condition variable
`freeListCV_`.  `condWait m` is a call `pthread_cond_wait( &freeListCV_, m )`
from which the thread has not returned. -/
inductive SyncEvent where
  | lock (m : Mutex)
  | unlock (m : Mutex)
  | condWait (m : Mutex)
  | broadcast
  deriving DecidableEq, Repr

/-- The mutexes a thread holds after one more operation: a wait on the
condition variable releases the mutex it was called with. -/
def holdStep (h : List Mutex) : SyncEvent → List Mutex
  | SyncEvent.lock m => m :: h
  | SyncEvent.unlock m => h.erase m
  | SyncEvent.condWait m => h.erase m
  | SyncEvent.broadcast => h

/-- The mutexes a thread holds after the operations `t`. -/
def held (t : List SyncEvent) : List Mutex := t.foldl holdStep []

/-- The synchronisation operations of one iteration of the loop of `PinFiles`
for the file name `f` in the state `s`; on a miss at capacity with
`freeListSize_ = 0` the iteration is suspended in the wait. -/
def pinFileSync (s : FileCacheImpl) (f : String) : List SyncEvent :=
  match mapFind s.writeCache_ f with
  | some buffer =>
    match s.heap[buffer]? with
    | some b =>
      if b.status &&& PINNED = 0 then
        [SyncEvent.lock Mutex.freeListMut_, SyncEvent.unlock Mutex.freeListMut_]
      else []
    | none => []
  | none =>
    if s.writeCache_.length < s.max_cache_entries_ then []
    else if ¬ (s.freeListSize_ > 0) then
      [SyncEvent.lock Mutex.freeListMut_, SyncEvent.condWait Mutex.freeListMut_]
    else [SyncEvent.lock Mutex.freeListMut_, SyncEvent.unlock Mutex.freeListMut_]

/-- The synchronisation operations of the loop of `PinFiles` and of the unlock
after it, which is reached when every iteration returned. -/
def pinLoopSync (FS : Nat) (s : FileCacheImpl) : List String → List SyncEvent
  | [] => [SyncEvent.unlock Mutex.mapMut_]
  | f :: rest =>
    pinFileSync s f ++
      match pinFile FS s f with
      | Outcome.ok s1 => pinLoopSync FS s1 rest
      | _ => []

/-- The synchronisation operations of a call `PinFiles( file_vec )`. -/
def PinFilesSync (FS : Nat) (s : FileCacheImpl) (v : List String) : List SyncEvent :=
  SyncEvent.lock Mutex.mapMut_ :: pinLoopSync FS s v

/-- The synchronisation operations of one iteration of the loop of `UnpinFiles`. -/
def unpinFileSync (s : FileCacheImpl) (f : String) : List SyncEvent :=
  match mapFind s.writeCache_ f with
  | some buffer =>
    match s.heap[buffer]? with
    | some b =>
      if b.status &&& PINNED ≠ 0 ∧ b.pinCount > 0 ∧ b.pinCount - 1 = 0 then
        [SyncEvent.lock Mutex.freeListMut_, SyncEvent.broadcast,
         SyncEvent.unlock Mutex.freeListMut_]
      else []
    | none => []
  | none => []

/-- The synchronisation operations of the loop of `UnpinFiles` and of the
unlock after it. -/
def unpinLoopSync (s : FileCacheImpl) : List String → List SyncEvent
  | [] => [SyncEvent.unlock Mutex.mapMut_]
  | f :: rest =>
    unpinFileSync s f ++
      match unpinFile s f with
      | Outcome.ok s1 => unpinLoopSync s1 rest
      | _ => []

/-- The synchronisation operations of a call `UnpinFiles( file_vec )`. -/
def UnpinFilesSync (s : FileCacheImpl) (v : List String) : List SyncEvent :=
  SyncEvent.lock Mutex.mapMut_ :: unpinLoopSync s v

/-! ## Notions used for the pin counts and for the clean buffers -/

/-- The number of file names passed to `PinFiles` in a sequence of calls. -/
def pinNames : List Call → Nat
  | [] => 0
  | Call.PinFiles v :: cs => v.length + pinNames cs
  | Call.UnpinFiles _ :: cs => pinNames cs
  | Call.FileData _ :: cs => pinNames cs
  | Call.MutableFileData _ :: cs => pinNames cs
  | Call.write _ _ :: cs => pinNames cs

/-- Every pin count is at most `n`, and a pinned buffer has a positive pin count. -/
def Counted (s : FileCacheImpl) (n : Nat) : Prop :=
  ∀ a b, a ≠ 0 → s.heap[a]? = some b →
    b.pinCount ≤ n ∧ (b.status &&& PINNED ≠ 0 → 0 < b.pinCount)

/-- Every clean buffer whose file name is not `"dummy"` holds the first `FS`
bytes of its file, zero-filled up to `FS` bytes. -/
def Mirror (FS : Nat) (s : FileCacheImpl) : Prop :=
  ∀ a b, a ≠ 0 → s.heap[a]? = some b → b.fileName ≠ "dummy" → b.status &&& DIRTY = 0 →
    ∃ c, s.disk.read b.fileName = some c ∧ b.buffer = zeroPad FS c

/-! ## Notions used for the streams that do not open -/

/-- The pin of `f` in the state `s` is a miss for which a stream has to be
opened that the file system refuses: under capacity the creation of the file
of `f`; at capacity, with a buffer to reclaim at the head of the free list, the
write-back of that buffer when it is dirty, or the creation of the file of `f`. -/
def openFails (s : FileCacheImpl) (f : String) : Prop :=
  mapFind s.writeCache_ f = none ∧
    ((s.writeCache_.length < s.max_cache_entries_ ∧ f ≠ "dummy" ∧
        createFails s.refused s.disk f) ∨
     (¬ s.writeCache_.length < s.max_cache_entries_ ∧
        ∃ x rest b, freeList s = x :: rest ∧ s.heap[x]? = some b ∧
          ((b.status &&& DIRTY ≠ 0 ∧ b.fileName ∈ s.refused) ∨
            createFails s.refused s.disk f)))

/-! ## Rings of links -/



theorem chain_frame {nx pv nx' pv' : Nat → Option Nat} :
    ∀ (c : List Nat), List.Chain' (Link nx pv) c →
      (∀ a ∈ c.dropLast, nx' a = nx a) → (∀ a ∈ c.tail, pv' a = pv a) →
      List.Chain' (Link nx' pv') c
  | [], _, _, _ => List.chain'_nil
  | [_], _, _, _ => List.chain'_singleton _
  | a :: b :: t, hc, hn, hp => by
    rw [List.chain'_cons] at hc ⊢
    refine ⟨⟨?_, ?_⟩, chain_frame (b :: t) hc.2 ?_ ?_⟩
    · rw [hn a (by simp)]; exact hc.1.1
    · rw [hp b (by simp)]; exact hc.1.2
    · intro i hi; exact hn i (by simp [List.dropLast]; right; simpa using hi)
    · intro i hi; exact hp i (by simp at hi ⊢; right; exact hi)

theorem ring_unlink {nx pv : Nat → Option Nat} {hd x : Nat} {l : List Nat}
    (hr : Ring nx pv hd l) (hnd : (hd :: l).Nodup) (hx : x ∈ l) :
    ∃ a b, nx x = some b ∧ pv x = some a ∧ (a = hd ∨ a ∈ l) ∧ (b = hd ∨ b ∈ l) ∧
      a ≠ x ∧ b ≠ x ∧
      (∀ nx' pv' : Nat → Option Nat,
       (∀ i, nx' i = if i = x then none else if i = a then some b else nx i) →
       (∀ i, pv' i = if i = x then none else if i = b then some a else pv i) →
       Ring nx' pv' hd (l.erase x)) := by
  obtain ⟨l1, l2, rfl⟩ := List.append_of_mem hx
  have hnd' := hnd
  rw [List.nodup_cons, List.nodup_append, List.nodup_cons] at hnd
  obtain ⟨hhd, hl1, ⟨hxl2, hl2⟩, hdisj⟩ := hnd
  have hxl1 : x ∉ l1 := fun h => hdisj h (by simp)
  have hxhd : x ≠ hd := fun h => hhd (by simp [h])
  have hhd1 : hd ∉ l1 := fun h => hhd (by simp [h])
  have hhd2 : hd ∉ l2 := fun h => hhd (by simp [h])
  have hd12 : ∀ i, i ∈ l1 → i ∈ l2 → False := fun i h1 h2 => hdisj h1 (by simp [h2])
  unfold Ring at hr
  have h0 : hd :: (l1 ++ x :: l2) ++ [hd] = (hd :: l1) ++ x :: (l2 ++ [hd]) := by simp
  rw [h0, List.chain'_split] at hr
  obtain ⟨hA, hB⟩ := hr
  -- the predecessor
  obtain ⟨c1, a, hc1⟩ : ∃ c1 a, hd :: l1 = c1 ++ [a] :=
    ⟨(hd :: l1).dropLast, (hd :: l1).getLast (by simp), (List.dropLast_append_getLast _).symm⟩
  -- the successor
  obtain ⟨b, c2, hc2⟩ : ∃ b c2, l2 ++ [hd] = b :: c2 := by
    cases l2 with
    | nil => exact ⟨hd, [], rfl⟩
    | cons y ys => exact ⟨y, ys ++ [hd], rfl⟩
  have ha_mem : a ∈ hd :: l1 := by rw [hc1]; simp
  have hb_mem : b ∈ l2 ++ [hd] := by rw [hc2]; simp
  have hax : a ≠ x := by
    rintro rfl
    rcases List.mem_cons.1 ha_mem with h | h
    · exact hxhd h
    · exact hxl1 h
  have hbx : b ≠ x := by
    rintro rfl
    rcases List.mem_append.1 hb_mem with h | h
    · exact hxl2 h
    · exact hxhd (by simpa using h)
  rw [hc1, List.chain'_append] at hA
  have hlinkA : Link nx pv a x := hA.2.2 a (by simp) x (by simp)
  rw [hc2, List.chain'_cons] at hB
  have hlinkB : Link nx pv x b := hB.1
  refine ⟨a, b, hlinkB.1, hlinkA.2, ?_, ?_, hax, hbx, ?_⟩
  · rcases List.mem_cons.1 ha_mem with h | h
    · exact Or.inl h
    · exact Or.inr (by simp [h])
  · rcases List.mem_append.1 hb_mem with h | h
    · exact Or.inr (by simp [h])
    · exact Or.inl (by simpa using h)
  intro nx' pv' hnx hpv
  have herase : (l1 ++ x :: l2).erase x = l1 ++ l2 := by
    rw [List.erase_append_right _ hxl1]; simp
  unfold Ring
  rw [herase]
  have h1 : hd :: (l1 ++ l2) ++ [hd] = (c1 ++ [a]) ++ (b :: c2) := by
    rw [← hc1, ← hc2]; simp
  rw [h1]
  have hndA : (c1 ++ [a]).Nodup := by rw [← hc1]; exact List.nodup_cons.2 ⟨hhd1, hl1⟩
  have hndB : (b :: c2).Nodup := by
    rw [← hc2]; rw [List.nodup_append]
    refine ⟨hl2, by simp, ?_⟩
    intro i hi1 hi2
    simp at hi2; subst hi2; exact hhd2 hi1
  apply List.Chain'.append
  · -- first half
    refine chain_frame _ hA.1 ?_ ?_
    · intro i hi
      rw [List.dropLast_concat] at hi
      have hi' : i ∈ hd :: l1 := by rw [hc1]; simp [hi]
      have hix : i ≠ x := by
        rintro rfl
        rcases List.mem_cons.1 hi' with h | h
        · exact hxhd h
        · exact hxl1 h
      have hia : i ≠ a := by
        rintro rfl
        rw [List.nodup_append] at hndA
        exact hndA.2.2 hi (by simp)
      rw [hnx i, if_neg hix, if_neg hia]
    · intro i hi
      have hi' : i ∈ l1 := by
        have : (c1 ++ [a]).tail = l1 := by rw [← hc1]; rfl
        rw [this] at hi; exact hi
      have hix : i ≠ x := fun h => hxl1 (h ▸ hi')
      have hib : i ≠ b := by
        rintro rfl
        rcases List.mem_append.1 hb_mem with h | h
        · exact hd12 _ hi' h
        · exact hhd1 (by simp at h; exact h ▸ hi')
      rw [hpv i, if_neg hix, if_neg hib]
  · refine chain_frame _ hB.2 ?_ ?_
    · intro i hi
      have hi' : i ∈ l2 := by
        have : (b :: c2).dropLast = l2 := by rw [← hc2]; simp
        rw [this] at hi; exact hi
      have hix : i ≠ x := fun h => hxl2 (h ▸ hi')
      have hia : i ≠ a := by
        rintro rfl
        rcases List.mem_cons.1 ha_mem with h | h
        · exact hhd2 (h ▸ hi')
        · exact hd12 _ h hi'
      rw [hnx i, if_neg hix, if_neg hia]
    · intro i hi
      simp only [List.tail_cons] at hi
      have hi' : i ∈ l2 ++ [hd] := by rw [hc2]; simp [hi]
      have hix : i ≠ x := by
        rintro rfl
        rcases List.mem_append.1 hi' with h | h
        · exact hxl2 h
        · exact hxhd (by simpa using h)
      have hib : i ≠ b := by
        rintro rfl
        exact (List.nodup_cons.1 hndB).1 hi
      rw [hpv i, if_neg hix, if_neg hib]
  · intro p hp q hq
    simp at hp hq
    subst hp; subst hq
    exact ⟨by rw [hnx, if_neg hax, if_pos rfl], by rw [hpv, if_neg hbx, if_pos rfl]⟩


theorem ring_push {nx pv : Nat → Option Nat} {hd x : Nat} {l : List Nat}
    (hr : Ring nx pv hd l) (hnd : (hd :: l).Nodup) (hx : x ∉ hd :: l) :
    ∃ a, pv hd = some a ∧ (a = hd ∨ a ∈ l) ∧ a ≠ x ∧
      (∀ nx' pv' : Nat → Option Nat,
       (∀ i, nx' i = if i = x then some hd else if i = a then some x else nx i) →
       (∀ i, pv' i = if i = hd then some x else if i = x then some a else pv i) →
       Ring nx' pv' hd (l ++ [x])) := by
  obtain ⟨c1, a, hc1⟩ : ∃ c1 a, hd :: l = c1 ++ [a] :=
    ⟨(hd :: l).dropLast, (hd :: l).getLast (by simp), (List.dropLast_append_getLast _).symm⟩
  have ha_mem : a ∈ hd :: l := by rw [hc1]; simp
  have hax : a ≠ x := fun h => hx (h ▸ ha_mem)
  have hxhd : x ≠ hd := fun h => hx (by simp [h])
  unfold Ring at hr
  have h0 : hd :: l ++ [hd] = (c1 ++ [a]) ++ [hd] := by rw [← hc1]
  rw [h0, List.chain'_append] at hr
  have hlink : Link nx pv a hd := hr.2.2 a (by simp) hd (by simp)
  refine ⟨a, hlink.2, ?_, hax, ?_⟩
  · rcases List.mem_cons.1 ha_mem with h | h
    · exact Or.inl h
    · exact Or.inr h
  intro nx' pv' hnx hpv
  unfold Ring
  have h1 : hd :: (l ++ [x]) ++ [hd] = (c1 ++ [a]) ++ [x, hd] := by
    rw [← hc1]; simp
  rw [h1]
  have hndA : (c1 ++ [a]).Nodup := by rw [← hc1]; exact hnd
  apply List.Chain'.append
  · refine chain_frame _ hr.1 ?_ ?_
    · intro i hi
      rw [List.dropLast_concat] at hi
      have hi' : i ∈ hd :: l := by rw [hc1]; simp [hi]
      have hix : i ≠ x := fun h => hx (h ▸ hi')
      have hia : i ≠ a := by
        rintro rfl
        rw [List.nodup_append] at hndA
        exact hndA.2.2 hi (by simp)
      rw [hnx i, if_neg hix, if_neg hia]
    · intro i hi
      have hi' : i ∈ l := by
        have : (c1 ++ [a]).tail = l := by rw [← hc1]; rfl
        rw [this] at hi; exact hi
      have hix : i ≠ x := fun h => hx (by simp [← h, hi'])
      have hih : i ≠ hd := fun h => (List.nodup_cons.1 hnd).1 (h ▸ hi')
      rw [hpv i, if_neg hih, if_neg hix]
  · rw [List.chain'_cons]
    exact ⟨⟨by rw [hnx, if_pos rfl], by rw [hpv, if_pos rfl]⟩, List.chain'_singleton _⟩
  · intro p hp q hq
    simp at hp hq
    subst hp; subst hq
    exact ⟨by rw [hnx, if_neg hax, if_pos rfl], by rw [hpv, if_neg hxhd, if_pos rfl]⟩


theorem walk_chain {nx pv : Nat → Option Nat} {hd : Nat} :
    ∀ (l : List Nat) (fuel : Nat), List.Chain' (Link nx pv) (l ++ [hd]) → hd ∉ l →
      l.length ≤ fuel → walk nx hd fuel ((l ++ [hd]).head (by simp)) = l
  | [], fuel, _, _, _ => by
    cases fuel <;> simp [walk]
  | y :: ys, 0, _, _, hf => by simp at hf
  | y :: ys, fuel + 1, hc, hh, hf => by
    have hy : y ≠ hd := fun h => hh (by simp [h])
    have hys : hd ∉ ys := fun h => hh (by simp [h])
    have hc' : List.Chain' (Link nx pv) (ys ++ [hd]) := by
      have := hc.tail; simpa using this
    have hnx : nx y = some ((ys ++ [hd]).head (by simp)) := by
      cases ys with
      | nil => simpa [Link] using (List.chain'_cons.1 hc).1.1
      | cons z zs => simpa [Link] using (List.chain'_cons.1 hc).1.1
    have ih := walk_chain ys fuel hc' hys (by simpa using hf)
    simp only [List.cons_append, List.head_cons, walk, if_neg hy, hnx, ih]

theorem ring_walk {nx pv : Nat → Option Nat} {hd : Nat} {l : List Nat}
    (hr : Ring nx pv hd l) (hnd : (hd :: l).Nodup) {fuel : Nat} (hf : l.length ≤ fuel) :
    (match nx hd with
     | some n => walk nx hd fuel n
     | none => []) = l := by
  unfold Ring at hr
  have hh : hd ∉ l := (List.nodup_cons.1 hnd).1
  have hnx : nx hd = some ((l ++ [hd]).head (by simp)) := by
    cases l with
    | nil => simpa [Link] using (List.chain'_cons.1 hr).1.1
    | cons z zs => simpa [Link] using (List.chain'_cons.1 hr).1.1
  rw [hnx]
  exact walk_chain l fuel (by simpa using hr.tail) hh hf

theorem ring_head {nx pv : Nat → Option Nat} {hd x : Nat} {l : List Nat}
    (hr : Ring nx pv hd (x :: l)) : nx hd = some x ∧ pv x = some hd := by
  unfold Ring at hr
  exact (List.chain'_cons.1 hr).1

theorem ring_nil_iff {nx pv : Nat → Option Nat} {hd : Nat} :
    Ring nx pv hd [] ↔ nx hd = some hd ∧ pv hd = some hd := by
  unfold Ring
  simp [List.chain'_cons, Link]

theorem nodup_length_le {l : List Nat} {n : Nat} (hnd : l.Nodup) (hb : ∀ a ∈ l, a < n) :
    l.length ≤ n := by
  have hsub : l ⊆ List.range n := fun a ha => List.mem_range.2 (hb a ha)
  have := (List.subperm_of_subset hnd hsub).length_le
  simpa using this

/-! ## Outcomes -/

@[simp] theorem Outcome.ok_bind {α β : Type} (a : α) (f : α → Outcome β) :
    (Outcome.ok a).bind f = f a := rfl

@[simp] theorem Outcome.blocked_bind {α β : Type} (f : α → Outcome β) :
    (Outcome.blocked : Outcome α).bind f = Outcome.blocked := rfl

@[simp] theorem Outcome.aborted_bind {α β : Type} (f : α → Outcome β) :
    (Outcome.aborted : Outcome α).bind f = Outcome.aborted := rfl

@[simp] theorem Outcome.bind_eq {α β : Type} (x : Outcome α) (f : α → Outcome β) :
    (x >>= f) = x.bind f := rfl

@[simp] theorem Outcome.pure_eq {α : Type} (a : α) : (pure a : Outcome α) = Outcome.ok a := rfl

theorem Outcome.bind_eq_ok {α β : Type} {x : Outcome α} {f : α → Outcome β} {b : β} :
    x.bind f = Outcome.ok b ↔ ∃ a, x = Outcome.ok a ∧ f a = Outcome.ok b := by
  cases x <;> simp [Outcome.bind]

/-! ## The heap -/

@[simp] theorem length_modifyAt (h : List WriteCacheBuffer) (a : Nat)
    (f : WriteCacheBuffer → WriteCacheBuffer) : (modifyAt h a f).length = h.length := by
  induction h generalizing a with
  | nil => simp [modifyAt]
  | cons b bs ih => cases a <;> simp [modifyAt, ih]

theorem getElem?_modifyAt (h : List WriteCacheBuffer) (a : Nat)
    (f : WriteCacheBuffer → WriteCacheBuffer) (i : Nat) :
    (modifyAt h a f)[i]? = if i = a then h[i]?.map f else h[i]? := by
  induction h generalizing a i with
  | nil => simp [modifyAt]
  | cons b bs ih =>
    cases a with
    | zero => cases i <;> simp [modifyAt]
    | succ a => cases i <;> simp [modifyAt, ih]

theorem update_ok {s : FileCacheImpl} {a : Nat} (f : WriteCacheBuffer → WriteCacheBuffer)
    (ha : a < s.heap.length) :
    s.update a f = Outcome.ok { s with heap := modifyAt s.heap a f } := by
  simp [FileCacheImpl.update, ha]

theorem deref_ok {s : FileCacheImpl} {a : Nat} {b : WriteCacheBuffer}
    (hb : s.heap[a]? = some b) : s.deref a = Outcome.ok b := by
  simp [FileCacheImpl.deref, hb, Outcome.ofOption]

theorem nextOf_modifyAt (h : List WriteCacheBuffer) (a : Nat)
    (f : WriteCacheBuffer → WriteCacheBuffer) (i : Nat) :
    nextOf (modifyAt h a f) i = if i = a then h[i]?.bind (fun b => (f b).next) else nextOf h i := by
  unfold nextOf
  rw [getElem?_modifyAt]
  split <;> simp [Option.bind_map, Function.comp_def]

theorem prevOf_modifyAt (h : List WriteCacheBuffer) (a : Nat)
    (f : WriteCacheBuffer → WriteCacheBuffer) (i : Nat) :
    prevOf (modifyAt h a f) i = if i = a then h[i]?.bind (fun b => (f b).prev) else prevOf h i := by
  unfold prevOf
  rw [getElem?_modifyAt]
  split <;> simp [Option.bind_map, Function.comp_def]

theorem freeList_pop_eq (s : FileCacheImpl) (x nx pv : Nat) (b : WriteCacheBuffer)
    (hb : s.heap[x]? = some b) (hnx : b.next = some nx) (hpv : b.prev = some pv)
    (h1 : nx < s.heap.length) (h2 : pv < s.heap.length) :
    freeList_pop s x = Outcome.ok
      { s with
        heap := modifyAt (modifyAt (modifyAt (modifyAt s.heap pv
                  (fun b => { b with next := some nx })) nx
                  (fun b => { b with prev := some pv })) x
                  (fun b => { b with next := none })) x
                  (fun b => { b with prev := none })
        freeListSize_ := (s.freeListSize_ + UINT_MOD - 1) % UINT_MOD } := by
  have hx : x < s.heap.length := by
    rcases List.getElem?_eq_some.1 hb with ⟨h, _⟩; exact h
  simp [freeList_pop, deref_ok hb, hnx, hpv, Outcome.ofOption, FileCacheImpl.update, h1, h2, hx]

/-! ## The names refused by the file system stay the same -/

theorem update_refused {s s' : FileCacheImpl} {a : Nat} {g : WriteCacheBuffer → WriteCacheBuffer}
    (h : s.update a g = Outcome.ok s') : s'.refused = s.refused := by
  unfold FileCacheImpl.update at h
  split at h
  · cases h; rfl
  · cases h

theorem freeList_pop_refused {s s' : FileCacheImpl} {x : Nat}
    (h : freeList_pop s x = Outcome.ok s') : s'.refused = s.refused := by
  simp only [freeList_pop, Outcome.bind_eq, Outcome.pure_eq, Outcome.bind_eq_ok] at h
  obtain ⟨b, -, n, -, p, -, s1, h1, s2, h2, s3, h3, s4, h4, h5⟩ := h
  cases h5
  simp only [update_refused h4, update_refused h3, update_refused h2, update_refused h1]

theorem freeList_pop_front_refused {s s' : FileCacheImpl} {x : Nat}
    (h : freeList_pop_front s = Outcome.ok (s', x)) : s'.refused = s.refused := by
  simp only [freeList_pop_front, Outcome.bind_eq, Outcome.pure_eq, Outcome.bind_eq_ok] at h
  obtain ⟨hd, -, r, -, rb, -, n, -, s1, h1, s2, h2, s3, h3, s4, h4, h5⟩ := h
  cases h5
  simp only [update_refused h4, update_refused h3, update_refused h2, update_refused h1]

theorem freeList_push_back_refused {s s' : FileCacheImpl} {x : Nat}
    (h : freeList_push_back s x = Outcome.ok s') : s'.refused = s.refused := by
  simp only [freeList_push_back, Outcome.bind_eq, Outcome.pure_eq, Outcome.bind_eq_ok] at h
  obtain ⟨hd, -, s1, h1, s2, h2, p, -, s3, h3, s4, h4, h5⟩ := h
  cases h5
  simp only [update_refused h4, update_refused h3, update_refused h2, update_refused h1]

/-! ## Views of the heap under updates -/

theorem nextOf_eq_some {h : List WriteCacheBuffer} {a n : Nat} :
    nextOf h a = some n ↔ ∃ b, h[a]? = some b ∧ b.next = some n := by
  simp [nextOf, Option.bind_eq_some]

theorem prevOf_eq_some {h : List WriteCacheBuffer} {a n : Nat} :
    prevOf h a = some n ↔ ∃ b, h[a]? = some b ∧ b.prev = some n := by
  simp [prevOf, Option.bind_eq_some]

theorem nextOf_of_get {h : List WriteCacheBuffer} {a : Nat} {b : WriteCacheBuffer}
    (hb : h[a]? = some b) : nextOf h a = b.next := by simp [nextOf, hb]

theorem prevOf_of_get {h : List WriteCacheBuffer} {a : Nat} {b : WriteCacheBuffer}
    (hb : h[a]? = some b) : prevOf h a = b.prev := by simp [prevOf, hb]

theorem lt_of_nextOf {h : List WriteCacheBuffer} {a n : Nat} (hn : nextOf h a = some n) :
    a < h.length := by
  obtain ⟨b, hb, _⟩ := nextOf_eq_some.1 hn
  exact (List.getElem?_eq_some.1 hb).1

theorem lt_of_prevOf {h : List WriteCacheBuffer} {a n : Nat} (hn : prevOf h a = some n) :
    a < h.length := by
  obtain ⟨b, hb, _⟩ := prevOf_eq_some.1 hn
  exact (List.getElem?_eq_some.1 hb).1

theorem nextOf_modifyAt_same {h : List WriteCacheBuffer} {a : Nat}
    {f : WriteCacheBuffer → WriteCacheBuffer} (hf : ∀ b, (f b).next = b.next) (i : Nat) :
    nextOf (modifyAt h a f) i = nextOf h i := by
  rw [nextOf_modifyAt]
  split
  · simp [nextOf, hf]
  · rfl

theorem prevOf_modifyAt_same {h : List WriteCacheBuffer} {a : Nat}
    {f : WriteCacheBuffer → WriteCacheBuffer} (hf : ∀ b, (f b).prev = b.prev) (i : Nat) :
    prevOf (modifyAt h a f) i = prevOf h i := by
  rw [prevOf_modifyAt]
  split
  · simp [prevOf, hf]
  · rfl

theorem nextOf_modifyAt_set {h : List WriteCacheBuffer} {a : Nat}
    {f : WriteCacheBuffer → WriteCacheBuffer} {v : Option Nat} (hf : ∀ b, (f b).next = v)
    (ha : a < h.length) (i : Nat) :
    nextOf (modifyAt h a f) i = if i = a then v else nextOf h i := by
  rw [nextOf_modifyAt]
  split
  · subst i
    obtain ⟨b, hb⟩ : ∃ b, h[a]? = some b := ⟨h[a], List.getElem?_eq_getElem ha⟩
    simp [hb, hf]
  · rfl

theorem prevOf_modifyAt_set {h : List WriteCacheBuffer} {a : Nat}
    {f : WriteCacheBuffer → WriteCacheBuffer} {v : Option Nat} (hf : ∀ b, (f b).prev = v)
    (ha : a < h.length) (i : Nat) :
    prevOf (modifyAt h a f) i = if i = a then v else prevOf h i := by
  rw [prevOf_modifyAt]
  split
  · subst i
    obtain ⟨b, hb⟩ : ∃ b, h[a]? = some b := ⟨h[a], List.getElem?_eq_getElem ha⟩
    simp [hb, hf]
  · rfl

theorem SameData.refl (h : List WriteCacheBuffer) : SameData h h := ⟨rfl, fun _ => rfl⟩

theorem SameData.trans {h1 h2 h3 : List WriteCacheBuffer} (h12 : SameData h1 h2)
    (h23 : SameData h2 h3) : SameData h1 h3 :=
  ⟨h23.1.trans h12.1, fun i => (h23.2 i).trans (h12.2 i)⟩

theorem SameData.modifyAt (h : List WriteCacheBuffer) (a : Nat)
    {f : WriteCacheBuffer → WriteCacheBuffer} (hf : ∀ b, (f b).data = b.data) :
    SameData h (modifyAt h a f) := by
  refine ⟨length_modifyAt _ _ _, fun i => ?_⟩
  rw [getElem?_modifyAt]
  split
  · cases h[i]? <;> simp [hf]
  · rfl

theorem SameData.get {h h' : List WriteCacheBuffer} (hs : SameData h h') {i : Nat}
    {b' : WriteCacheBuffer} (hb : h'[i]? = some b') :
    ∃ b, h[i]? = some b ∧ b.fileName = b'.fileName ∧ b.pinCount = b'.pinCount ∧
      b.status = b'.status ∧ b.buffer = b'.buffer := by
  have := hs.2 i
  rw [hb] at this
  cases hh : h[i]? with
  | none => rw [hh] at this; simp at this
  | some b =>
    rw [hh] at this
    simp [WriteCacheBuffer.data] at this
    exact ⟨b, rfl, this.1.symm, this.2.1.symm, this.2.2.1.symm, this.2.2.2.symm⟩

theorem SameData.get' {h h' : List WriteCacheBuffer} (hs : SameData h h') {i : Nat}
    {b : WriteCacheBuffer} (hb : h[i]? = some b) :
    ∃ b', h'[i]? = some b' ∧ b'.fileName = b.fileName ∧ b'.pinCount = b.pinCount ∧
      b'.status = b.status ∧ b'.buffer = b.buffer := by
  have := hs.2 i
  rw [hb] at this
  cases hh : h'[i]? with
  | none => rw [hh] at this; simp at this
  | some b' =>
    rw [hh] at this
    simp [WriteCacheBuffer.data] at this
    exact ⟨b', rfl, this.1, this.2.1, this.2.2.1, this.2.2.2⟩

theorem nextOf_setNext {h : List WriteCacheBuffer} {a : Nat} {v : Option Nat}
    (ha : a < h.length) (i : Nat) :
    nextOf (modifyAt h a (fun b => { b with next := v })) i
      = if i = a then v else nextOf h i :=
  nextOf_modifyAt_set (f := fun b => { b with next := v }) (fun _ => rfl) ha i

theorem nextOf_setPrev {h : List WriteCacheBuffer} {a : Nat} {v : Option Nat} (i : Nat) :
    nextOf (modifyAt h a (fun b => { b with prev := v })) i = nextOf h i :=
  nextOf_modifyAt_same (f := fun b => { b with prev := v }) (fun _ => rfl) i

theorem prevOf_setPrev {h : List WriteCacheBuffer} {a : Nat} {v : Option Nat}
    (ha : a < h.length) (i : Nat) :
    prevOf (modifyAt h a (fun b => { b with prev := v })) i
      = if i = a then v else prevOf h i :=
  prevOf_modifyAt_set (f := fun b => { b with prev := v }) (fun _ => rfl) ha i

theorem prevOf_setNext {h : List WriteCacheBuffer} {a : Nat} {v : Option Nat} (i : Nat) :
    prevOf (modifyAt h a (fun b => { b with next := v })) i = prevOf h i :=
  prevOf_modifyAt_same (f := fun b => { b with next := v }) (fun _ => rfl) i

theorem sameData_setNext (h : List WriteCacheBuffer) (a : Nat) (v : Option Nat) :
    SameData h (modifyAt h a (fun b => { b with next := v })) :=
  SameData.modifyAt h a (fun _ => rfl)

theorem sameData_setPrev (h : List WriteCacheBuffer) (a : Nat) (v : Option Nat) :
    SameData h (modifyAt h a (fun b => { b with prev := v })) :=
  SameData.modifyAt h a (fun _ => rfl)

/-! ## The three operations of the free list -/

theorem ListInv.mem_ne_zero {s : FileCacheImpl} {l : List Nat} (hi : ListInv s l) {a : Nat}
    (ha : a ∈ l) : a ≠ 0 := by
  rintro rfl
  exact (List.nodup_cons.1 hi.nodup).1 ha

theorem ListInv.length_lt {s : FileCacheImpl} {l : List Nat} (hi : ListInv s l) :
    l.length < s.heap.length := by
  have h1 : (0 :: l).length ≤ s.heap.length := by
    apply nodup_length_le hi.nodup
    intro a ha
    rcases List.mem_cons.1 ha with h | h
    · rw [h]; exact hi.heap_pos
    · exact hi.bound a h
  simpa using h1

theorem ListInv.freeList_eq {s : FileCacheImpl} {l : List Nat} (hi : ListInv s l) :
    freeList s = l := by
  unfold freeList
  rw [hi.head]
  exact ring_walk hi.ring hi.nodup (le_of_lt hi.length_lt)

/-- Unlinking a member `x`: the shape of the free list after the links were
rewired around `x`. -/
theorem ListInv.unlink {s s' : FileCacheImpl} {l : List Nat} {x a b : Nat}
    (hi : ListInv s l) (hx : x ∈ l)
    (ha : prevOf s.heap x = some a) (hb : nextOf s.heap x = some b)
    (hhead : s'.freeListHead_ = s.freeListHead_)
    (hlen : s'.heap.length = s.heap.length)
    (hsize : s'.freeListSize_ = (s.freeListSize_ + UINT_MOD - 1) % UINT_MOD)
    (hnx : ∀ i, nextOf s'.heap i = if i = x then none else if i = a then some b
      else nextOf s.heap i)
    (hpv : ∀ i, prevOf s'.heap i = if i = x then none else if i = b then some a
      else prevOf s.heap i) :
    ListInv s' (l.erase x) := by
  obtain ⟨a', b', hb', ha', ha_mem, hb_mem, hax, hbx, hring⟩ := ring_unlink hi.ring hi.nodup hx
  have hab : a' = a := by rw [ha] at ha'; exact (Option.some.inj ha').symm
  have hbb : b' = b := by rw [hb] at hb'; exact (Option.some.inj hb').symm
  subst hab; subst hbb
  have hnd : l.Nodup := (List.nodup_cons.1 hi.nodup).2
  refine ⟨hhead.trans hi.head, hlen ▸ hi.heap_pos, hring _ _ hnx hpv, ?_, ?_, ?_, ?_⟩
  · refine List.nodup_cons.2 ⟨fun h => (List.nodup_cons.1 hi.nodup).1 (List.mem_of_mem_erase h),
      hnd.erase x⟩
  · intro i hi'
    rw [hlen]; exact hi.bound i (List.mem_of_mem_erase hi')
  · rw [hsize, hi.size, List.length_erase_of_mem hx]
    have : 0 < l.length := List.length_pos_of_mem hx
    unfold UINT_MOD
    omega
  · intro i hi0 hil
    rw [hnx, hpv]
    by_cases hix : i = x
    · simp [hix]
    · have hil' : i ∉ l := fun h => hil ((List.mem_erase_of_ne hix).2 h)
      have hia : i ≠ a' := by
        rintro rfl
        rcases ha_mem with h | h
        · exact hi0 h
        · exact hil' h
      have hib : i ≠ b' := by
        rintro rfl
        rcases hb_mem with h | h
        · exact hi0 h
        · exact hil' h
      simp [hix, hia, hib, hi.unlinked i hi0 hil']

theorem freeList_pop_spec {s : FileCacheImpl} {l : List Nat} {x : Nat}
    (hi : ListInv s l) (hx : x ∈ l) :
    ∃ s', freeList_pop s x = Outcome.ok s' ∧ ListInv s' (l.erase x) ∧ LinksOnly s s' := by
  obtain ⟨a, b, hb, ha, ha_mem, hb_mem, hax, hbx, -⟩ := ring_unlink hi.ring hi.nodup hx
  have hal : a < s.heap.length := by
    rcases ha_mem with h | h
    · rw [h]; exact hi.heap_pos
    · exact hi.bound a h
  have hbl : b < s.heap.length := by
    rcases hb_mem with h | h
    · rw [h]; exact hi.heap_pos
    · exact hi.bound b h
  have hxl : x < s.heap.length := hi.bound x hx
  obtain ⟨bx, hbx1, hbx2⟩ := nextOf_eq_some.1 hb
  have hbx3 : bx.prev = some a := by
    rw [← prevOf_of_get hbx1]; exact ha
  refine ⟨_, freeList_pop_eq s x b a bx hbx1 hbx2 hbx3 hbl hal, ?_, ?_⟩
  · refine hi.unlink hx ha hb rfl (by simp) rfl ?_ ?_
    · intro i
      simp only
      rw [nextOf_setPrev,
        nextOf_setNext (by simpa using hxl),
        nextOf_setPrev,
        nextOf_setNext hal]
    · intro i
      simp only
      rw [prevOf_setPrev (by simpa using hxl),
        prevOf_setNext,
        prevOf_setPrev (by simpa using hbl),
        prevOf_setNext]
  · refine ⟨rfl, rfl, rfl, ?_⟩
    exact (((sameData_setNext _ _ _).trans (sameData_setPrev _ _ _)).trans
      (sameData_setNext _ _ _)).trans (sameData_setPrev _ _ _)

theorem freeList_pop_front_eq (s : FileCacheImpl) (x nx : Nat) (hd b : WriteCacheBuffer)
    (hh : s.freeListHead_ = 0)
    (hhd : s.heap[0]? = some hd) (hx : hd.next = some x)
    (hb : s.heap[x]? = some b) (hnx : b.next = some nx) (h1 : nx < s.heap.length) :
    freeList_pop_front s = Outcome.ok
      ({ s with
        heap := modifyAt (modifyAt (modifyAt (modifyAt s.heap x
                  (fun b => { b with next := none })) x
                  (fun b => { b with prev := none })) 0
                  (fun b => { b with next := some nx })) nx
                  (fun b => { b with prev := some 0 })
        freeListSize_ := (s.freeListSize_ + UINT_MOD - 1) % UINT_MOD }, x) := by
  have hxl : x < s.heap.length := (List.getElem?_eq_some.1 hb).1
  have hhl : 0 < s.heap.length := (List.getElem?_eq_some.1 hhd).1
  simp [freeList_pop_front, hh, deref_ok hhd, deref_ok hb, hx, hnx, Outcome.ofOption,
    FileCacheImpl.update, h1, hxl, hhl]

theorem freeList_pop_front_spec {s : FileCacheImpl} {x : Nat} {l : List Nat}
    (hi : ListInv s (x :: l)) :
    ∃ s', freeList_pop_front s = Outcome.ok (s', x) ∧ ListInv s' l ∧ LinksOnly s s' := by
  have hx : x ∈ x :: l := by simp
  obtain ⟨a, b, hb, ha, ha_mem, hb_mem, hax, hbx, -⟩ := ring_unlink hi.ring hi.nodup hx
  obtain ⟨hh1, hh2⟩ := ring_head hi.ring
  have ha0 : a = 0 := by rw [hh2] at ha; exact (Option.some.inj ha).symm
  subst ha0
  have hbl : b < s.heap.length := by
    rcases hb_mem with h | h
    · rw [h]; exact hi.heap_pos
    · exact hi.bound b h
  have hxl : x < s.heap.length := hi.bound x hx
  have hx0 : x ≠ 0 := hi.mem_ne_zero hx
  obtain ⟨bx, hbx1, hbx2⟩ := nextOf_eq_some.1 hb
  obtain ⟨bh, hbh1, hbh2⟩ := nextOf_eq_some.1 hh1
  have heq := freeList_pop_front_eq s x b bh bx hi.head hbh1 hbh2 hbx1 hbx2 hbl
  refine ⟨_, heq, ?_, ?_⟩
  · have he : (x :: l).erase x = l := List.erase_cons_head x l
    rw [← he]
    refine hi.unlink hx ha hb rfl (by simp) rfl ?_ ?_
    · intro i
      simp only
      rw [nextOf_setPrev,
        nextOf_setNext (by simpa using hi.heap_pos),
        nextOf_setPrev,
        nextOf_setNext hxl]
      by_cases h1 : i = x
      · subst h1; simp [hx0]
      · simp [h1]
    · intro i
      simp only
      rw [prevOf_setPrev (by simpa using hbl),
        prevOf_setNext,
        prevOf_setPrev (by simpa using hxl),
        prevOf_setNext]
      by_cases h1 : i = x
      · subst h1; simp [hbx.symm]
      · simp [h1]
  · refine ⟨rfl, rfl, rfl, ?_⟩
    exact (((sameData_setNext _ _ _).trans (sameData_setPrev _ _ _)).trans
      (sameData_setNext _ _ _)).trans (sameData_setPrev _ _ _)

theorem freeList_push_back_eq (s : FileCacheImpl) (x a : Nat) (hd : WriteCacheBuffer)
    (hh : s.freeListHead_ = 0)
    (hhd : s.heap[0]? = some hd) (ha : hd.prev = some a)
    (hxl : x < s.heap.length) (hal : a < s.heap.length) :
    freeList_push_back s x = Outcome.ok
      { s with
        heap := modifyAt (modifyAt (modifyAt (modifyAt s.heap x
                  (fun b => { b with prev := some a })) x
                  (fun b => { b with next := some 0 })) a
                  (fun b => { b with next := some x })) 0
                  (fun b => { b with prev := some x })
        freeListSize_ := (s.freeListSize_ + 1) % UINT_MOD } := by
  have hhl : 0 < s.heap.length := (List.getElem?_eq_some.1 hhd).1
  simp [freeList_push_back, hh, deref_ok hhd, ha, Outcome.ofOption,
    FileCacheImpl.update, hxl, hal, hhl]

theorem freeList_push_back_spec {s : FileCacheImpl} {x : Nat} {l : List Nat}
    (hi : ListInv s l) (hx0 : x ≠ 0) (hx : x ∉ l) (hxl : x < s.heap.length) :
    ∃ s', freeList_push_back s x = Outcome.ok s' ∧ ListInv s' (l ++ [x]) ∧ LinksOnly s s' := by
  have hx' : x ∉ 0 :: l := by simp [hx0, hx]
  obtain ⟨a, ha, ha_mem, hax, hring⟩ := ring_push hi.ring hi.nodup hx'
  have hal : a < s.heap.length := by
    rcases ha_mem with h | h
    · rw [h]; exact hi.heap_pos
    · exact hi.bound a h
  obtain ⟨bh, hbh1, hbh2⟩ := prevOf_eq_some.1 ha
  have heq := freeList_push_back_eq s x a bh hi.head hbh1 hbh2 hxl hal
  have hnx : ∀ i, nextOf (modifyAt (modifyAt (modifyAt (modifyAt s.heap x
                  (fun b => { b with prev := some a })) x
                  (fun b => { b with next := some 0 })) a
                  (fun b => { b with next := some x })) 0
                  (fun b => { b with prev := some x })) i
      = if i = x then some 0 else if i = a then some x else nextOf s.heap i := by
    intro i
    rw [nextOf_setPrev,
      nextOf_setNext (by simpa using hal),
      nextOf_setNext (by simpa using hxl),
      nextOf_setPrev]
    by_cases h1 : i = x
    · subst h1; simp [hax.symm]
    · simp [h1]
  have hpv : ∀ i, prevOf (modifyAt (modifyAt (modifyAt (modifyAt s.heap x
                  (fun b => { b with prev := some a })) x
                  (fun b => { b with next := some 0 })) a
                  (fun b => { b with next := some x })) 0
                  (fun b => { b with prev := some x })) i
      = if i = 0 then some x else if i = x then some a else prevOf s.heap i := by
    intro i
    rw [prevOf_setPrev (by simpa using hi.heap_pos),
      prevOf_setNext,
      prevOf_setNext,
      prevOf_setPrev hxl]
  refine ⟨_, heq, ⟨hi.head, by simpa using hi.heap_pos, hring _ _ hnx hpv, ?_, ?_, ?_, ?_⟩, ?_⟩
  · have hnd := List.nodup_cons.1 hi.nodup
    rw [List.nodup_cons]
    refine ⟨by simp [hnd.1, Ne.symm hx0], ?_⟩
    rw [List.nodup_append]
    refine ⟨hnd.2, by simp, ?_⟩
    intro i h1 h2
    simp at h2; subst h2; exact hx h1
  · intro i hi'
    simp only [length_modifyAt]
    rcases List.mem_append.1 hi' with h | h
    · exact hi.bound i h
    · simp at h; subst h; exact hxl
  · simp only [List.length_append, List.length_singleton]
    rw [hi.size]
    unfold UINT_MOD
    omega
  · intro i hi0 hil
    simp only
    rw [hnx, hpv]
    have hix : i ≠ x := fun h => hil (by simp [h])
    have hil' : i ∉ l := fun h => hil (by simp [h])
    have hia : i ≠ a := by
      rintro rfl
      rcases ha_mem with h | h
      · exact hi0 h
      · exact hil' h
    simp [hix, hia, hi0, hi.unlinked i hi0 hil']
  · refine ⟨rfl, rfl, rfl, ?_⟩
    exact (((sameData_setPrev _ _ _).trans (sameData_setNext _ _ _)).trans
      (sameData_setNext _ _ _)).trans (sameData_setPrev _ _ _)

/-! ## Status bits -/

theorem or_pinned_and (st : Nat) : (st ||| PINNED) &&& PINNED = 1 := by
  unfold PINNED
  rw [Nat.and_comm, Nat.and_or_distrib_left]
  have h1 : 1 &&& 1 = 1 := by decide
  rw [h1]
  have h := Nat.and_one_is_mod st
  rw [Nat.and_comm] at h
  rw [h]
  rcases Nat.mod_two_eq_zero_or_one st with h | h <;> rw [h] <;> decide

theorem or_pinned_and_ne (st : Nat) : (st ||| PINNED) &&& PINNED ≠ 0 := by
  rw [or_pinned_and]; decide

theorem and_not_pinned_and (st : Nat) : (st &&& bitNot PINNED) &&& PINNED = 0 := by
  rw [Nat.and_assoc]
  have h1 : bitNot PINNED &&& PINNED = 0 := by decide
  rw [h1]; simp

theorem or_dirty_and_pinned (st : Nat) : (st ||| DIRTY) &&& PINNED = st &&& PINNED := by
  rw [Nat.and_comm, Nat.and_or_distrib_left]
  have h1 : PINNED &&& DIRTY = 0 := by decide
  rw [h1, Nat.or_zero, Nat.and_comm]

theorem and_not_dirty_and_pinned (st : Nat) :
    (st &&& bitNot DIRTY) &&& PINNED = st &&& PINNED := by
  rw [Nat.and_assoc]
  have h1 : bitNot DIRTY &&& PINNED = PINNED := by decide
  rw [h1]

theorem and_not_dirty_and_dirty (st : Nat) : (st &&& bitNot DIRTY) &&& DIRTY = 0 := by
  rw [Nat.and_assoc]
  have h1 : bitNot DIRTY &&& DIRTY = 0 := by decide
  rw [h1]; simp

theorem or_pinned_and_dirty (st : Nat) : (st ||| PINNED) &&& DIRTY = st &&& DIRTY := by
  rw [Nat.and_comm, Nat.and_or_distrib_left]
  have h1 : DIRTY &&& PINNED = 0 := by decide
  rw [h1, Nat.or_zero, Nat.and_comm]

theorem and_not_pinned_and_dirty (st : Nat) :
    (st &&& bitNot PINNED) &&& DIRTY = st &&& DIRTY := by
  rw [Nat.and_assoc]
  have h1 : bitNot PINNED &&& DIRTY = DIRTY := by decide
  rw [h1]

theorem or_dirty_and_dirty_ne (st : Nat) : (st ||| DIRTY) &&& DIRTY ≠ 0 := by
  unfold DIRTY
  intro h
  have h2 : Nat.testBit 2 1 = true := by decide
  have := congrArg (fun x => Nat.testBit x 1) h
  simp [Nat.testBit_and, Nat.testBit_or, h2] at this

/-! ## The map and the file system -/

theorem mapFind_nil (k : String) : mapFind [] k = none := rfl

theorem mapFind_cons (k' : String) (v' : Nat) (m : List (String × Nat)) (k : String) :
    mapFind ((k', v') :: m) k = if k = k' then some v' else mapFind m k := by
  unfold mapFind
  rw [List.lookup_cons]
  by_cases h : k = k'
  · simp [h]
  · have : (k == k') = false := by simpa using h
    simp [this, h]

theorem mapFind_mapInsert (m : List (String × Nat)) (k : String) (v : Nat) (k' : String) :
    mapFind (mapInsert m k v) k' = if k' = k then some v else mapFind m k' := by
  induction m with
  | nil => simp [mapInsert, mapFind_cons, mapFind_nil]
  | cons p rest ih =>
    obtain ⟨k0, v0⟩ := p
    unfold mapInsert
    by_cases h0 : k0 = k
    · subst h0
      simp only [if_true, mapFind_cons]
      by_cases h1 : k' = k0 <;> simp [h1]
    · simp only [if_neg h0]
      by_cases hlt : keyLt k k0
      · simp only [if_pos hlt, mapFind_cons]
      · simp only [if_neg hlt, mapFind_cons, ih]
        by_cases h1 : k' = k0
        · subst h1
          simp [h0]
        · simp [h1]

theorem length_mapInsert_of_none (m : List (String × Nat)) (k : String) (v : Nat)
    (h : mapFind m k = none) : (mapInsert m k v).length = m.length + 1 := by
  induction m with
  | nil => simp [mapInsert]
  | cons p rest ih =>
    obtain ⟨k0, v0⟩ := p
    rw [mapFind_cons] at h
    by_cases h0 : k = k0
    · simp [h0] at h
    · rw [if_neg h0] at h
      unfold mapInsert
      rw [if_neg (Ne.symm h0)]
      by_cases hlt : keyLt k k0
      · simp [hlt]
      · simp [hlt, ih h]

theorem length_mapInsert_le (m : List (String × Nat)) (k : String) (v : Nat) :
    m.length ≤ (mapInsert m k v).length := by
  induction m with
  | nil => simp [mapInsert]
  | cons p rest ih =>
    obtain ⟨k0, v0⟩ := p
    unfold mapInsert
    by_cases h0 : k0 = k
    · simp [h0]
    · by_cases hlt : keyLt k k0
      · simp [h0, hlt]
      · simp [h0, hlt, ih]

theorem lookup_writeFile (fs : List (String × List Byte)) (n : String) (c : List Byte)
    (m : String) :
    (writeFile fs n c).lookup m = if m = n then some c else fs.lookup m := by
  induction fs with
  | nil =>
    by_cases h : m = n
    · simp [writeFile, h, List.lookup_cons]
    · have : (m == n) = false := by simpa using h
      simp [writeFile, h, List.lookup_cons, this]
  | cons p rest ih =>
    obtain ⟨k0, v0⟩ := p
    unfold writeFile
    by_cases h0 : k0 = n
    · subst h0
      by_cases h : m = k0
      · simp [h, List.lookup_cons]
      · have : (m == k0) = false := by simpa using h
        simp [h, List.lookup_cons, this]
    · rw [if_neg h0]
      by_cases h : m = k0
      · subst h
        simp [List.lookup_cons, h0]
      · have : (m == k0) = false := by simpa using h
        simp [List.lookup_cons, this, ih]

theorem mem_keys_mapInsert (m : List (String × Nat)) (k : String) (v : Nat) (x : String) :
    x ∈ (mapInsert m k v).map Prod.fst ↔ x = k ∨ x ∈ m.map Prod.fst := by
  induction m with
  | nil => simp [mapInsert]
  | cons p rest ih =>
    obtain ⟨k0, v0⟩ := p
    unfold mapInsert
    by_cases h0 : k0 = k
    · subst h0; simp
    · by_cases hlt : keyLt k k0
      · simp [h0, hlt]
      · simp only [h0, hlt, if_false, List.map_cons, List.mem_cons, ih]
        tauto

theorem mapFind_eq_none_iff (m : List (String × Nat)) (k : String) :
    mapFind m k = none ↔ k ∉ m.map Prod.fst := by
  induction m with
  | nil => simp [mapFind_nil]
  | cons p rest ih =>
    obtain ⟨k0, v0⟩ := p
    rw [mapFind_cons]
    by_cases h : k = k0
    · simp [h]
    · simp [h, ih]

theorem nodup_keys_mapInsert (m : List (String × Nat)) (k : String) (v : Nat)
    (hm : (m.map Prod.fst).Nodup) (hk : mapFind m k = none) :
    ((mapInsert m k v).map Prod.fst).Nodup := by
  induction m with
  | nil => simp [mapInsert]
  | cons p rest ih =>
    obtain ⟨k0, v0⟩ := p
    rw [mapFind_cons] at hk
    have h0 : k ≠ k0 := by
      intro h; simp [h] at hk
    rw [if_neg h0] at hk
    simp only [List.map_cons, List.nodup_cons] at hm
    unfold mapInsert
    rw [if_neg (Ne.symm h0)]
    by_cases hlt : keyLt k k0
    · simp only [hlt, if_true, List.map_cons, List.nodup_cons, List.mem_cons, not_or]
      exact ⟨⟨h0, (mapFind_eq_none_iff rest k).1 hk⟩, hm.1, hm.2⟩
    · simp only [hlt, if_false, List.map_cons, List.nodup_cons, mem_keys_mapInsert, not_or]
      exact ⟨⟨Ne.symm h0, hm.1⟩, ih hm.2 hk⟩

theorem mapFind_of_mem (m : List (String × Nat)) (k : String) (v : Nat)
    (hm : (m.map Prod.fst).Nodup) (h : (k, v) ∈ m) : mapFind m k = some v := by
  induction m with
  | nil => simp at h
  | cons p rest ih =>
    obtain ⟨k0, v0⟩ := p
    simp only [List.map_cons, List.nodup_cons] at hm
    rw [mapFind_cons]
    rcases List.mem_cons.1 h with h1 | h1
    · cases h1; simp
    · have hne : k ≠ k0 := by
        rintro rfl
        exact hm.1 (List.mem_map.2 ⟨(k, v), h1, rfl⟩)
      rw [if_neg hne]
      exact ih hm.2 h1

theorem mem_of_mapFind (m : List (String × Nat)) (k : String) (v : Nat)
    (h : mapFind m k = some v) : (k, v) ∈ m := by
  induction m with
  | nil => simp [mapFind_nil] at h
  | cons p rest ih =>
    obtain ⟨k0, v0⟩ := p
    rw [mapFind_cons] at h
    by_cases hk : k = k0
    · rw [if_pos hk] at h
      cases h; subst hk; simp
    · rw [if_neg hk] at h
      exact List.mem_cons_of_mem _ (ih h)

/-! ## Preservation of the invariant: generic steps -/

theorem getElem?_modifyAt_of_get {h : List WriteCacheBuffer} {a : Nat} {b : WriteCacheBuffer}
    (f : WriteCacheBuffer → WriteCacheBuffer) (hb : h[a]? = some b) (i : Nat) :
    (modifyAt h a f)[i]? = if i = a then some (f b) else h[i]? := by
  rw [getElem?_modifyAt]
  split
  · subst i; simp [hb]
  · rfl

theorem getElem?_modifyAt_ne {h : List WriteCacheBuffer} {a i : Nat}
    (f : WriteCacheBuffer → WriteCacheBuffer) (hi : i ≠ a) :
    (modifyAt h a f)[i]? = h[i]? := by
  rw [getElem?_modifyAt, if_neg hi]

theorem modifyAt_modifyAt (h : List WriteCacheBuffer) (a : Nat)
    (f g : WriteCacheBuffer → WriteCacheBuffer) :
    modifyAt (modifyAt h a f) a g = modifyAt h a (fun b => g (f b)) := by
  apply List.ext_getElem?
  intro i
  simp only [getElem?_modifyAt]
  split
  · simp [Option.map_map, Function.comp_def]
  · rfl

theorem ring_congr {nx pv nx' pv' : Nat → Option Nat} {hd : Nat} {l : List Nat}
    (hr : Ring nx pv hd l) (hnx : ∀ i, nx' i = nx i) (hpv : ∀ i, pv' i = pv i) :
    Ring nx' pv' hd l := by
  have h1 : nx' = nx := funext hnx
  have h2 : pv' = pv := funext hpv
  rw [h1, h2]; exact hr

theorem ListInv.of_links {s s' : FileCacheImpl} {l : List Nat} (hi : ListInv s l)
    (hh : s'.freeListHead_ = s.freeListHead_) (hlen : s.heap.length ≤ s'.heap.length)
    (hsz : s'.freeListSize_ = s.freeListSize_)
    (hnx : ∀ i, nextOf s'.heap i = nextOf s.heap i)
    (hpv : ∀ i, prevOf s'.heap i = prevOf s.heap i) : ListInv s' l :=
  ⟨hh.trans hi.head, lt_of_lt_of_le hi.heap_pos hlen, ring_congr hi.ring hnx hpv, hi.nodup,
    fun a ha => lt_of_lt_of_le (hi.bound a ha) hlen, hsz.trans hi.size,
    fun a h0 hl => by rw [hnx, hpv]; exact hi.unlinked a h0 hl⟩

theorem sameData_links {h h' : List WriteCacheBuffer} (hs : SameData h h') {i : Nat}
    {b b' : WriteCacheBuffer} (hb : h[i]? = some b) (hb' : h'[i]? = some b') :
    b'.fileName = b.fileName ∧ b'.pinCount = b.pinCount ∧ b'.status = b.status ∧
      b'.buffer = b.buffer := by
  obtain ⟨c, hc, h1, h2, h3, h4⟩ := hs.get' hb
  rw [hb'] at hc
  cases hc
  exact ⟨h1, h2, h3, h4⟩

/-- A step that allocates nothing and renames nothing keeps the invariant when
the one object `a` whose data changed agrees with the new free list. -/
theorem Inv.of_data {FS : Nat} {s s' : FileCacheImpl} {l l' : List Nat} {a : Nat}
    (hi : Inv FS s l) (hl : ListInv s' l')
    (hmax : s'.max_cache_entries_ = s.max_cache_entries_)
    (hwc : s'.writeCache_ = s.writeCache_)
    (hlen : s'.heap.length = s.heap.length)
    (hdata : ∀ i : Nat, i ≠ a →
      s'.heap[i]?.map WriteCacheBuffer.data = s.heap[i]?.map WriteCacheBuffer.data)
    (hmem : ∀ i, i ≠ a → (i ∈ l' ↔ i ∈ l))
    (ha : ∀ b', s'.heap[a]? = some b' → ∃ b, s.heap[a]? = some b ∧
      b'.fileName = b.fileName ∧ b'.buffer.length = FS ∧
      (b'.status &&& PINNED = 0 ↔ a ∈ l') ∧ (b'.status &&& PINNED = 0 → b'.pinCount = 0)) :
    Inv FS s' l' := by
  have hget : ∀ i b', i ≠ a → s'.heap[i]? = some b' → ∃ b, s.heap[i]? = some b ∧
      b.data = b'.data := by
    intro i b' hia hb'
    have := hdata i hia
    rw [hb'] at this
    cases hh : s.heap[i]? with
    | none => rw [hh] at this; simp at this
    | some b =>
      rw [hh] at this
      simp only [Option.map_some', Option.some.injEq] at this
      exact ⟨b, rfl, this.symm⟩
  refine ⟨hl, ?_, ?_, ?_, ?_, ?_, ?_, ?_, by rw [hwc]; exact hi.keys⟩
  · intro i b' hi0 hb'
    by_cases hia : i = a
    · subst hia
      obtain ⟨b, _, _, _, h4, _⟩ := ha b' hb'
      exact h4
    · obtain ⟨b, hb, hd⟩ := hget i b' hia hb'
      have hst : b.status = b'.status := by
        simp [WriteCacheBuffer.data] at hd; exact hd.2.2.1
      rw [← hst, hmem i hia]
      exact hi.pinned i b hi0 hb
  · intro i b' hi0 hb'
    by_cases hia : i = a
    · subst hia
      obtain ⟨b, _, _, _, _, h5⟩ := ha b' hb'
      exact h5
    · obtain ⟨b, hb, hd⟩ := hget i b' hia hb'
      simp [WriteCacheBuffer.data] at hd
      rw [← hd.2.2.1, ← hd.2.1]
      exact hi.count i b hi0 hb
  · intro k i hk
    rw [hwc] at hk
    rw [hlen]
    exact hi.dir k i hk
  · intro i b' hi0 hb'
    rw [hwc]
    by_cases hia : i = a
    · subst hia
      obtain ⟨b, hb, h1, _⟩ := ha b' hb'
      rw [h1]
      exact hi.named i b hi0 hb
    · obtain ⟨b, hb, hd⟩ := hget i b' hia hb'
      simp [WriteCacheBuffer.data] at hd
      rw [← hd.1]
      exact hi.named i b hi0 hb
  · rw [hlen, hwc]; exact hi.alloc
  · rw [hlen, hmax]; exact hi.cap
  · intro i b' hi0 hb'
    by_cases hia : i = a
    · subst hia
      obtain ⟨b, _, _, h3, _⟩ := ha b' hb'
      exact h3
    · obtain ⟨b, hb, hd⟩ := hget i b' hia hb'
      simp [WriteCacheBuffer.data] at hd
      rw [← hd.2.2.2]
      exact hi.buflen i b hi0 hb

/-- Changing the data of one object in place. -/
theorem Inv.update {FS : Nat} {s : FileCacheImpl} {l : List Nat} {a : Nat}
    {b : WriteCacheBuffer} (hi : Inv FS s l) (hb : s.heap[a]? = some b)
    (f : WriteCacheBuffer → WriteCacheBuffer)
    (h1 : (f b).next = b.next) (h2 : (f b).prev = b.prev) (h3 : (f b).fileName = b.fileName)
    (h4 : (f b).status &&& PINNED = 0 ↔ b.status &&& PINNED = 0)
    (h5 : (f b).status &&& PINNED = 0 → (f b).pinCount = 0)
    (h6 : (f b).buffer.length = FS) (ha : a ≠ 0) :
    Inv FS { s with heap := modifyAt s.heap a f } l := by
  have hl : ListInv { s with heap := modifyAt s.heap a f } l := by
    refine hi.list.of_links rfl (by simp) rfl ?_ ?_
    · intro i
      simp only [nextOf, getElem?_modifyAt_of_get f hb]
      split
      · subst i; simp [hb, h1]
      · rfl
    · intro i
      simp only [prevOf, getElem?_modifyAt_of_get f hb]
      split
      · subst i; simp [hb, h2]
      · rfl
  refine hi.of_data (a := a) hl rfl rfl (by simp) ?_ (fun _ _ => Iff.rfl) ?_
  · intro i hia
    simp only [getElem?_modifyAt_ne f hia]
  · intro b' hb'
    simp only [getElem?_modifyAt_of_get f hb, if_true] at hb'
    cases hb'
    exact ⟨b, hb, h3, h6, h4.trans (hi.pinned a b ha hb), h5⟩

theorem Inv.init_in (FS max : Nat) (d : Disk) (r : List String) :
    Inv FS (FileCacheImpl.newIn FS max d r) [] := by
  have hh : (FileCacheImpl.newIn FS max d r).heap =
      [{ fileName := "dummy", pinCount := 0, status := 0, next := some 0, prev := some 0,
         buffer := List.replicate FS 0 }] := by
    simp [FileCacheImpl.newIn, freeListInit, WriteCacheBuffer.new]
  refine ⟨⟨?_, by rw [hh]; simp, ?_, by simp, by simp, ?_, ?_⟩, ?_, ?_, ?_, ?_, ?_, ?_, ?_,
    by simp [FileCacheImpl.newIn, freeListInit, WriteCacheBuffer.new]⟩
  · simp [FileCacheImpl.newIn, freeListInit, WriteCacheBuffer.new]
  · rw [ring_nil_iff, hh]; simp [nextOf, prevOf]
  · simp [FileCacheImpl.newIn, freeListInit, WriteCacheBuffer.new]
  · intro a ha _
    rw [hh]
    cases a with
    | zero => exact absurd rfl ha
    | succ n => simp [nextOf, prevOf]
  all_goals first
    | (intro a b ha hb
       rw [hh] at hb
       cases a with
       | zero => exact absurd rfl ha
       | succ n => simp at hb)
    | (intro k a hk
       simp [FileCacheImpl.newIn, freeListInit, WriteCacheBuffer.new, mapFind] at hk)
    | (rw [hh]; simp [FileCacheImpl.newIn, freeListInit, WriteCacheBuffer.new])

theorem Inv.init (FS max : Nat) (d : Disk) : Inv FS (FileCacheImpl.new FS max d) [] :=
  Inv.init_in FS max d []

/-! ## The loop body of `PinFiles` on a hit -/

theorem Inv.dir_get {FS : Nat} {s : FileCacheImpl} {l : List Nat} (hi : Inv FS s l)
    {k : String} {a : Nat} (hk : mapFind s.writeCache_ k = some a) :
    a ≠ 0 ∧ ∃ b, s.heap[a]? = some b :=
  ⟨(hi.dir k a hk).1, ⟨s.heap.get ⟨a, (hi.dir k a hk).2⟩, List.getElem?_eq_getElem _⟩⟩

theorem pinFile_hit_pinned {FS : Nat} {s : FileCacheImpl} {l : List Nat} {f : String}
    {a : Nat} {b : WriteCacheBuffer} (hi : Inv FS s l)
    (hf : mapFind s.writeCache_ f = some a) (hb : s.heap[a]? = some b)
    (hp : b.status &&& PINNED ≠ 0) :
    pinFile FS s f = Outcome.ok
        { s with
          heap := modifyAt s.heap a
                    (fun b => { b with pinCount := (b.pinCount + 1) % UINT_MOD }) } ∧
      Inv FS { s with
          heap := modifyAt s.heap a
                    (fun b => { b with pinCount := (b.pinCount + 1) % UINT_MOD }) } l := by
  have hal : a < s.heap.length := (hi.dir f a hf).2
  constructor
  · simp [pinFile, hf, deref_ok hb, hp, FileCacheImpl.update, hal]
  · exact hi.update hb _ rfl rfl rfl Iff.rfl (fun h => absurd h hp) (hi.buflen a b (hi.dir f a hf).1 hb)
      (hi.dir f a hf).1

theorem pinFile_hit_unpinned {FS : Nat} {s : FileCacheImpl} {l : List Nat} {f : String}
    {a : Nat} {b : WriteCacheBuffer} (hi : Inv FS s l)
    (hf : mapFind s.writeCache_ f = some a) (hb : s.heap[a]? = some b)
    (hp : b.status &&& PINNED = 0) :
    ∃ s', pinFile FS s f = Outcome.ok s' ∧ Inv FS s' (l.erase a) ∧
      s'.max_cache_entries_ = s.max_cache_entries_ ∧ s'.writeCache_ = s.writeCache_ ∧
      s'.disk = s.disk ∧ s'.heap.length = s.heap.length ∧
      (∀ i : Nat, i ≠ a →
        s'.heap[i]?.map WriteCacheBuffer.data = s.heap[i]?.map WriteCacheBuffer.data) ∧
      s'.heap[a]?.map WriteCacheBuffer.data =
        some (b.fileName, (b.pinCount + 1) % UINT_MOD, b.status ||| PINNED, b.buffer) := by
  have ha0 : a ≠ 0 := (hi.dir f a hf).1
  have hal : a < s.heap.length := (hi.dir f a hf).2
  have hmem : a ∈ l := (hi.pinned a b ha0 hb).1 hp
  obtain ⟨s1, hpop, hl1, hmax, hwc, hdk, hsd⟩ := freeList_pop_spec hi.list hmem
  obtain ⟨b1, hb1, hn1, hc1, hs1, hbuf1⟩ := hsd.get' hb
  have hal1 : a < s1.heap.length := by rw [hsd.1]; exact hal
  have hnd : l.Nodup := (List.nodup_cons.1 hi.list.nodup).2
  refine ⟨{ s1 with
      heap := modifyAt (modifyAt s1.heap a
                (fun b => { b with status := b.status ||| PINNED })) a
                (fun b => { b with pinCount := (b.pinCount + 1) % UINT_MOD }) }, ?_, ?_, hmax, hwc,
      hdk, by simp [hsd.1], ?_, ?_⟩
  · simp [pinFile, hf, deref_ok hb, hp, hpop, FileCacheImpl.update, hal1]
  · have hl : ListInv { s1 with
        heap := modifyAt (modifyAt s1.heap a
                  (fun b => { b with status := b.status ||| PINNED })) a
                  (fun b => { b with pinCount := (b.pinCount + 1) % UINT_MOD }) } (l.erase a) := by
      refine hl1.of_links rfl (by simp) rfl ?_ ?_
      · intro i
        simp only
        rw [nextOf_modifyAt_same (f := fun b => { b with pinCount := (b.pinCount + 1) % UINT_MOD })
            (fun _ => rfl),
          nextOf_modifyAt_same (f := fun b => { b with status := b.status ||| PINNED })
            (fun _ => rfl)]
      · intro i
        simp only
        rw [prevOf_modifyAt_same (f := fun b => { b with pinCount := (b.pinCount + 1) % UINT_MOD })
            (fun _ => rfl),
          prevOf_modifyAt_same (f := fun b => { b with status := b.status ||| PINNED })
            (fun _ => rfl)]
    refine hi.of_data (a := a) hl hmax hwc (by simp [hsd.1]) ?_ ?_ ?_
    · intro i hia
      simp only [getElem?_modifyAt_ne _ hia]
      exact hsd.2 i
    · intro i hia
      exact List.mem_erase_of_ne hia
    · intro b' hb'
      simp only [modifyAt_modifyAt, getElem?_modifyAt_of_get _ hb1, if_true] at hb'
      cases hb'
      refine ⟨b, hb, hn1, ?_, ?_, ?_⟩
      · simp only [hbuf1]; exact hi.buflen a b ha0 hb
      · simp only
        constructor
        · intro h; exact absurd h (or_pinned_and_ne _)
        · intro h; exact absurd h (List.Nodup.not_mem_erase hnd)
      · intro h; exact absurd h (or_pinned_and_ne _)
  · intro i hia
    simp only [getElem?_modifyAt_ne _ hia]
    exact hsd.2 i
  · simp only [modifyAt_modifyAt, getElem?_modifyAt_of_get _ hb1, if_true]
    simp [WriteCacheBuffer.data, hn1, hc1, hs1, hbuf1]

/-! ## The stream operations and what they yield -/

theorem initialize_eq (FS : Nat) (r : List String) (b : WriteCacheBuffer) (d : Disk) :
    ( WriteCacheBuffer.initialize FS r b d) =
      if createFails r d b.fileName then Outcome.aborted
      else Outcome.ok ( WriteCacheBuffer.loaded FS b d) := by
  simp only [ WriteCacheBuffer.initialize, WriteCacheBuffer.loaded, createFails]
  cases hr : d.read b.fileName with
  | none =>
    by_cases hm : b.fileName ∈ r
    · simp [hm]
    · simp [hm]
  | some c => simp

theorem construct_eq (FS : Nat) (r : List String) (f : String) (d : Disk) :
    WriteCacheBuffer.construct FS r f d =
      if f ≠ "dummy" ∧ createFails r d f then Outcome.aborted
      else Outcome.ok (WriteCacheBuffer.new FS f d) := by
  unfold WriteCacheBuffer.construct WriteCacheBuffer.new
  by_cases hf : f = "dummy"
  · simp [hf]
  · simp only [ne_eq, hf, not_false_eq_true, if_true, true_and]
    rw [initialize_eq]

theorem reinitialize_eq (FS : Nat) (r : List String) (b : WriteCacheBuffer) (f : String)
    (d : Disk) :
    ( WriteCacheBuffer.reinitialize FS r b f d) =
      if createFails r d f then Outcome.aborted
      else Outcome.ok ( WriteCacheBuffer.reloaded FS b f d) := by
  unfold WriteCacheBuffer.reinitialize WriteCacheBuffer.reloaded
  rw [initialize_eq]

theorem writeBack_eq (FS : Nat) (r : List String) (b : WriteCacheBuffer) (d : Disk) :
    b.writeBack FS r d =
      if b.fileName ∈ r then Outcome.aborted else Outcome.ok (b.stored FS d) := by
  unfold WriteCacheBuffer.writeBack WriteCacheBuffer.stored
  rfl

theorem createFails_nil (d : Disk) (f : String) : ¬ createFails [] d f := by
  simp [createFails]

theorem construct_ok {FS : Nat} {r : List String} {f : String} {d : Disk}
    (ho : f ≠ "dummy" → ¬ createFails r d f) :
    WriteCacheBuffer.construct FS r f d = Outcome.ok (WriteCacheBuffer.new FS f d) := by
  rw [construct_eq, if_neg]
  rintro ⟨h1, h2⟩
  exact ho h1 h2

theorem construct_aborted {FS : Nat} {r : List String} {f : String} {d : Disk}
    (hf : f ≠ "dummy") (ho : createFails r d f) :
    WriteCacheBuffer.construct FS r f d = Outcome.aborted := by
  rw [construct_eq, if_pos ⟨hf, ho⟩]

/-! ## Loading a buffer -/

theorem initialize_next (FS : Nat) (b : WriteCacheBuffer) (d : Disk) :
    ( WriteCacheBuffer.loaded FS b d).1.next = b.next := by
  unfold WriteCacheBuffer.loaded; split <;> rfl

theorem initialize_prev (FS : Nat) (b : WriteCacheBuffer) (d : Disk) :
    ( WriteCacheBuffer.loaded FS b d).1.prev = b.prev := by
  unfold WriteCacheBuffer.loaded; split <;> rfl

theorem initialize_fileName (FS : Nat) (b : WriteCacheBuffer) (d : Disk) :
    ( WriteCacheBuffer.loaded FS b d).1.fileName = b.fileName := by
  unfold WriteCacheBuffer.loaded; split <;> rfl

theorem initialize_pinCount (FS : Nat) (b : WriteCacheBuffer) (d : Disk) :
    ( WriteCacheBuffer.loaded FS b d).1.pinCount = b.pinCount := by
  unfold WriteCacheBuffer.loaded; split <;> rfl

theorem initialize_buflen (FS : Nat) (b : WriteCacheBuffer) (d : Disk)
    (hb : b.buffer.length = FS) : ( WriteCacheBuffer.loaded FS b d).1.buffer.length = FS := by
  unfold WriteCacheBuffer.loaded
  split
  · exact hb
  · simp only [List.length_append, List.length_take, List.length_drop, hb]
    omega

theorem new_next (FS : Nat) (f : String) (d : Disk) :
    (WriteCacheBuffer.new FS f d).1.next = none := by
  unfold WriteCacheBuffer.new
  split
  · rw [initialize_next]
  · rfl

theorem new_prev (FS : Nat) (f : String) (d : Disk) :
    (WriteCacheBuffer.new FS f d).1.prev = none := by
  unfold WriteCacheBuffer.new
  split
  · rw [initialize_prev]
  · rfl

theorem new_fileName (FS : Nat) (f : String) (d : Disk) :
    (WriteCacheBuffer.new FS f d).1.fileName = f := by
  unfold WriteCacheBuffer.new
  split
  · rw [initialize_fileName]
  · rfl

theorem new_pinCount (FS : Nat) (f : String) (d : Disk) :
    (WriteCacheBuffer.new FS f d).1.pinCount = 0 := by
  unfold WriteCacheBuffer.new
  split
  · rw [initialize_pinCount]
  · rfl

theorem new_buflen (FS : Nat) (f : String) (d : Disk) :
    (WriteCacheBuffer.new FS f d).1.buffer.length = FS := by
  unfold WriteCacheBuffer.new
  split
  · exact initialize_buflen _ _ _ (by simp)
  · simp

theorem reinitialize_next (FS : Nat) (b : WriteCacheBuffer) (f : String) (d : Disk) :
    ( WriteCacheBuffer.reloaded FS b f d).1.next = b.next := by
  unfold WriteCacheBuffer.reloaded; rw [initialize_next]

theorem reinitialize_prev (FS : Nat) (b : WriteCacheBuffer) (f : String) (d : Disk) :
    ( WriteCacheBuffer.reloaded FS b f d).1.prev = b.prev := by
  unfold WriteCacheBuffer.reloaded; rw [initialize_prev]

theorem reinitialize_fileName (FS : Nat) (b : WriteCacheBuffer) (f : String) (d : Disk) :
    ( WriteCacheBuffer.reloaded FS b f d).1.fileName = f := by
  unfold WriteCacheBuffer.reloaded; rw [initialize_fileName]

theorem reinitialize_pinCount (FS : Nat) (b : WriteCacheBuffer) (f : String) (d : Disk) :
    ( WriteCacheBuffer.reloaded FS b f d).1.pinCount = 0 := by
  unfold WriteCacheBuffer.reloaded; rw [initialize_pinCount]

theorem reinitialize_buflen (FS : Nat) (b : WriteCacheBuffer) (f : String) (d : Disk) :
    ( WriteCacheBuffer.reloaded FS b f d).1.buffer.length = FS := by
  unfold WriteCacheBuffer.reloaded
  exact initialize_buflen _ _ _ (by simp)

/-! ## Preservation of the invariant: steps that may add a key -/

/-- A step that changes the data of the single object `a` (possibly a new
one), keeps every key of the map and keeps the allocation bounds. -/
theorem Inv.step {FS : Nat} {s s' : FileCacheImpl} {l l' : List Nat} {a : Nat}
    (hi : Inv FS s l) (hl : ListInv s' l')
    (hdata : ∀ i : Nat, i ≠ a →
      s'.heap[i]?.map WriteCacheBuffer.data = s.heap[i]?.map WriteCacheBuffer.data)
    (hmem : ∀ i, i ≠ a → (i ∈ l' ↔ i ∈ l))
    (ha : ∀ b', s'.heap[a]? = some b' → b'.buffer.length = FS ∧
      (b'.status &&& PINNED = 0 ↔ a ∈ l') ∧ (b'.status &&& PINNED = 0 → b'.pinCount = 0) ∧
      mapFind s'.writeCache_ b'.fileName = some a)
    (hdir : ∀ k v, mapFind s'.writeCache_ k = some v → v ≠ 0 ∧ v < s'.heap.length)
    (hkeep : ∀ k v, mapFind s.writeCache_ k = some v → mapFind s'.writeCache_ k = some v)
    (halloc : s'.heap.length ≤ s'.writeCache_.length + 1)
    (hcap : s'.heap.length ≤ s'.max_cache_entries_ + 1)
    (hkeys : (s'.writeCache_.map Prod.fst).Nodup) :
    Inv FS s' l' := by
  have hget : ∀ i b', i ≠ a → s'.heap[i]? = some b' → ∃ b, s.heap[i]? = some b ∧
      b.data = b'.data := by
    intro i b' hia hb'
    have := hdata i hia
    rw [hb'] at this
    cases hh : s.heap[i]? with
    | none => rw [hh] at this; simp at this
    | some b =>
      rw [hh] at this
      simp only [Option.map_some', Option.some.injEq] at this
      exact ⟨b, rfl, this.symm⟩
  refine ⟨hl, ?_, ?_, hdir, ?_, halloc, hcap, ?_, hkeys⟩
  · intro i b' hi0 hb'
    by_cases hia : i = a
    · subst hia; exact (ha b' hb').2.1
    · obtain ⟨b, hb, hd⟩ := hget i b' hia hb'
      have hst : b.status = b'.status := by
        simp [WriteCacheBuffer.data] at hd; exact hd.2.2.1
      rw [← hst, hmem i hia]
      exact hi.pinned i b hi0 hb
  · intro i b' hi0 hb'
    by_cases hia : i = a
    · subst hia; exact (ha b' hb').2.2.1
    · obtain ⟨b, hb, hd⟩ := hget i b' hia hb'
      simp [WriteCacheBuffer.data] at hd
      rw [← hd.2.2.1, ← hd.2.1]
      exact hi.count i b hi0 hb
  · intro i b' hi0 hb'
    by_cases hia : i = a
    · subst hia; exact (ha b' hb').2.2.2
    · obtain ⟨b, hb, hd⟩ := hget i b' hia hb'
      simp [WriteCacheBuffer.data] at hd
      rw [← hd.1]
      exact hkeep _ _ (hi.named i b hi0 hb)
  · intro i b' hi0 hb'
    by_cases hia : i = a
    · subst hia; exact (ha b' hb').1
    · obtain ⟨b, hb, hd⟩ := hget i b' hia hb'
      simp [WriteCacheBuffer.data] at hd
      rw [← hd.2.2.2]
      exact hi.buflen i b hi0 hb

theorem nextOf_append (h : List WriteCacheBuffer) (b : WriteCacheBuffer) (hb : b.next = none)
    (i : Nat) : nextOf (h ++ [b]) i = nextOf h i := by
  unfold nextOf
  rcases Nat.lt_trichotomy i h.length with hlt | heq | hgt
  · rw [List.getElem?_append_left hlt]
  · subst heq
    simp [hb]
  · rw [List.getElem?_eq_none (by simp; omega), List.getElem?_eq_none (by omega)]

theorem prevOf_append (h : List WriteCacheBuffer) (b : WriteCacheBuffer) (hb : b.prev = none)
    (i : Nat) : prevOf (h ++ [b]) i = prevOf h i := by
  unfold prevOf
  rcases Nat.lt_trichotomy i h.length with hlt | heq | hgt
  · rw [List.getElem?_append_left hlt]
  · subst heq
    simp [hb]
  · rw [List.getElem?_eq_none (by simp; omega), List.getElem?_eq_none (by omega)]

theorem getElem?_append_ne (h : List WriteCacheBuffer) (b : WriteCacheBuffer) {i : Nat}
    (hi : i ≠ h.length) : (h ++ [b])[i]? = h[i]? := by
  rcases Nat.lt_or_gt_of_ne hi with hlt | hgt
  · rw [List.getElem?_append_left hlt]
  · rw [List.getElem?_eq_none (by simp; omega), List.getElem?_eq_none (by omega)]

/-! ## The loop body of `PinFiles` on a miss -/

theorem pinFile_alloc {FS : Nat} {s : FileCacheImpl} {l : List Nat} {f : String}
    (hi : Inv FS s l) (hf : mapFind s.writeCache_ f = none)
    (hc : s.writeCache_.length < s.max_cache_entries_)
    (ho : f ≠ "dummy" → ¬ createFails s.refused s.disk f) :
    ∃ s', pinFile FS s f = Outcome.ok s' ∧ Inv FS s' l ∧
      s'.max_cache_entries_ = s.max_cache_entries_ ∧
      s'.writeCache_ = mapInsert s.writeCache_ f s.heap.length ∧
      s'.disk = (WriteCacheBuffer.new FS f s.disk).2 ∧
      s'.heap = s.heap ++ [{ (WriteCacheBuffer.new FS f s.disk).1 with
        status := (WriteCacheBuffer.new FS f s.disk).1.status ||| PINNED
        pinCount := 1 }] := by
  have hpc : ((WriteCacheBuffer.new FS f s.disk).1.pinCount + 1) % UINT_MOD = 1 := by
    rw [new_pinCount]; decide
  have heq : pinFile FS s f = Outcome.ok
      { s with
        heap := s.heap ++ [{ (WriteCacheBuffer.new FS f s.disk).1 with
          status := (WriteCacheBuffer.new FS f s.disk).1.status ||| PINNED
          pinCount := 1 }]
        disk := (WriteCacheBuffer.new FS f s.disk).2
        writeCache_ := mapInsert s.writeCache_ f s.heap.length } := by
    simp [pinFile, hf, hc, construct_ok ho, hpc]
  refine ⟨_, heq, ?_, rfl, rfl, rfl, rfl⟩
  have hlen0 : s.heap.length ≠ 0 := Nat.pos_iff_ne_zero.1 hi.list.heap_pos
  have hnl : s.heap.length ∉ l := fun h => absurd (hi.list.bound _ h) (lt_irrefl _)
  refine hi.step (a := s.heap.length) ?_ ?_ (fun _ _ => Iff.rfl) ?_ ?_ ?_ ?_ ?_
    (nodup_keys_mapInsert _ _ _ hi.keys hf)
  · refine hi.list.of_links rfl (by simp) rfl ?_ ?_
    · intro i; exact nextOf_append _ _ (by simp only [new_next]) i
    · intro i; exact prevOf_append _ _ (by simp only [new_prev]) i
  · intro i hia
    simp only [getElem?_append_ne _ _ hia]
  · intro b' hb'
    simp only [List.getElem?_concat_length, Option.some.injEq] at hb'
    subst hb'
    refine ⟨new_buflen _ _ _, ?_, ?_, ?_⟩
    · simp only
      constructor
      · intro h; exact absurd h (or_pinned_and_ne _)
      · intro h; exact absurd h hnl
    · intro h; exact absurd h (or_pinned_and_ne _)
    · simp only [new_fileName, mapFind_mapInsert, if_true]
  · intro k v hk
    simp only [mapFind_mapInsert] at hk
    simp only [List.length_append, List.length_singleton]
    split at hk
    · cases hk; exact ⟨hlen0, by omega⟩
    · have := hi.dir k v hk
      exact ⟨this.1, by omega⟩
  · intro k v hk
    simp only [mapFind_mapInsert]
    split
    · rename_i h; subst h; rw [hf] at hk; cases hk
    · exact hk
  · simp only [List.length_append, List.length_singleton,
      length_mapInsert_of_none _ _ _ hf]
    have := hi.alloc; omega
  · simp only [List.length_append, List.length_singleton]
    have := hi.alloc; omega


/-- On a miss under capacity the loop body of `PinFiles` fails the assertion
of `initialize` when the file of `f` can be neither read nor created. -/
theorem pinFile_alloc_aborted {FS : Nat} {s : FileCacheImpl} {f : String}
    (hf : mapFind s.writeCache_ f = none)
    (hc : s.writeCache_.length < s.max_cache_entries_)
    (hd : f ≠ "dummy") (ho : createFails s.refused s.disk f) :
    pinFile FS s f = Outcome.aborted := by
  simp [pinFile, hf, hc, construct_aborted hd ho]
theorem pinFile_blocked {FS : Nat} {s : FileCacheImpl} {f : String}
    (hf : mapFind s.writeCache_ f = none)
    (hc : ¬ s.writeCache_.length < s.max_cache_entries_) (hsz : s.freeListSize_ = 0) :
    pinFile FS s f = Outcome.blocked := by
  simp [pinFile, hf, hc, hsz]

theorem reinitialize_indep (FS : Nat) (b c : WriteCacheBuffer) (f : String) (d : Disk) :
    ( WriteCacheBuffer.reloaded FS b f d).1.data = ( WriteCacheBuffer.reloaded FS c f d).1.data ∧
      ( WriteCacheBuffer.reloaded FS b f d).2 = ( WriteCacheBuffer.reloaded FS c f d).2 := by
  unfold WriteCacheBuffer.reloaded WriteCacheBuffer.loaded
  simp only
  split <;> simp [WriteCacheBuffer.data]

theorem reclaim_congr (FS : Nat) {b c : WriteCacheBuffer} (f : String) (d : Disk)
    (h : b.data = c.data) :
    (reclaim FS b f d).1.data = (reclaim FS c f d).1.data ∧
      (reclaim FS b f d).2 = (reclaim FS c f d).2 := by
  simp only [WriteCacheBuffer.data, Prod.mk.injEq] at h
  obtain ⟨h1, h2, h3, h4⟩ := h
  have hd : (persistIfDirty FS b d).2 = (persistIfDirty FS c d).2 := by
    unfold persistIfDirty WriteCacheBuffer.stored
    rw [h3]
    split <;> simp [h1, h4]
  unfold reclaim
  rw [hd]
  exact reinitialize_indep _ _ _ _ _

theorem reclaim_next (FS : Nat) (b : WriteCacheBuffer) (f : String) (d : Disk) :
    (reclaim FS b f d).1.next = b.next := by
  unfold reclaim
  rw [reinitialize_next]
  unfold persistIfDirty
  split <;> rfl

theorem reclaim_prev (FS : Nat) (b : WriteCacheBuffer) (f : String) (d : Disk) :
    (reclaim FS b f d).1.prev = b.prev := by
  unfold reclaim
  rw [reinitialize_prev]
  unfold persistIfDirty
  split <;> rfl

theorem pinFile_evict_eq {FS : Nat} {s s1 : FileCacheImpl} {f : String} {x : Nat}
    {b1 : WriteCacheBuffer}
    (hf : mapFind s.writeCache_ f = none)
    (hc : ¬ s.writeCache_.length < s.max_cache_entries_) (hsz : 0 < s.freeListSize_)
    (hpop : freeList_pop_front s = Outcome.ok (s1, x)) (hb1 : s1.heap[x]? = some b1)
    (hp : b1.status &&& PINNED = 0)
    (hw : b1.status &&& DIRTY ≠ 0 → b1.fileName ∉ s1.refused)
    (ho : ¬ createFails s1.refused (persistIfDirty FS b1 s1.disk).2 f) :
    pinFile FS s f = Outcome.ok
      { s1 with
        heap := modifyAt s1.heap x (fun _ =>
          { (reclaim FS b1 f s1.disk).1 with
            status := (reclaim FS b1 f s1.disk).1.status ||| PINNED
            pinCount := 1 })
        disk := (reclaim FS b1 f s1.disk).2
        writeCache_ := mapInsert s1.writeCache_ f x } := by
  have hxl : x < s1.heap.length := (List.getElem?_eq_some.1 hb1).1
  have hsz' : ¬ s.freeListSize_ = 0 := by omega
  have hpc : ∀ c : WriteCacheBuffer, ∀ d : Disk,
      (( WriteCacheBuffer.reloaded FS c f d).1.pinCount + 1) % UINT_MOD = 1 := by
    intro c d; rw [reinitialize_pinCount]; decide
  by_cases hd : b1.status &&& DIRTY = 0
  · have ho' : ¬ createFails s1.refused s1.disk f := by
      simpa [persistIfDirty, hd] using ho
    simp [pinFile, hf, hc, hsz', hpop, deref_ok hb1, hp, hd, reinitialize_eq, ho',
      FileCacheImpl.update, hxl, hpc, reclaim, persistIfDirty]
  · have hw' := hw hd
    have ho' : ¬ createFails s1.refused (b1.stored FS s1.disk).2 f := by
      simpa [persistIfDirty, hd] using ho
    simp [pinFile, hf, hc, hsz', hpop, deref_ok hb1, hp, hd, writeBack_eq, hw', reinitialize_eq,
      ho', FileCacheImpl.update, hxl, hpc, reclaim, persistIfDirty]

/-- After the write-back of a buffer the files of other names are as before. -/
theorem persistIfDirty_read_other (FS : Nat) (b : WriteCacheBuffer) (d : Disk) (n : String)
    (hn : n ≠ b.fileName) : (persistIfDirty FS b d).2.read n = d.read n := by
  unfold persistIfDirty
  split
  · simp [WriteCacheBuffer.stored, Disk.read, lookup_writeFile, hn]
  · rfl

theorem createFails_persist (FS : Nat) (r : List String) (b : WriteCacheBuffer) (d : Disk)
    (f : String) (hn : f ≠ b.fileName) :
    createFails r (persistIfDirty FS b d).2 f ↔ createFails r d f := by
  unfold createFails
  rw [persistIfDirty_read_other FS b d f hn]

/-- On a miss at capacity the loop body of `PinFiles` fails an assertion
`wstream.is_open()` when the buffer it pops is dirty and cannot be written, or
when the file of `f` can be neither read nor created. -/
theorem pinFile_evict_aborted_eq {FS : Nat} {s s1 : FileCacheImpl} {f : String} {x : Nat}
    {b1 : WriteCacheBuffer}
    (hf : mapFind s.writeCache_ f = none)
    (hc : ¬ s.writeCache_.length < s.max_cache_entries_) (hsz : 0 < s.freeListSize_)
    (hpop : freeList_pop_front s = Outcome.ok (s1, x)) (hb1 : s1.heap[x]? = some b1)
    (hp : b1.status &&& PINNED = 0)
    (hfail : (b1.status &&& DIRTY ≠ 0 ∧ b1.fileName ∈ s1.refused) ∨
      createFails s1.refused (persistIfDirty FS b1 s1.disk).2 f) :
    pinFile FS s f = Outcome.aborted := by
  have hsz' : ¬ s.freeListSize_ = 0 := by omega
  by_cases hd : b1.status &&& DIRTY = 0
  · rcases hfail with ⟨h1, -⟩ | ho
    · exact absurd hd h1
    · have ho' : createFails s1.refused s1.disk f := by
        simpa [persistIfDirty, hd] using ho
      simp [pinFile, hf, hc, hsz', hpop, deref_ok hb1, hp, hd, reinitialize_eq, ho']
  · by_cases hw : b1.fileName ∈ s1.refused
    · simp [pinFile, hf, hc, hsz', hpop, deref_ok hb1, hp, hd, writeBack_eq, hw]
    · rcases hfail with ⟨-, h2⟩ | ho
      · exact absurd h2 hw
      · have ho' : createFails s1.refused (b1.stored FS s1.disk).2 f := by
          simpa [persistIfDirty, hd] using ho
        simp [pinFile, hf, hc, hsz', hpop, deref_ok hb1, hp, hd, writeBack_eq, hw,
          reinitialize_eq, ho']

theorem pinFile_evict {FS : Nat} {s : FileCacheImpl} {x : Nat} {rest : List Nat} {f : String}
    (hi : Inv FS s (x :: rest)) (hf : mapFind s.writeCache_ f = none)
    (hc : ¬ s.writeCache_.length < s.max_cache_entries_) (hsz : 0 < s.freeListSize_)
    (hw : ∀ b, s.heap[x]? = some b → b.status &&& DIRTY ≠ 0 → b.fileName ∉ s.refused)
    (ho : ¬ createFails s.refused s.disk f) :
    ∃ s' b, s.heap[x]? = some b ∧ b.status &&& PINNED = 0 ∧
      pinFile FS s f = Outcome.ok s' ∧ Inv FS s' rest ∧
      s'.max_cache_entries_ = s.max_cache_entries_ ∧
      s'.writeCache_ = mapInsert s.writeCache_ f x ∧
      s'.heap.length = s.heap.length ∧
      (∀ i : Nat, i ≠ x →
        s'.heap[i]?.map WriteCacheBuffer.data = s.heap[i]?.map WriteCacheBuffer.data) ∧
      s'.disk = (reclaim FS b f s.disk).2 ∧
      s'.heap[x]?.map WriteCacheBuffer.data =
        some (f, 1, (reclaim FS b f s.disk).1.status ||| PINNED,
          (reclaim FS b f s.disk).1.buffer) := by
  have hxm : x ∈ x :: rest := by simp
  have hx0 : x ≠ 0 := hi.list.mem_ne_zero hxm
  have hxl : x < s.heap.length := hi.list.bound x hxm
  obtain ⟨b, hb⟩ : ∃ b, s.heap[x]? = some b := ⟨s.heap[x], List.getElem?_eq_getElem hxl⟩
  have hp : b.status &&& PINNED = 0 := (hi.pinned x b hx0 hb).2 hxm
  obtain ⟨s1, hpop, hl1, hmax, hwc, hdk, hsd⟩ := freeList_pop_front_spec hi.list
  obtain ⟨b1, hb1, hn1, hc1, hs1, hbuf1⟩ := hsd.get' hb
  have hp1 : b1.status &&& PINNED = 0 := by rw [hs1]; exact hp
  have hdata : b1.data = b.data := by simp [WriteCacheBuffer.data, hn1, hc1, hs1, hbuf1]
  obtain ⟨hr1, hr2⟩ := reclaim_congr FS f s.disk hdata
  have hnd := List.nodup_cons.1 (List.nodup_cons.1 hi.list.nodup).2
  have hrf := freeList_pop_front_refused hpop
  have hfb : f ≠ b1.fileName := by
    intro hfe
    have := hi.named x b hx0 hb
    rw [← hn1, ← hfe, hf] at this
    cases this
  have heq := @pinFile_evict_eq FS _ _ _ _ _ hf hc hsz hpop hb1 hp1
    (by rw [hrf, hs1, hn1]; exact hw b hb)
    (by rw [createFails_persist FS _ _ _ _ hfb, hrf, hdk]; exact ho)
  rw [hdk] at heq
  refine ⟨_, b, hb, hp, heq, ?_, hmax, by simp [hwc], by simp [hsd.1], ?_, hr2, ?_⟩
  · refine hi.step (a := x) ?_ ?_ ?_ ?_ ?_ ?_ ?_ ?_
      (by simp only [hwc]; exact nodup_keys_mapInsert _ _ _ hi.keys hf)
    · refine hl1.of_links rfl (by simp) rfl ?_ ?_
      · intro i
        simp only [nextOf, getElem?_modifyAt_of_get _ hb1]
        split
        · rename_i h; subst h; simp [hb1, reclaim_next]
        · rfl
      · intro i
        simp only [prevOf, getElem?_modifyAt_of_get _ hb1]
        split
        · rename_i h; subst h; simp [hb1, reclaim_prev]
        · rfl
    · intro i hia
      simp only [getElem?_modifyAt_ne _ hia]
      exact hsd.2 i
    · intro i hia
      simp [hia]
    · intro b' hb'
      simp only [getElem?_modifyAt_of_get _ hb1, if_true, Option.some.injEq] at hb'
      subst hb'
      refine ⟨?_, ?_, ?_, ?_⟩
      · simp only [reclaim]; exact reinitialize_buflen _ _ _ _
      · simp only
        constructor
        · intro h; exact absurd h (or_pinned_and_ne _)
        · intro h; exact absurd h hnd.1
      · intro h; exact absurd h (or_pinned_and_ne _)
      · simp only [reclaim, reinitialize_fileName, mapFind_mapInsert, if_true]
    · intro k v hk
      simp only [mapFind_mapInsert, hwc] at hk
      simp only [length_modifyAt, hsd.1]
      split at hk
      · cases hk; exact ⟨hx0, hxl⟩
      · exact hi.dir k v hk
    · intro k v hk
      simp only [mapFind_mapInsert, hwc]
      split
      · rename_i h; subst h; rw [hf] at hk; cases hk
      · exact hk
    · simp only [length_modifyAt, hsd.1, hwc, length_mapInsert_of_none _ _ _ hf]
      have := hi.alloc; omega
    · simp only [length_modifyAt, hsd.1, hmax]
      exact hi.cap
  · intro i hia
    simp only [getElem?_modifyAt_ne _ hia]
    exact hsd.2 i
  · simp only [getElem?_modifyAt_of_get _ hb1, if_true, Option.map_some', Option.some.injEq]
    simp only [WriteCacheBuffer.data, Prod.mk.injEq] at hr1 ⊢
    refine ⟨?_, trivial, ?_, hr1.2.2.2⟩
    · simp only [reclaim, reinitialize_fileName]
    · rw [hr1.2.2.1]


theorem pinFile_evict_aborted {FS : Nat} {s : FileCacheImpl} {x : Nat} {rest : List Nat}
    {f : String} {b : WriteCacheBuffer}
    (hi : Inv FS s (x :: rest)) (hf : mapFind s.writeCache_ f = none)
    (hc : ¬ s.writeCache_.length < s.max_cache_entries_) (hsz : 0 < s.freeListSize_)
    (hb : s.heap[x]? = some b)
    (hfail : (b.status &&& DIRTY ≠ 0 ∧ b.fileName ∈ s.refused) ∨
      createFails s.refused s.disk f) :
    pinFile FS s f = Outcome.aborted := by
  have hxm : x ∈ x :: rest := by simp
  have hx0 : x ≠ 0 := hi.list.mem_ne_zero hxm
  have hp : b.status &&& PINNED = 0 := (hi.pinned x b hx0 hb).2 hxm
  obtain ⟨s1, hpop, hl1, hmax, hwc, hdk, hsd⟩ := freeList_pop_front_spec hi.list
  obtain ⟨b1, hb1, hn1, hc1, hs1, hbuf1⟩ := hsd.get' hb
  have hp1 : b1.status &&& PINNED = 0 := by rw [hs1]; exact hp
  have hrf := freeList_pop_front_refused hpop
  have hfb : f ≠ b1.fileName := by
    intro hfe
    have := hi.named x b hx0 hb
    rw [← hn1, ← hfe, hf] at this
    cases this
  refine pinFile_evict_aborted_eq hf hc hsz hpop hb1 hp1 ?_
  rw [createFails_persist FS _ _ _ _ hfb, hrf, hdk, hs1, hn1]
  exact hfail
/-! ## No call changes the names refused by the file system -/

theorem pinFile_refused {FS : Nat} {s s' : FileCacheImpl} {f : String}
    (h : pinFile FS s f = Outcome.ok s') : s'.refused = s.refused := by
  unfold pinFile at h
  split at h
  · simp only [Outcome.bind_eq, Outcome.pure_eq, Outcome.bind_eq_ok] at h
    obtain ⟨b, -, h1⟩ := h
    split at h1
    · simp only [Outcome.bind_eq_ok] at h1
      obtain ⟨s0, h3, s1, h4, h2⟩ := h1
      rw [update_refused h2, update_refused h4, freeList_pop_refused h3]
    · simp only [Outcome.ok_bind] at h1
      exact update_refused h1
  · split at h
    · simp only [Outcome.bind_eq, Outcome.pure_eq, Outcome.bind_eq_ok] at h
      obtain ⟨r, -, h2⟩ := h
      cases h2; rfl
    · split at h
      · cases h
      · simp only [Outcome.bind_eq, Outcome.pure_eq, Outcome.bind_eq_ok] at h
        obtain ⟨p, hpop, b, -, h2⟩ := h
        obtain ⟨s1, x⟩ := p
        split at h2
        · cases h2
        · have key : ∀ y : WriteCacheBuffer × Disk,
              (( WriteCacheBuffer.reinitialize FS s1.refused y.1 f y.2).bind fun r =>
                (s1.update x fun _ =>
                  { fileName := r.1.fileName, pinCount := (r.1.pinCount + 1) % UINT_MOD,
                    status := r.1.status ||| PINNED, next := r.1.next, prev := r.1.prev,
                    buffer := r.1.buffer }).bind fun s =>
                  Outcome.ok
                    { max_cache_entries_ := s.max_cache_entries_,
                      writeCache_ := mapInsert s.writeCache_ f x,
                      freeListHead_ := s.freeListHead_,
                      freeListSize_ := s.freeListSize_, heap := s.heap, disk := r.2,
                      refused := s.refused }) = Outcome.ok s' →
              s'.refused = s.refused := by
            intro y hy
            simp only [Outcome.bind_eq_ok] at hy
            obtain ⟨r2, -, s2, hu, h3⟩ := hy
            cases h3
            simp only [update_refused hu, freeList_pop_front_refused hpop]
          split at h2
          · obtain ⟨y, -, hy⟩ := Outcome.bind_eq_ok.1 h2
            exact key y hy
          · exact key _ h2

theorem unpinFile_refused {s s' : FileCacheImpl} {f : String}
    (h : unpinFile s f = Outcome.ok s') : s'.refused = s.refused := by
  unfold unpinFile at h
  split at h
  · simp only [Outcome.bind_eq, Outcome.pure_eq, Outcome.bind_eq_ok] at h
    obtain ⟨b, -, h1⟩ := h
    split at h1
    · split at h1
      · cases h1
      · simp only [Outcome.bind_eq_ok] at h1
        obtain ⟨s1, hu1, b1, -, h2⟩ := h1
        split at h2
        · simp only [Outcome.bind_eq_ok] at h2
          obtain ⟨s2, hu2, h3⟩ := h2
          rw [freeList_push_back_refused h3, update_refused hu2, update_refused hu1]
        · cases h2
          exact update_refused hu1
    · cases h1; rfl
  · cases h; rfl

theorem PinFiles_refused {FS : Nat} (v : List String) :
    ∀ {s s' : FileCacheImpl}, PinFiles FS s v = Outcome.ok s' → s'.refused = s.refused := by
  induction v with
  | nil =>
    intro s s' h
    simp only [PinFiles, Outcome.ok.injEq] at h
    rw [h]
  | cons f rest ih =>
    intro s s' h
    simp only [PinFiles] at h
    obtain ⟨s1, h1, h2⟩ := Outcome.bind_eq_ok.1 h
    rw [ih h2, pinFile_refused h1]

theorem UnpinFiles_refused (v : List String) :
    ∀ {s s' : FileCacheImpl}, UnpinFiles s v = Outcome.ok s' → s'.refused = s.refused := by
  induction v with
  | nil =>
    intro s s' h
    simp only [UnpinFiles, Outcome.ok.injEq] at h
    rw [h]
  | cons f rest ih =>
    intro s s' h
    simp only [UnpinFiles] at h
    obtain ⟨s1, h1, h2⟩ := Outcome.bind_eq_ok.1 h
    rw [ih h2, unpinFile_refused h1]

theorem MutableFileData_refused {s : FileCacheImpl} {f : String}
    {r : FileCacheImpl × Option Nat} (h : MutableFileData s f = Outcome.ok r) :
    r.1.refused = s.refused := by
  unfold MutableFileData at h
  split at h
  · simp only [Outcome.bind_eq, Outcome.pure_eq, Outcome.bind_eq_ok] at h
    obtain ⟨b, -, h1⟩ := h
    split at h1
    · simp only [Outcome.bind_eq_ok] at h1
      obtain ⟨s1, hu, h2⟩ := h1
      cases h2
      exact update_refused hu
    · cases h1; rfl
  · cases h; rfl

theorem step_refused {FS : Nat} {s s' : FileCacheImpl} {c : Call}
    (h : step FS s c = Outcome.ok s') : s'.refused = s.refused := by
  cases c with
  | PinFiles v => exact PinFiles_refused v h
  | UnpinFiles v => exact UnpinFiles_refused v h
  | FileData n =>
    simp only [step] at h
    obtain ⟨_, _, h2⟩ := Outcome.bind_eq_ok.1 h
    cases h2; rfl
  | MutableFileData n =>
    simp only [step] at h
    obtain ⟨r, h1, h2⟩ := Outcome.bind_eq_ok.1 h
    cases h2
    exact MutableFileData_refused h1
  | write n w =>
    simp only [step, writeThrough, Outcome.bind_eq, Outcome.bind_eq_ok] at h
    obtain ⟨r, h1, a, -, h2⟩ := h
    split at h2
    · rw [update_refused h2, MutableFileData_refused h1]
    · cases h2

theorem run_refused {FS : Nat} (cs : List Call) :
    ∀ {s s' : FileCacheImpl}, run FS s cs = Outcome.ok s' → s'.refused = s.refused := by
  induction cs with
  | nil =>
    intro s s' h
    simp only [run, Outcome.ok.injEq] at h
    rw [h]
  | cons c rest ih =>
    intro s s' h
    simp only [run] at h
    obtain ⟨s1, h1, h2⟩ := Outcome.bind_eq_ok.1 h
    rw [ih h2, step_refused h1]

theorem newIn_refused (FS max : Nat) (d : Disk) (r : List String) :
    (FileCacheImpl.newIn FS max d r).refused = r := by
  simp [FileCacheImpl.newIn, freeListInit, WriteCacheBuffer.new]

/-- A cache made by `FileCacheImpl.new` runs on a file system that refuses no name. -/
theorem reachable_refused {FS max : Nat} {d : Disk} {cs : List Call} {s : FileCacheImpl}
    (h : run FS (FileCacheImpl.new FS max d) cs = Outcome.ok s) : s.refused = [] := by
  rw [run_refused cs h]
  exact newIn_refused FS max d []

/-- On a file system that refuses no name the creation of a file does not fail. -/
theorem createFails_of_nil {s : FileCacheImpl} (hr : s.refused = []) (d : Disk) (f : String) :
    ¬ createFails s.refused d f := by
  rw [hr]; exact createFails_nil d f

theorem not_refused_of_nil {s : FileCacheImpl} (hr : s.refused = []) (f : String) :
    f ∉ s.refused := by
  rw [hr]; simp

/-! ## A pin that returned opened its streams -/

theorem pinFile_alloc_of_ok {FS : Nat} {s s' : FileCacheImpl} {f : String}
    (hf : mapFind s.writeCache_ f = none)
    (hc : s.writeCache_.length < s.max_cache_entries_)
    (h : pinFile FS s f = Outcome.ok s') :
    f ≠ "dummy" → ¬ createFails s.refused s.disk f := by
  intro hd ho
  rw [pinFile_alloc_aborted hf hc hd ho] at h
  cases h

theorem pinFile_evict_of_ok {FS : Nat} {s s' : FileCacheImpl} {x : Nat} {rest : List Nat}
    {f : String} (hi : Inv FS s (x :: rest)) (hf : mapFind s.writeCache_ f = none)
    (hc : ¬ s.writeCache_.length < s.max_cache_entries_) (hsz : 0 < s.freeListSize_)
    (h : pinFile FS s f = Outcome.ok s') :
    (∀ b, s.heap[x]? = some b → b.status &&& DIRTY ≠ 0 → b.fileName ∉ s.refused) ∧
      ¬ createFails s.refused s.disk f := by
  have hxl : x < s.heap.length := hi.list.bound x (by simp)
  have hb : s.heap[x]? = some (s.heap.get ⟨x, hxl⟩) := by
    simp [List.getElem?_eq_getElem hxl]
  constructor
  · intro b hb' hd hm
    rw [pinFile_evict_aborted hi hf hc hsz hb' (Or.inl ⟨hd, hm⟩)] at h
    cases h
  · intro ho
    rw [pinFile_evict_aborted hi hf hc hsz hb (Or.inr ho)] at h
    cases h

/-! ## The loop body of `UnpinFiles` -/

theorem unpinFile_absent {s : FileCacheImpl} {f : String}
    (hf : mapFind s.writeCache_ f = none) : unpinFile s f = Outcome.ok s := by
  simp [unpinFile, hf]

theorem unpinFile_unpinned {s : FileCacheImpl} {f : String} {a : Nat} {b : WriteCacheBuffer}
    (hf : mapFind s.writeCache_ f = some a) (hb : s.heap[a]? = some b)
    (hp : b.status &&& PINNED = 0) : unpinFile s f = Outcome.ok s := by
  simp [unpinFile, hf, deref_ok hb, hp]

theorem unpinFile_underflow {s : FileCacheImpl} {f : String} {a : Nat} {b : WriteCacheBuffer}
    (hf : mapFind s.writeCache_ f = some a) (hb : s.heap[a]? = some b)
    (hp : b.status &&& PINNED ≠ 0) (hc : b.pinCount = 0) :
    unpinFile s f = Outcome.aborted := by
  simp [unpinFile, hf, deref_ok hb, hp, hc]

theorem unpinFile_more {FS : Nat} {s : FileCacheImpl} {l : List Nat} {f : String} {a : Nat}
    {b : WriteCacheBuffer} (hi : Inv FS s l)
    (hf : mapFind s.writeCache_ f = some a) (hb : s.heap[a]? = some b)
    (hp : b.status &&& PINNED ≠ 0) (hc : 1 < b.pinCount) :
    unpinFile s f = Outcome.ok
        { s with
          heap := modifyAt s.heap a (fun b => { b with pinCount := b.pinCount - 1 }) } ∧
      Inv FS { s with
          heap := modifyAt s.heap a (fun b => { b with pinCount := b.pinCount - 1 }) } l := by
  have hal : a < s.heap.length := (hi.dir f a hf).2
  constructor
  · have h1 : b.pinCount ≠ 0 := by omega
    have h2 : b.pinCount - 1 ≠ 0 := by omega
    have hg : s.heap[a] = b := (List.getElem?_eq_some.1 hb).2
    simp [unpinFile, hf, deref_ok hb, hp, h1, h2, FileCacheImpl.update, hal,
      FileCacheImpl.deref, getElem?_modifyAt_of_get _ hb, Outcome.ofOption, hg]
  · exact hi.update hb _ rfl rfl rfl Iff.rfl (fun h => absurd h hp)
      (hi.buflen a b (hi.dir f a hf).1 hb) (hi.dir f a hf).1

theorem unpinFile_last {FS : Nat} {s : FileCacheImpl} {l : List Nat} {f : String} {a : Nat}
    {b : WriteCacheBuffer} (hi : Inv FS s l)
    (hf : mapFind s.writeCache_ f = some a) (hb : s.heap[a]? = some b)
    (hp : b.status &&& PINNED ≠ 0) (hc : b.pinCount = 1) :
    ∃ s', unpinFile s f = Outcome.ok s' ∧ Inv FS s' (l ++ [a]) ∧
      s'.max_cache_entries_ = s.max_cache_entries_ ∧ s'.writeCache_ = s.writeCache_ ∧
      s'.disk = s.disk ∧ s'.heap.length = s.heap.length ∧
      (∀ i : Nat, i ≠ a →
        s'.heap[i]?.map WriteCacheBuffer.data = s.heap[i]?.map WriteCacheBuffer.data) ∧
      s'.heap[a]?.map WriteCacheBuffer.data =
        some (b.fileName, 0, b.status &&& bitNot PINNED, b.buffer) := by
  have ha0 : a ≠ 0 := (hi.dir f a hf).1
  have hal : a < s.heap.length := (hi.dir f a hf).2
  have hnm : a ∉ l := fun h => hp ((hi.pinned a b ha0 hb).2 h)
  have hl0 : ListInv { s with
      heap := modifyAt (modifyAt s.heap a (fun b => { b with pinCount := b.pinCount - 1 })) a
                (fun b => { b with status := b.status &&& bitNot PINNED }) } l := by
    refine hi.list.of_links rfl (by simp) rfl ?_ ?_
    · intro i
      simp only
      rw [nextOf_modifyAt_same (f := fun b => { b with status := b.status &&& bitNot PINNED })
          (fun _ => rfl),
        nextOf_modifyAt_same (f := fun b => { b with pinCount := b.pinCount - 1 })
          (fun _ => rfl)]
    · intro i
      simp only
      rw [prevOf_modifyAt_same (f := fun b => { b with status := b.status &&& bitNot PINNED })
          (fun _ => rfl),
        prevOf_modifyAt_same (f := fun b => { b with pinCount := b.pinCount - 1 })
          (fun _ => rfl)]
  obtain ⟨s', hpush, hl', hmax, hwc, hdk, hsd⟩ :=
    freeList_push_back_spec hl0 ha0 hnm (by simpa using hal)
  have hb0 : (modifyAt (modifyAt s.heap a (fun b => { b with pinCount := b.pinCount - 1 })) a
      (fun b => { b with status := b.status &&& bitNot PINNED }))[a]? =
      some { b with pinCount := b.pinCount - 1, status := b.status &&& bitNot PINNED } := by
    simp only [modifyAt_modifyAt, getElem?_modifyAt_of_get _ hb, if_true]
  obtain ⟨b', hb', hn', hc', hs', hbuf'⟩ := hsd.get' hb0
  have hlen : s'.heap.length = s.heap.length := by rw [hsd.1]; simp
  have hothers : ∀ i : Nat, i ≠ a →
      s'.heap[i]?.map WriteCacheBuffer.data = s.heap[i]?.map WriteCacheBuffer.data := by
    intro i hia
    rw [hsd.2 i]
    simp only [getElem?_modifyAt_ne _ hia]
  refine ⟨s', ?_, ?_, hmax, hwc, hdk, hlen, hothers, ?_⟩
  · have h1 : b.pinCount ≠ 0 := by omega
    have hg : s.heap[a] = b := (List.getElem?_eq_some.1 hb).2
    simp [unpinFile, hf, deref_ok hb, hp, h1, hc, FileCacheImpl.update, hal,
      FileCacheImpl.deref, getElem?_modifyAt_of_get _ hb, Outcome.ofOption, hg]
    simpa [hc, modifyAt_modifyAt] using hpush
  · refine hi.of_data (a := a) hl' hmax hwc hlen hothers ?_ ?_
    · intro i hia
      simp [hia]
    · intro c hc2
      rw [hb'] at hc2
      cases hc2
      refine ⟨b, hb, hn', ?_, ?_, ?_⟩
      · rw [hbuf']; exact hi.buflen a b ha0 hb
      · rw [hs']
        simp only [and_not_pinned_and, List.mem_append, List.mem_singleton, or_true]
      · intro _
        rw [hc']; simp [hc]
  · rw [hb']
    simp [WriteCacheBuffer.data, hn', hc', hs', hbuf', hc]

/-! ## The view operations -/

theorem FileData_absent {s : FileCacheImpl} {f : String}
    (hf : mapFind s.writeCache_ f = none) : FileData s f = Outcome.ok none := by
  simp [FileData, hf]

theorem FileData_unpinned {s : FileCacheImpl} {f : String} {a : Nat} {b : WriteCacheBuffer}
    (hf : mapFind s.writeCache_ f = some a) (hb : s.heap[a]? = some b)
    (hp : b.status &&& PINNED = 0) : FileData s f = Outcome.ok none := by
  simp [FileData, hf, deref_ok hb, hp]

theorem FileData_pinned {s : FileCacheImpl} {f : String} {a : Nat} {b : WriteCacheBuffer}
    (hf : mapFind s.writeCache_ f = some a) (hb : s.heap[a]? = some b)
    (hp : b.status &&& PINNED ≠ 0) : FileData s f = Outcome.ok (some a) := by
  simp [FileData, hf, deref_ok hb, hp]

theorem MutableFileData_absent {s : FileCacheImpl} {f : String}
    (hf : mapFind s.writeCache_ f = none) : MutableFileData s f = Outcome.ok (s, none) := by
  simp [MutableFileData, hf]

theorem MutableFileData_unpinned {s : FileCacheImpl} {f : String} {a : Nat}
    {b : WriteCacheBuffer} (hf : mapFind s.writeCache_ f = some a) (hb : s.heap[a]? = some b)
    (hp : b.status &&& PINNED = 0) : MutableFileData s f = Outcome.ok (s, none) := by
  simp [MutableFileData, hf, deref_ok hb, hp]

theorem MutableFileData_pinned {s : FileCacheImpl} {f : String} {a : Nat}
    {b : WriteCacheBuffer} (hf : mapFind s.writeCache_ f = some a) (hb : s.heap[a]? = some b)
    (hp : b.status &&& PINNED ≠ 0) :
    MutableFileData s f = Outcome.ok
      ({ s with heap := modifyAt s.heap a (fun b => { b with status := b.status ||| DIRTY }) },
        some a) := by
  have hal : a < s.heap.length := (List.getElem?_eq_some.1 hb).1
  simp [MutableFileData, hf, deref_ok hb, hp, FileCacheImpl.update, hal]

theorem MutableFileData_inv {FS : Nat} {s : FileCacheImpl} {l : List Nat} {f : String}
    {a : Nat} {b : WriteCacheBuffer} (hi : Inv FS s l)
    (hf : mapFind s.writeCache_ f = some a) (hb : s.heap[a]? = some b) :
    Inv FS { s with heap := modifyAt s.heap a (fun b => { b with status := b.status ||| DIRTY }) }
      l :=
  hi.update hb _ rfl rfl rfl (by simp only [or_dirty_and_pinned])
    (fun h => hi.count a b (hi.dir f a hf).1 hb (by simpa only [or_dirty_and_pinned] using h))
    (hi.buflen a b (hi.dir f a hf).1 hb) (hi.dir f a hf).1

theorem length_overwrite {FS : Nat} (w buf : List Byte) (hw : w.length ≤ FS)
    (hb : buf.length = FS) : (w ++ buf.drop w.length).length = FS := by
  simp only [List.length_append, List.length_drop, hb]
  omega

theorem writeThrough_pinned {FS : Nat} {s : FileCacheImpl} {f : String} {a : Nat}
    {b : WriteCacheBuffer} {w : List Byte}
    (hf : mapFind s.writeCache_ f = some a) (hb : s.heap[a]? = some b)
    (hp : b.status &&& PINNED ≠ 0) (hw : w.length ≤ FS) :
    writeThrough FS s f w = Outcome.ok
      { s with
        heap := modifyAt s.heap a (fun b =>
          { b with status := b.status ||| DIRTY, buffer := w ++ b.buffer.drop w.length }) } := by
  have hal : a < s.heap.length := (List.getElem?_eq_some.1 hb).1
  simp [writeThrough, MutableFileData_pinned hf hb hp, Outcome.ofOption, hw,
    FileCacheImpl.update, hal, modifyAt_modifyAt]

theorem writeThrough_inv {FS : Nat} {s : FileCacheImpl} {l : List Nat} {f : String}
    {a : Nat} {b : WriteCacheBuffer} {w : List Byte} (hi : Inv FS s l)
    (hf : mapFind s.writeCache_ f = some a) (hb : s.heap[a]? = some b) (hw : w.length ≤ FS) :
    Inv FS { s with
        heap := modifyAt s.heap a (fun b =>
          { b with status := b.status ||| DIRTY, buffer := w ++ b.buffer.drop w.length }) } l :=
  hi.update hb _ rfl rfl rfl (by simp only [or_dirty_and_pinned])
    (fun h => hi.count a b (hi.dir f a hf).1 hb (by simpa only [or_dirty_and_pinned] using h))
    (length_overwrite w b.buffer hw (hi.buflen a b (hi.dir f a hf).1 hb)) (hi.dir f a hf).1

/-! ## Every call keeps the invariant -/

theorem Inv.size_pos {FS : Nat} {s : FileCacheImpl} {l : List Nat} (hi : Inv FS s l)
    (hsz : 0 < s.freeListSize_) : ∃ x rest, l = x :: rest := by
  cases l with
  | nil =>
    have := hi.list.size
    simp at this
    omega
  | cons x rest => exact ⟨x, rest, rfl⟩

theorem pinFile_inv {FS : Nat} {s s' : FileCacheImpl} {l : List Nat} {f : String}
    (hi : Inv FS s l) (h : pinFile FS s f = Outcome.ok s') :
    ∃ l', Inv FS s' l' ∧ s'.max_cache_entries_ = s.max_cache_entries_ := by
  cases hf : mapFind s.writeCache_ f with
  | some a =>
    obtain ⟨ha0, b, hb⟩ := hi.dir_get hf
    by_cases hp : b.status &&& PINNED = 0
    · obtain ⟨s2, h2, hi2, hmax, -⟩ := pinFile_hit_unpinned hi hf hb hp
      rw [h2] at h; cases h
      exact ⟨_, hi2, hmax⟩
    · obtain ⟨h2, hi2⟩ := pinFile_hit_pinned hi hf hb hp
      rw [h2] at h; cases h
      exact ⟨_, hi2, rfl⟩
  | none =>
    by_cases hc : s.writeCache_.length < s.max_cache_entries_
    · obtain ⟨s2, h2, hi2, hmax, -⟩ := pinFile_alloc hi hf hc (pinFile_alloc_of_ok hf hc h)
      rw [h2] at h; cases h
      exact ⟨_, hi2, hmax⟩
    · by_cases hsz : s.freeListSize_ = 0
      · rw [pinFile_blocked hf hc hsz] at h; cases h
      · have hsz' : 0 < s.freeListSize_ := Nat.pos_of_ne_zero hsz
        obtain ⟨x, rest, rfl⟩ := hi.size_pos hsz'
        obtain ⟨s2, b, -, -, h2, hi2, hmax, -⟩ := pinFile_evict hi hf hc hsz'
          (pinFile_evict_of_ok hi hf hc hsz' h).1 (pinFile_evict_of_ok hi hf hc hsz' h).2
        rw [h2] at h; cases h
        exact ⟨_, hi2, hmax⟩

theorem PinFiles_inv {FS : Nat} (v : List String) :
    ∀ {s s' : FileCacheImpl} {l : List Nat}, Inv FS s l → PinFiles FS s v = Outcome.ok s' →
      ∃ l', Inv FS s' l' ∧ s'.max_cache_entries_ = s.max_cache_entries_ := by
  induction v with
  | nil =>
    intro s s' l hi h
    simp [PinFiles] at h
    subst h
    exact ⟨l, hi, rfl⟩
  | cons f rest ih =>
    intro s s' l hi h
    simp only [PinFiles] at h
    obtain ⟨s1, h1, h2⟩ := Outcome.bind_eq_ok.1 h
    obtain ⟨l1, hi1, hm1⟩ := pinFile_inv hi h1
    obtain ⟨l2, hi2, hm2⟩ := ih hi1 h2
    exact ⟨l2, hi2, hm2.trans hm1⟩

theorem unpinFile_inv {FS : Nat} {s s' : FileCacheImpl} {l : List Nat} {f : String}
    (hi : Inv FS s l) (h : unpinFile s f = Outcome.ok s') :
    ∃ l', Inv FS s' l' ∧ s'.max_cache_entries_ = s.max_cache_entries_ := by
  cases hf : mapFind s.writeCache_ f with
  | none =>
    rw [unpinFile_absent hf] at h; cases h
    exact ⟨l, hi, rfl⟩
  | some a =>
    obtain ⟨ha0, b, hb⟩ := hi.dir_get hf
    by_cases hp : b.status &&& PINNED = 0
    · rw [unpinFile_unpinned hf hb hp] at h; cases h
      exact ⟨l, hi, rfl⟩
    · rcases Nat.lt_trichotomy b.pinCount 1 with hc | hc | hc
      · rw [unpinFile_underflow hf hb hp (by omega)] at h; cases h
      · obtain ⟨s2, h2, hi2, hmax, -⟩ := unpinFile_last hi hf hb hp hc
        rw [h2] at h; cases h
        exact ⟨_, hi2, hmax⟩
      · obtain ⟨h2, hi2⟩ := unpinFile_more hi hf hb hp hc
        rw [h2] at h; cases h
        exact ⟨_, hi2, rfl⟩

theorem UnpinFiles_inv {FS : Nat} (v : List String) :
    ∀ {s s' : FileCacheImpl} {l : List Nat}, Inv FS s l → UnpinFiles s v = Outcome.ok s' →
      ∃ l', Inv FS s' l' ∧ s'.max_cache_entries_ = s.max_cache_entries_ := by
  induction v with
  | nil =>
    intro s s' l hi h
    simp [UnpinFiles] at h
    subst h
    exact ⟨l, hi, rfl⟩
  | cons f rest ih =>
    intro s s' l hi h
    simp only [UnpinFiles] at h
    obtain ⟨s1, h1, h2⟩ := Outcome.bind_eq_ok.1 h
    obtain ⟨l1, hi1, hm1⟩ := unpinFile_inv hi h1
    obtain ⟨l2, hi2, hm2⟩ := ih hi1 h2
    exact ⟨l2, hi2, hm2.trans hm1⟩

theorem MutableFileData_step_inv {FS : Nat} {s : FileCacheImpl} {l : List Nat} {f : String}
    {r : FileCacheImpl × Option Nat} (hi : Inv FS s l)
    (h : MutableFileData s f = Outcome.ok r) :
    Inv FS r.1 l ∧ r.1.max_cache_entries_ = s.max_cache_entries_ := by
  cases hf : mapFind s.writeCache_ f with
  | none =>
    rw [MutableFileData_absent hf] at h; cases h
    exact ⟨hi, rfl⟩
  | some a =>
    obtain ⟨ha0, b, hb⟩ := hi.dir_get hf
    by_cases hp : b.status &&& PINNED = 0
    · rw [MutableFileData_unpinned hf hb hp] at h; cases h
      exact ⟨hi, rfl⟩
    · rw [MutableFileData_pinned hf hb hp] at h; cases h
      exact ⟨MutableFileData_inv hi hf hb, rfl⟩

theorem writeThrough_step_inv {FS : Nat} {s s' : FileCacheImpl} {l : List Nat} {f : String}
    {w : List Byte} (hi : Inv FS s l) (h : writeThrough FS s f w = Outcome.ok s') :
    Inv FS s' l ∧ s'.max_cache_entries_ = s.max_cache_entries_ := by
  cases hf : mapFind s.writeCache_ f with
  | none =>
    simp [writeThrough, MutableFileData_absent hf, Outcome.ofOption] at h
  | some a =>
    obtain ⟨ha0, b, hb⟩ := hi.dir_get hf
    by_cases hp : b.status &&& PINNED = 0
    · simp [writeThrough, MutableFileData_unpinned hf hb hp, Outcome.ofOption] at h
    · by_cases hw : w.length ≤ FS
      · rw [writeThrough_pinned hf hb hp hw] at h; cases h
        exact ⟨writeThrough_inv hi hf hb hw, rfl⟩
      · simp [writeThrough, MutableFileData_pinned hf hb hp, Outcome.ofOption, hw] at h

theorem step_inv {FS : Nat} {s s' : FileCacheImpl} {l : List Nat} {c : Call}
    (hi : Inv FS s l) (h : step FS s c = Outcome.ok s') :
    ∃ l', Inv FS s' l' ∧ s'.max_cache_entries_ = s.max_cache_entries_ := by
  cases c with
  | PinFiles v => exact PinFiles_inv v hi h
  | UnpinFiles v => exact UnpinFiles_inv v hi h
  | FileData n =>
    simp only [step] at h
    obtain ⟨_, _, h2⟩ := Outcome.bind_eq_ok.1 h
    cases h2
    exact ⟨l, hi, rfl⟩
  | MutableFileData n =>
    simp only [step] at h
    obtain ⟨r, h1, h2⟩ := Outcome.bind_eq_ok.1 h
    cases h2
    obtain ⟨h3, h4⟩ := MutableFileData_step_inv hi h1
    exact ⟨l, h3, h4⟩
  | write n w =>
    obtain ⟨h3, h4⟩ := writeThrough_step_inv hi h
    exact ⟨l, h3, h4⟩

theorem run_inv {FS : Nat} (cs : List Call) :
    ∀ {s s' : FileCacheImpl} {l : List Nat}, Inv FS s l → run FS s cs = Outcome.ok s' →
      ∃ l', Inv FS s' l' ∧ s'.max_cache_entries_ = s.max_cache_entries_ := by
  induction cs with
  | nil =>
    intro s s' l hi h
    simp [run] at h
    subst h
    exact ⟨l, hi, rfl⟩
  | cons c rest ih =>
    intro s s' l hi h
    simp only [run] at h
    obtain ⟨s1, h1, h2⟩ := Outcome.bind_eq_ok.1 h
    obtain ⟨l1, hi1, hm1⟩ := step_inv hi h1
    obtain ⟨l2, hi2, hm2⟩ := ih hi1 h2
    exact ⟨l2, hi2, hm2.trans hm1⟩

/-- Every state reached from a fresh cache satisfies the invariant, with the
free list that is read off its links. -/
theorem reachable_inv {FS max : Nat} {d : Disk} {cs : List Call} {s : FileCacheImpl}
    (h : run FS (FileCacheImpl.new FS max d) cs = Outcome.ok s) :
    Inv FS s (freeList s) ∧ s.max_cache_entries_ = max := by
  obtain ⟨l, hi, hm⟩ := run_inv cs (Inv.init FS max d) h
  rw [hi.list.freeList_eq]
  exact ⟨hi, hm⟩

/-! ## Facts used by the claims -/

@[simp] theorem PinFiles_single (FS : Nat) (s : FileCacheImpl) (f : String) :
    PinFiles FS s [f] = pinFile FS s f := by
  simp only [PinFiles]
  cases pinFile FS s f <;> rfl

@[simp] theorem UnpinFiles_single (s : FileCacheImpl) (f : String) :
    UnpinFiles s [f] = unpinFile s f := by
  simp only [UnpinFiles]
  cases unpinFile s f <;> rfl

theorem Inv.resident_bound {FS : Nat} {s : FileCacheImpl} {l : List Nat} (hi : Inv FS s l) :
    (residentBuffers s).length + 1 ≤ s.heap.length := by
  have hmem : ∀ a ∈ residentBuffers s, a ≠ 0 ∧ a < s.heap.length := by
    intro a ha
    unfold residentBuffers at ha
    rw [List.mem_dedup, List.mem_map] at ha
    obtain ⟨⟨k, v⟩, hkv, rfl⟩ := ha
    exact hi.dir k v (mapFind_of_mem _ _ _ hi.keys hkv)
  have hnd : (0 :: residentBuffers s).Nodup :=
    List.nodup_cons.2 ⟨fun h => (hmem 0 h).1 rfl, List.nodup_dedup _⟩
  have := nodup_length_le (n := s.heap.length) hnd (by
    intro a ha
    rcases List.mem_cons.1 ha with h | h
    · rw [h]; exact hi.list.heap_pos
    · exact (hmem a h).2)
  simpa using this

theorem Inv.resident_of_get {FS : Nat} {s : FileCacheImpl} {l : List Nat} (hi : Inv FS s l)
    {a : Nat} (ha0 : a ≠ 0) (hal : a < s.heap.length) : a ∈ residentBuffers s := by
  obtain ⟨b, hb⟩ : ∃ b, s.heap[a]? = some b := ⟨s.heap[a], List.getElem?_eq_getElem hal⟩
  have := mem_of_mapFind _ _ _ (hi.named a b ha0 hb)
  unfold residentBuffers
  rw [List.mem_dedup, List.mem_map]
  exact ⟨_, this, rfl⟩

/-- What one iteration of the loop of `PinFiles` does to the heap and to the
map, by cases on hit, allocation and reclamation. -/
theorem pinFile_shape {FS : Nat} {s s' : FileCacheImpl} {l : List Nat} {f : String}
    (hi : Inv FS s l) (h : pinFile FS s f = Outcome.ok s') :
    (s'.heap.length = s.heap.length ∨
      (s'.heap.length = s.heap.length + 1 ∧
        s.writeCache_.length < s.max_cache_entries_)) ∧
    (mapFind s.writeCache_ f = none → ¬ s.writeCache_.length < s.max_cache_entries_ →
      s'.heap.length = s.heap.length ∧
      ∃ x rest, l = x :: rest ∧ mapFind s'.writeCache_ f = some x) := by
  cases hf : mapFind s.writeCache_ f with
  | some a =>
    obtain ⟨ha0, b, hb⟩ := hi.dir_get hf
    refine ⟨Or.inl ?_, fun h' => by cases h'⟩
    by_cases hp : b.status &&& PINNED = 0
    · obtain ⟨s2, h2, -, -, -, -, hlen, -⟩ := pinFile_hit_unpinned hi hf hb hp
      rw [h2] at h; cases h
      exact hlen
    · obtain ⟨h2, -⟩ := pinFile_hit_pinned hi hf hb hp
      rw [h2] at h; cases h
      simp
  | none =>
    by_cases hc : s.writeCache_.length < s.max_cache_entries_
    · obtain ⟨s2, h2, -, -, -, -, hheap⟩ := pinFile_alloc hi hf hc (pinFile_alloc_of_ok hf hc h)
      rw [h2] at h; cases h
      exact ⟨Or.inr ⟨by rw [hheap]; simp, hc⟩, fun _ h' => absurd hc h'⟩
    · by_cases hsz : s.freeListSize_ = 0
      · rw [pinFile_blocked hf hc hsz] at h; cases h
      · have hsz' : 0 < s.freeListSize_ := Nat.pos_of_ne_zero hsz
        obtain ⟨x, rest, rfl⟩ := hi.size_pos hsz'
        obtain ⟨s2, b, -, -, h2, -, -, hwc, hlen, -⟩ := pinFile_evict hi hf hc hsz'
          (pinFile_evict_of_ok hi hf hc hsz' h).1 (pinFile_evict_of_ok hi hf hc hsz' h).2
        rw [h2] at h; cases h
        refine ⟨Or.inl hlen, fun _ _ => ⟨hlen, x, rest, rfl, ?_⟩⟩
        rw [hwc, mapFind_mapInsert, if_pos rfl]

/-! ## The file system across a reclamation -/

theorem initialize_log (FS : Nat) (b : WriteCacheBuffer) (d : Disk) :
    ( WriteCacheBuffer.loaded FS b d).2.log = d.log ++ [loadEvent d b.fileName] := by
  unfold WriteCacheBuffer.loaded loadEvent
  split <;> rename_i h <;> simp [h]

theorem initialize_read_ne (FS : Nat) (b : WriteCacheBuffer) (d : Disk) (n : String)
    (hn : n ≠ b.fileName) : ( WriteCacheBuffer.loaded FS b d).2.read n = d.read n := by
  unfold WriteCacheBuffer.loaded
  split
  · simp [Disk.read, lookup_writeFile, hn]
  · rfl

theorem reclaim_dirty {FS : Nat} {b : WriteCacheBuffer} (f : String) (d : Disk)
    (hd : b.status &&& DIRTY ≠ 0) (hf : b.fileName ≠ f) (hlen : b.buffer.length = FS) :
    (reclaim FS b f d).2.read b.fileName = some b.buffer ∧
      (reclaim FS b f d).2.log =
        d.log ++ [IOEvent.store b.fileName b.buffer, loadEvent d f] := by
  have htake : b.buffer.take FS = b.buffer := by
    rw [← hlen]; exact List.take_length _
  have hp : persistIfDirty FS b d = b.stored FS d := by
    unfold persistIfDirty; rw [if_pos hd]
  have hread : ∀ n, (b.stored FS d).2.read n
      = if n = b.fileName then some b.buffer else d.read n := by
    intro n
    simp [WriteCacheBuffer.stored, Disk.read, lookup_writeFile, htake]
  have hle : loadEvent (b.stored FS d).2 f = loadEvent d f := by
    unfold loadEvent
    rw [hread f, if_neg (Ne.symm hf)]
  unfold reclaim WriteCacheBuffer.reloaded
  rw [hp]
  constructor
  · rw [initialize_read_ne _ _ _ _ (by simpa using hf), hread, if_pos rfl]
  · rw [initialize_log]
    simp only [hle]
    simp [WriteCacheBuffer.stored, htake]

theorem reclaim_clean {FS : Nat} {b : WriteCacheBuffer} (f : String) (d : Disk)
    (hd : b.status &&& DIRTY = 0) (hf : b.fileName ≠ f) :
    (reclaim FS b f d).2.read b.fileName = d.read b.fileName ∧
      (reclaim FS b f d).2.log = d.log ++ [loadEvent d f] := by
  have hp : persistIfDirty FS b d = (b, d) := by
    unfold persistIfDirty; rw [if_neg (by simpa using hd)]
  unfold reclaim WriteCacheBuffer.reloaded
  rw [hp]
  exact ⟨initialize_read_ne _ _ _ _ (by simpa using hf), initialize_log _ _ _⟩

/-! ## The free list across single calls -/

theorem data_transfer {h h' : List WriteCacheBuffer} {i : Nat} {b : WriteCacheBuffer}
    (hd : h'[i]?.map WriteCacheBuffer.data = h[i]?.map WriteCacheBuffer.data)
    (hb : h[i]? = some b) :
    ∃ b', h'[i]? = some b' ∧ b'.fileName = b.fileName ∧ b'.pinCount = b.pinCount ∧
      b'.status = b.status ∧ b'.buffer = b.buffer := by
  rw [hb] at hd
  cases hh : h'[i]? with
  | none => rw [hh] at hd; simp at hd
  | some b' =>
    rw [hh] at hd
    simp [WriteCacheBuffer.data] at hd
    exact ⟨b', rfl, hd.1, hd.2.1, hd.2.2.1, hd.2.2.2⟩

theorem data_transfer_self {h' : List WriteCacheBuffer} {i : Nat}
    {d : String × Nat × Nat × List Byte}
    (hd : h'[i]?.map WriteCacheBuffer.data = some d) :
    ∃ b', h'[i]? = some b' ∧ b'.fileName = d.1 ∧ b'.pinCount = d.2.1 ∧
      b'.status = d.2.2.1 ∧ b'.buffer = d.2.2.2 := by
  cases hh : h'[i]? with
  | none => rw [hh] at hd; simp at hd
  | some b' =>
    rw [hh] at hd
    simp [WriteCacheBuffer.data] at hd
    refine ⟨b', rfl, ?_, ?_, ?_, ?_⟩ <;> simp [← hd]

/-- Reclamation restated for the call `PinFiles [Y]`. -/
theorem PinFiles_reclaim {FS : Nat} {s : FileCacheImpl} {e : Nat} {rest : List Nat}
    {Y : String} (hi : Inv FS s (e :: rest)) (hY : mapFind s.writeCache_ Y = none)
    (hc : ¬ s.writeCache_.length < s.max_cache_entries_) (hsz : 0 < s.freeListSize_)
    (hr : s.refused = []) :
    ∃ s', PinFiles FS s [Y] = Outcome.ok s' ∧ Inv FS s' rest ∧
      s'.writeCache_ = mapInsert s.writeCache_ Y e ∧
      s'.max_cache_entries_ = s.max_cache_entries_ := by
  obtain ⟨s', b, -, -, hpin, hi', hmax, hwc, -⟩ := pinFile_evict hi hY hc hsz
    (fun b _ _ => not_refused_of_nil hr _) (createFails_of_nil hr _ _)
  exact ⟨s', by rw [PinFiles_single]; exact hpin, hi', hwc, hmax⟩

/-- Releasing the only pin of an entry, restated for the call `UnpinFiles [X]`. -/
theorem UnpinFiles_last {FS : Nat} {s : FileCacheImpl} {l : List Nat} {X : String} {a : Nat}
    {b : WriteCacheBuffer} (hi : Inv FS s l)
    (hX : mapFind s.writeCache_ X = some a) (hb : s.heap[a]? = some b)
    (hp : b.status &&& PINNED ≠ 0) (hc : b.pinCount = 1) :
    ∃ s', UnpinFiles s [X] = Outcome.ok s' ∧ Inv FS s' (l ++ [a]) ∧
      s'.writeCache_ = s.writeCache_ ∧ s'.max_cache_entries_ = s.max_cache_entries_ ∧
      (∀ (i : Nat) (c : WriteCacheBuffer), i ≠ a → s.heap[i]? = some c →
        ∃ c', s'.heap[i]? = some c' ∧ c'.status = c.status ∧ c'.pinCount = c.pinCount) := by
  obtain ⟨s', h1, hi', hmax, hwc, -, -, hoth, -⟩ := unpinFile_last hi hX hb hp hc
  refine ⟨s', by rw [UnpinFiles_single]; exact h1, hi', hwc, hmax, ?_⟩
  intro i c hia hc'
  obtain ⟨c', h2, -, h3, h4, -⟩ := data_transfer (hoth i hia) hc'
  exact ⟨c', h2, h4, h3⟩

theorem PinFiles_cons (FS : Nat) (s : FileCacheImpl) (f : String) (v : List String) :
    PinFiles FS s (f :: v) = (PinFiles FS s [f]).bind (fun s => PinFiles FS s v) := by
  rw [PinFiles_single]; rfl

theorem UnpinFiles_cons (s : FileCacheImpl) (f : String) (v : List String) :
    UnpinFiles s (f :: v) = (UnpinFiles s [f]).bind (fun s => UnpinFiles s v) := by
  rw [UnpinFiles_single]; rfl

/-- The scenario of three releases followed by three reclamations. -/
theorem fifo_three {FS : Nat} {s : FileCacheImpl} {A B C D E F : String} {a b c : Nat}
    {ba bb bc : WriteCacheBuffer} (hi : Inv FS s [])
    (hA : mapFind s.writeCache_ A = some a) (hB : mapFind s.writeCache_ B = some b)
    (hC : mapFind s.writeCache_ C = some c)
    (hab : a ≠ b) (hac : a ≠ c) (hbc : b ≠ c)
    (hba : s.heap[a]? = some ba) (hbb : s.heap[b]? = some bb) (hbc2 : s.heap[c]? = some bc)
    (hpa : ba.status &&& PINNED ≠ 0) (hpb : bb.status &&& PINNED ≠ 0)
    (hpc : bc.status &&& PINNED ≠ 0)
    (hca : ba.pinCount = 1) (hcb : bb.pinCount = 1) (hcc : bc.pinCount = 1)
    (hD : mapFind s.writeCache_ D = none) (hE : mapFind s.writeCache_ E = none)
    (hF : mapFind s.writeCache_ F = none)
    (hDE : D ≠ E) (hDF : D ≠ F) (hEF : E ≠ F)
    (hcap : ¬ s.writeCache_.length < s.max_cache_entries_) (hr : s.refused = []) :
    ∃ s1 s2, UnpinFiles s [A, B, C] = Outcome.ok s1 ∧ freeList s1 = [a, b, c] ∧
      PinFiles FS s1 [D, E, F] = Outcome.ok s2 ∧
      mapFind s2.writeCache_ D = some a ∧ mapFind s2.writeCache_ E = some b ∧
      mapFind s2.writeCache_ F = some c ∧ freeList s2 = [] := by
  obtain ⟨s1, h1, hi1, hw1, hm1, ho1⟩ := UnpinFiles_last hi hA hba hpa hca
  obtain ⟨bb1, hbb1, hs1, hc1⟩ := ho1 b bb (Ne.symm hab) hbb
  obtain ⟨bc1, hbc1, ht1, hd1⟩ := ho1 c bc (Ne.symm hac) hbc2
  obtain ⟨s2, h2, hi2, hw2, hm2, ho2⟩ := UnpinFiles_last hi1 (by rw [hw1]; exact hB) hbb1
    (by rw [hs1]; exact hpb) (by rw [hc1]; exact hcb)
  obtain ⟨bc3, hbc3, hs2, hc2⟩ := ho2 c bc1 (Ne.symm hbc) hbc1
  obtain ⟨s3, h3, hi3, hw3, hm3, -⟩ := UnpinFiles_last hi2 (by rw [hw2, hw1]; exact hC) hbc3
    (by rw [hs2, ht1]; exact hpc) (by rw [hc2, hd1]; exact hcc)
  simp only [List.nil_append, List.cons_append] at hi1 hi2 hi3
  have hwc3 : s3.writeCache_ = s.writeCache_ := by rw [hw3, hw2, hw1]
  have hmx3 : s3.max_cache_entries_ = s.max_cache_entries_ := by rw [hm3, hm2, hm1]
  have hsz3 : 0 < s3.freeListSize_ := by
    rw [hi3.list.size]; simp only [List.length_cons, List.length_nil]; decide
  have hr3 : s3.refused = [] := by
    rw [UnpinFiles_refused _ h3, UnpinFiles_refused _ h2, UnpinFiles_refused _ h1]; exact hr
  obtain ⟨s4, h4, hi4, hw4, hm4⟩ := PinFiles_reclaim hi3 (by rw [hwc3]; exact hD)
    (by rw [hwc3, hmx3]; exact hcap) hsz3 hr3
  have hr4 : s4.refused = [] := by rw [PinFiles_refused _ h4]; exact hr3
  have hlen4 : s.writeCache_.length ≤ s4.writeCache_.length := by
    rw [hw4, hwc3]; exact length_mapInsert_le _ _ _
  have hsz4 : 0 < s4.freeListSize_ := by
    rw [hi4.list.size]; simp only [List.length_cons, List.length_nil]; decide
  obtain ⟨s5, h5, hi5, hw5, hm5⟩ := PinFiles_reclaim hi4
    (by rw [hw4, hwc3, mapFind_mapInsert, if_neg (Ne.symm hDE)]; exact hE)
    (by rw [hm4, hmx3]; omega) hsz4 hr4
  have hr5 : s5.refused = [] := by rw [PinFiles_refused _ h5]; exact hr4
  have hlen5 : s.writeCache_.length ≤ s5.writeCache_.length := by
    rw [hw5]; exact le_trans hlen4 (length_mapInsert_le _ _ _)
  have hsz5 : 0 < s5.freeListSize_ := by
    rw [hi5.list.size]; simp only [List.length_cons, List.length_nil]; decide
  obtain ⟨s6, h6, hi6, hw6, hm6⟩ := PinFiles_reclaim hi5
    (by rw [hw5, hw4, hwc3, mapFind_mapInsert, if_neg (Ne.symm hEF), mapFind_mapInsert,
          if_neg (Ne.symm hDF)]; exact hF)
    (by rw [hm5, hm4, hmx3]; omega) hsz5 hr5
  refine ⟨s3, s6, ?_, hi3.list.freeList_eq, ?_, ?_, ?_, ?_, hi6.list.freeList_eq⟩
  · rw [UnpinFiles_cons, h1, Outcome.ok_bind, UnpinFiles_cons, h2, Outcome.ok_bind, h3]
  · rw [PinFiles_cons, h4, Outcome.ok_bind, PinFiles_cons, h5, Outcome.ok_bind, h6]
  · rw [hw6, hw5, hw4, mapFind_mapInsert, if_neg hDF, mapFind_mapInsert, if_neg hDE,
      mapFind_mapInsert, if_pos rfl]
  · rw [hw6, hw5, mapFind_mapInsert, if_neg hEF, mapFind_mapInsert, if_pos rfl]
  · rw [hw6, mapFind_mapInsert, if_pos rfl]

/-! ## Repeated pins and unpins of one name -/

theorem run_cons (FS : Nat) (s : FileCacheImpl) (c : Call) (cs : List Call) :
    run FS s (c :: cs) = (step FS s c).bind (fun s => run FS s cs) := rfl

theorem run_replicate_succ (FS : Nat) (s : FileCacheImpl) (c : Call) (n : Nat) :
    run FS s (List.replicate (n + 1) c)
      = (step FS s c).bind (fun s => run FS s (List.replicate n c)) := rfl

theorem run_append (FS : Nat) (cs ds : List Call) :
    ∀ s : FileCacheImpl, run FS s (cs ++ ds) = (run FS s cs).bind (fun s => run FS s ds) := by
  induction cs with
  | nil => intro s; rfl
  | cons c rest ih =>
    intro s
    simp only [List.cons_append, run_cons]
    cases step FS s c with
    | ok s1 => simp only [Outcome.ok_bind]; exact ih s1
    | blocked => rfl
    | aborted => rfl

theorem step_PinFiles_single (FS : Nat) (s : FileCacheImpl) (X : String) :
    step FS s (Call.PinFiles [X]) = pinFile FS s X := by
  simp only [step, PinFiles_single]

theorem step_UnpinFiles_single (FS : Nat) (s : FileCacheImpl) (X : String) :
    step FS s (Call.UnpinFiles [X]) = unpinFile s X := by
  simp only [step, UnpinFiles_single]

/-- After `n` further pins of a pinned entry its count is the old count plus `n`,
reduced modulo `2 ^ 32`; nothing else about the entry or the free list changes. -/
theorem pin_hits {FS : Nat} {X : String} {a : Nat} :
    ∀ (n : Nat) {s : FileCacheImpl} {l : List Nat} {b : WriteCacheBuffer},
      Inv FS s l → mapFind s.writeCache_ X = some a → s.heap[a]? = some b →
      b.status &&& PINNED ≠ 0 → b.pinCount < UINT_MOD →
      ∃ s' b', run FS s (List.replicate n (Call.PinFiles [X])) = Outcome.ok s' ∧
        Inv FS s' l ∧ s'.writeCache_ = s.writeCache_ ∧ s'.heap[a]? = some b' ∧
        b'.status = b.status ∧ b'.pinCount = (b.pinCount + n) % UINT_MOD := by
  intro n
  induction n with
  | zero =>
    intro s l b hi hX hb hp hc
    exact ⟨s, b, rfl, hi, rfl, hb, rfl, by rw [Nat.add_zero, Nat.mod_eq_of_lt hc]⟩
  | succ n ih =>
    intro s l b hi hX hb hp hc
    obtain ⟨h1, hi1⟩ := pinFile_hit_pinned hi hX hb hp
    have hb1 : (modifyAt s.heap a
        (fun b => { b with pinCount := (b.pinCount + 1) % UINT_MOD }))[a]?
        = some { b with pinCount := (b.pinCount + 1) % UINT_MOD } := by
      rw [getElem?_modifyAt_of_get _ hb, if_pos rfl]
    obtain ⟨s', b', h2, hi2, hw2, hb2, hs2, hc2⟩ := ih hi1 hX hb1 hp
      (Nat.mod_lt _ (by decide))
    refine ⟨s', b', ?_, hi2, hw2, hb2, hs2, ?_⟩
    · rw [run_replicate_succ, step_PinFiles_single, h1, Outcome.ok_bind]
      exact h2
    · rw [hc2]
      simp only
      unfold UINT_MOD
      omega

/-- After `k` releases of an entry pinned more than `k` times its count has
dropped by `k` and it is still pinned. -/
theorem unpin_more_iter {FS : Nat} {X : String} {a : Nat} :
    ∀ (k : Nat) {s : FileCacheImpl} {l : List Nat} {b : WriteCacheBuffer},
      Inv FS s l → mapFind s.writeCache_ X = some a → s.heap[a]? = some b →
      b.status &&& PINNED ≠ 0 → k < b.pinCount →
      ∃ s' b', run FS s (List.replicate k (Call.UnpinFiles [X])) = Outcome.ok s' ∧
        Inv FS s' l ∧ s'.writeCache_ = s.writeCache_ ∧ s'.heap[a]? = some b' ∧
        b'.status = b.status ∧ b'.pinCount = b.pinCount - k := by
  intro k
  induction k with
  | zero =>
    intro s l b hi hX hb hp hc
    exact ⟨s, b, rfl, hi, rfl, hb, rfl, rfl⟩
  | succ k ih =>
    intro s l b hi hX hb hp hc
    obtain ⟨h1, hi1⟩ := unpinFile_more hi hX hb hp (by omega)
    have hb1 : (modifyAt s.heap a (fun b => { b with pinCount := b.pinCount - 1 }))[a]?
        = some { b with pinCount := b.pinCount - 1 } := by
      rw [getElem?_modifyAt_of_get _ hb, if_pos rfl]
    obtain ⟨s', b', h2, hi2, hw2, hb2, hs2, hc2⟩ := ih hi1 hX hb1 hp
      (by simp only; omega)
    refine ⟨s', b', ?_, hi2, hw2, hb2, hs2, ?_⟩
    · rw [run_replicate_succ, step_UnpinFiles_single, h1, Outcome.ok_bind]
      exact h2
    · rw [hc2]
      simp only
      omega

/-- The first pin of a name that has no outstanding pin leaves its entry
pinned with count one. -/
theorem first_pin {FS : Nat} {s s0 : FileCacheImpl} {l : List Nat} {X : String}
    (hi : Inv FS s l)
    (hX : ∀ a b, mapFind s.writeCache_ X = some a → s.heap[a]? = some b →
      b.status &&& PINNED = 0)
    (h : pinFile FS s X = Outcome.ok s0) :
    ∃ l0 a b0, Inv FS s0 l0 ∧ mapFind s0.writeCache_ X = some a ∧ s0.heap[a]? = some b0 ∧
      b0.status &&& PINNED ≠ 0 ∧ b0.pinCount = 1 := by
  cases hf : mapFind s.writeCache_ X with
  | some a =>
    obtain ⟨ha0, b, hb⟩ := hi.dir_get hf
    have hp := hX a b hf hb
    obtain ⟨s2, h2, hi2, -, hwc, -, -, -, hself⟩ := pinFile_hit_unpinned hi hf hb hp
    rw [h2] at h; cases h
    obtain ⟨b0, hb0, -, hc0, hs0, -⟩ := data_transfer_self hself
    refine ⟨_, a, b0, hi2, by rw [hwc]; exact hf, hb0, ?_, ?_⟩
    · rw [hs0]; exact or_pinned_and_ne _
    · rw [hc0]
      simp only [hi.count a b ha0 hb hp]
      decide
  | none =>
    by_cases hc : s.writeCache_.length < s.max_cache_entries_
    · obtain ⟨s2, h2, hi2, -, hwc, -, hheap⟩ := pinFile_alloc hi hf hc (pinFile_alloc_of_ok hf hc h)
      rw [h2] at h; cases h
      refine ⟨_, s.heap.length, _, hi2, by rw [hwc, mapFind_mapInsert, if_pos rfl],
        by rw [hheap]; exact List.getElem?_concat_length _ _, or_pinned_and_ne _, rfl⟩
    · by_cases hsz : s.freeListSize_ = 0
      · rw [pinFile_blocked hf hc hsz] at h; cases h
      · have hsz2 : 0 < s.freeListSize_ := Nat.pos_of_ne_zero hsz
        obtain ⟨x, rest, rfl⟩ := hi.size_pos hsz2
        obtain ⟨s2, b, -, -, h2, hi2, -, hwc, -, -, -, hself⟩ := pinFile_evict hi hf hc hsz2
          (pinFile_evict_of_ok hi hf hc hsz2 h).1 (pinFile_evict_of_ok hi hf hc hsz2 h).2
        rw [h2] at h; cases h
        obtain ⟨b0, hb0, -, hc0, hs0, -⟩ := data_transfer_self hself
        refine ⟨_, x, b0, hi2, by rw [hwc, mapFind_mapInsert, if_pos rfl], hb0, ?_, hc0⟩
        rw [hs0]; exact or_pinned_and_ne _

/-! ## Files that no buffer is named after -/

theorem writeBack_read_ne (FS : Nat) (b : WriteCacheBuffer) (d : Disk) (n : String)
    (hn : n ≠ b.fileName) : (b.stored FS d).2.read n = d.read n := by
  simp [WriteCacheBuffer.stored, Disk.read, lookup_writeFile, hn]

theorem reclaim_read_ne (FS : Nat) (b : WriteCacheBuffer) (f : String) (d : Disk) (n : String)
    (hb : n ≠ b.fileName) (hf : n ≠ f) : (reclaim FS b f d).2.read n = d.read n := by
  unfold reclaim WriteCacheBuffer.reloaded
  rw [initialize_read_ne _ _ _ _ (by simpa using hf)]
  unfold persistIfDirty
  split
  · exact writeBack_read_ne _ _ _ _ hb
  · rfl

theorem new_read_ne (FS : Nat) (f : String) (d : Disk) (n : String) (hf : n ≠ f) :
    ( WriteCacheBuffer.new FS f d).2.read n = d.read n := by
  unfold WriteCacheBuffer.new
  split
  · exact initialize_read_ne _ _ _ _ (by simpa using hf)
  · rfl

/-- An iteration of `PinFiles` keeps a name orphaned and leaves its file alone. -/
theorem pinFile_orphaned {FS : Nat} {s s' : FileCacheImpl} {l : List Nat} {f A : String}
    (hi : Inv FS s l) (ho : Orphaned s A) (h : pinFile FS s f = Outcome.ok s') :
    Orphaned s' A ∧ s'.disk.read A = s.disk.read A := by
  obtain ⟨hkey, hnames⟩ := ho
  cases hf : mapFind s.writeCache_ f with
  | some a =>
    obtain ⟨ha0, b, hb⟩ := hi.dir_get hf
    by_cases hp : b.status &&& PINNED = 0
    · obtain ⟨s2, h2, -, -, hwc, hdk, -, hoth, hself⟩ := pinFile_hit_unpinned hi hf hb hp
      rw [h2] at h; cases h
      refine ⟨⟨by rw [hwc]; exact hkey, ?_⟩, by rw [hdk]⟩
      intro i c hi0 hc
      by_cases hia : i = a
      · subst hia
        obtain ⟨c2, hc2, hn, -⟩ := data_transfer_self hself
        rw [hc] at hc2; cases hc2
        rw [hn]; exact hnames i b hi0 hb
      · have hd := hoth i hia
        rw [hc] at hd
        cases hh : s.heap[i]? with
        | none => rw [hh] at hd; simp at hd
        | some c0 =>
          rw [hh] at hd
          simp [WriteCacheBuffer.data] at hd
          rw [hd.1]; exact hnames i c0 hi0 hh
    · obtain ⟨h2, -⟩ := pinFile_hit_pinned hi hf hb hp
      rw [h2] at h; cases h
      refine ⟨⟨hkey, ?_⟩, rfl⟩
      intro i c hi0 hc
      simp only [getElem?_modifyAt_of_get _ hb] at hc
      split at hc
      · cases hc; rename_i hia; subst hia; exact hnames i b hi0 hb
      · exact hnames i c hi0 hc
  | none =>
    have hAf : A ≠ f := by
      rintro rfl; exact hkey hf
    by_cases hc : s.writeCache_.length < s.max_cache_entries_
    · obtain ⟨s2, h2, -, -, hwc, hdk, hheap⟩ := pinFile_alloc hi hf hc (pinFile_alloc_of_ok hf hc h)
      rw [h2] at h; cases h
      refine ⟨⟨?_, ?_⟩, by rw [hdk]; exact new_read_ne _ _ _ _ hAf⟩
      · rw [hwc, mapFind_mapInsert, if_neg hAf]; exact hkey
      · intro i c hi0 hc2
        rw [hheap] at hc2
        by_cases hil : i = s.heap.length
        · subst hil
          rw [List.getElem?_concat_length] at hc2
          cases hc2
          simp only [new_fileName]
          exact Ne.symm hAf
        · rw [getElem?_append_ne _ _ hil] at hc2
          exact hnames i c hi0 hc2
    · by_cases hsz : s.freeListSize_ = 0
      · rw [pinFile_blocked hf hc hsz] at h; cases h
      · have hsz2 : 0 < s.freeListSize_ := Nat.pos_of_ne_zero hsz
        obtain ⟨x, rest, rfl⟩ := hi.size_pos hsz2
        obtain ⟨s2, b, hb, -, h2, -, -, hwc, -, hoth, hdk, hself⟩ :=
          pinFile_evict hi hf hc hsz2
          (pinFile_evict_of_ok hi hf hc hsz2 h).1 (pinFile_evict_of_ok hi hf hc hsz2 h).2
        rw [h2] at h; cases h
        have hx0 : x ≠ 0 := hi.list.mem_ne_zero (by simp)
        refine ⟨⟨?_, ?_⟩, ?_⟩
        · rw [hwc, mapFind_mapInsert, if_neg hAf]; exact hkey
        · intro i c hi0 hc2
          by_cases hix : i = x
          · subst hix
            obtain ⟨c2, hc3, hn, -⟩ := data_transfer_self hself
            rw [hc2] at hc3; cases hc3
            rw [hn]; exact Ne.symm hAf
          · have hd := hoth i hix
            rw [hc2] at hd
            cases hh : s.heap[i]? with
            | none => rw [hh] at hd; simp at hd
            | some c0 =>
              rw [hh] at hd
              simp [WriteCacheBuffer.data] at hd
              rw [hd.1]; exact hnames i c0 hi0 hh
        · rw [hdk]
          exact reclaim_read_ne _ _ _ _ _ (Ne.symm (hnames x b hx0 hb)) hAf

theorem PinFiles_orphaned {FS : Nat} {A : String} (v : List String) :
    ∀ {s s' : FileCacheImpl} {l : List Nat}, Inv FS s l → Orphaned s A →
      PinFiles FS s v = Outcome.ok s' → s'.disk.read A = s.disk.read A := by
  induction v with
  | nil =>
    intro s s' l hi ho h
    simp [PinFiles] at h
    subst h; rfl
  | cons f rest ih =>
    intro s s' l hi ho h
    simp only [PinFiles] at h
    obtain ⟨s1, h1, h2⟩ := Outcome.bind_eq_ok.1 h
    obtain ⟨l1, hi1, -⟩ := pinFile_inv hi h1
    obtain ⟨ho1, hd1⟩ := pinFile_orphaned hi ho h1
    rw [ih hi1 ho1 h2, hd1]

/-- After the entry at the head of the free list was reclaimed for `B`, its
old name is orphaned. -/
theorem orphaned_after_reclaim {FS : Nat} {s s' : FileCacheImpl} {e : Nat} {rest : List Nat}
    {B : String} {b : WriteCacheBuffer} (hi : Inv FS s (e :: rest))
    (hB : mapFind s.writeCache_ B = none)
    (hc : ¬ s.writeCache_.length < s.max_cache_entries_) (hsz : 0 < s.freeListSize_)
    (hb : s.heap[e]? = some b) (h : pinFile FS s B = Outcome.ok s') :
    Orphaned s' b.fileName := by
  have he0 : e ≠ 0 := hi.list.mem_ne_zero (by simp)
  obtain ⟨s2, b0, hb0, -, h2, -, -, hwc, -, hoth, -, hself⟩ := pinFile_evict hi hB hc hsz
          (pinFile_evict_of_ok hi hB hc hsz h).1 (pinFile_evict_of_ok hi hB hc hsz h).2
  rw [h2] at h; cases h
  rw [hb] at hb0; cases hb0
  have hne : b.fileName ≠ B := by
    intro heq
    have := hi.named e b he0 hb
    rw [heq, hB] at this
    cases this
  refine ⟨?_, ?_⟩
  · rw [hwc, mapFind_mapInsert, if_neg hne, hi.named e b he0 hb]
    simp
  · intro i c hi0 hc2
    by_cases hie : i = e
    · subst hie
      obtain ⟨c2, hc3, hn, -⟩ := data_transfer_self hself
      rw [hc2] at hc3; cases hc3
      rw [hn]; exact Ne.symm hne
    · have hd := hoth i hie
      rw [hc2] at hd
      cases hh : s.heap[i]? with
      | none => rw [hh] at hd; simp at hd
      | some c0 =>
        rw [hh] at hd
        simp [WriteCacheBuffer.data] at hd
        rw [hd.1]
        intro hname
        have h3 := hi.named i c0 hi0 hh
        rw [hname, hi.named e b he0 hb] at h3
        exact hie (Option.some.inj h3).symm

/-! ## Claims -/

theorem demoQueued_reachable :
    run 2 (FileCacheImpl.new 2 1 demoDisk) [Call.PinFiles ["A"], Call.UnpinFiles ["A"]]
      = Outcome.ok demoQueued := by decide

theorem demoReclaimed_reachable :
    run 2 (FileCacheImpl.new 2 1 demoDisk)
      [Call.PinFiles ["A"], Call.UnpinFiles ["A"], Call.PinFiles ["B"]]
      = Outcome.ok demoReclaimed := by decide

/-- C1, evaluated on the code: with capacity 1, pinning `A`, unpinning it and
pinning `B` returns with two keys, `A` and `B`, in the map `writeCache_`; the
reclamation inserted the new key without removing the old one, so the number of
keys exceeds `max_cache_entries`. -/
theorem C1_directory_exceeds_capacity :
    (run 2 (FileCacheImpl.new 2 1 demoDisk)
        [Call.PinFiles ["A"], Call.UnpinFiles ["A"], Call.PinFiles ["B"]]).bind
      (fun s => Outcome.ok (directoryKeys s, s.max_cache_entries_))
      = Outcome.ok (["A", "B"], 1) := by decide

/-- C2: in every state reached from a fresh cache, the map refers to at most
`max_cache_entries` distinct buffers and at most that many buffers were ever
allocated; an iteration of `PinFiles` allocates a buffer only when the map
holds fewer than `max_cache_entries` keys, and on a miss at capacity it
allocates nothing and maps the new name to a buffer the map already referred
to. -/
theorem C2_resident_buffers_bounded {FS max : Nat} {d : Disk} {cs : List Call}
    {s : FileCacheImpl} (h : run FS (FileCacheImpl.new FS max d) cs = Outcome.ok s) :
    (residentBuffers s).length ≤ max ∧ s.heap.length - 1 ≤ max ∧
    ∀ (f : String) (s' : FileCacheImpl), pinFile FS s f = Outcome.ok s' →
      (s'.heap.length ≠ s.heap.length → s.writeCache_.length < max) ∧
      (mapFind s.writeCache_ f = none → ¬ s.writeCache_.length < max →
        s'.heap.length = s.heap.length ∧
        ∃ a, mapFind s'.writeCache_ f = some a ∧ a ∈ residentBuffers s) := by
  obtain ⟨hi, hmax⟩ := reachable_inv h
  have hb := hi.resident_bound
  have hcap := hi.cap
  rw [hmax] at hcap
  refine ⟨by omega, by omega, ?_⟩
  intro f s' hpin
  obtain ⟨h1, h2⟩ := pinFile_shape hi hpin
  rw [hmax] at h1 h2
  refine ⟨?_, ?_⟩
  · intro hne
    rcases h1 with h1 | h1
    · exact absurd h1 hne
    · exact h1.2
  · intro hf hc
    obtain ⟨hlen, x, rest, hl, hx⟩ := h2 hf hc
    refine ⟨hlen, x, hx, ?_⟩
    have hxm : x ∈ freeList s := by rw [hl]; simp
    exact hi.resident_of_get (hi.list.mem_ne_zero hxm) (hi.list.bound x hxm)

/-- C2 on the cache of capacity one in which `A` is queued: one resident
buffer, and pinning `B` reuses it. -/
theorem C2_resident_buffers_bounded_witness :
    run 2 (FileCacheImpl.new 2 1 demoDisk) [Call.PinFiles ["A"], Call.UnpinFiles ["A"]]
        = Outcome.ok demoQueued ∧
      (residentBuffers demoQueued).length ≤ 1 ∧
      (mapFind demoQueued.writeCache_ "B" = none → ¬ demoQueued.writeCache_.length < 1 →
        demoReclaimed.heap.length = demoQueued.heap.length ∧
        ∃ a, mapFind demoReclaimed.writeCache_ "B" = some a ∧ a ∈ residentBuffers demoQueued) :=
  ⟨by decide,
   (C2_resident_buffers_bounded (by decide : run 2 (FileCacheImpl.new 2 1 demoDisk)
      [Call.PinFiles ["A"], Call.UnpinFiles ["A"]] = Outcome.ok demoQueued)).1,
   ((C2_resident_buffers_bounded (by decide : run 2 (FileCacheImpl.new 2 1 demoDisk)
      [Call.PinFiles ["A"], Call.UnpinFiles ["A"]] = Outcome.ok demoQueued)).2.2
      "B" demoReclaimed (by decide)).2⟩

/-- C3: in every state reached from a fresh cache, each entry the map refers
to is either pinned, and then neither in the free list nor linked, or
unpinned, and then in the free list with both links set; and every entry in the
free list is referred to by the map. -/
theorem C3_pinned_xor_queued {FS max : Nat} {d : Disk} {cs : List Call}
    {s : FileCacheImpl} (h : run FS (FileCacheImpl.new FS max d) cs = Outcome.ok s) :
    (∀ (k : String) (a : Nat), mapFind s.writeCache_ k = some a →
      ∃ b, s.heap[a]? = some b ∧
        ((b.status &&& PINNED ≠ 0 ∧ a ∉ freeList s ∧ b.next = none ∧ b.prev = none) ∨
         (b.status &&& PINNED = 0 ∧ a ∈ freeList s ∧ b.next ≠ none ∧ b.prev ≠ none))) ∧
    (∀ a ∈ freeList s, ∃ k, mapFind s.writeCache_ k = some a) := by
  obtain ⟨hi, -⟩ := reachable_inv h
  refine ⟨?_, ?_⟩
  · intro k a hk
    obtain ⟨ha0, b, hb⟩ := hi.dir_get hk
    refine ⟨b, hb, ?_⟩
    by_cases hp : b.status &&& PINNED = 0
    · right
      have hm : a ∈ freeList s := (hi.pinned a b ha0 hb).1 hp
      obtain ⟨p, n, hn, hpv, -⟩ := ring_unlink hi.list.ring hi.list.nodup hm
      rw [nextOf_of_get hb] at hn
      rw [prevOf_of_get hb] at hpv
      exact ⟨hp, hm, by rw [hn]; simp, by rw [hpv]; simp⟩
    · left
      have hm : a ∉ freeList s := fun hm => hp ((hi.pinned a b ha0 hb).2 hm)
      have := hi.list.unlinked a ha0 hm
      rw [nextOf_of_get hb, prevOf_of_get hb] at this
      exact ⟨hp, hm, this.1, this.2⟩
  · intro a ha
    have ha0 := hi.list.mem_ne_zero ha
    have hal := hi.list.bound a ha
    obtain ⟨b, hb⟩ : ∃ b, s.heap[a]? = some b := ⟨s.heap[a], List.getElem?_eq_getElem hal⟩
    exact ⟨b.fileName, hi.named a b ha0 hb⟩

/-- C3 on the cache of capacity one in which `A` is queued. -/
theorem C3_pinned_xor_queued_witness :
    run 2 (FileCacheImpl.new 2 1 demoDisk) [Call.PinFiles ["A"], Call.UnpinFiles ["A"]]
        = Outcome.ok demoQueued ∧
      freeList demoQueued = [1] ∧
      ∀ a ∈ freeList demoQueued, ∃ k, mapFind demoQueued.writeCache_ k = some a :=
  ⟨by decide, by decide,
   (C3_pinned_xor_queued (by decide : run 2 (FileCacheImpl.new 2 1 demoDisk)
      [Call.PinFiles ["A"], Call.UnpinFiles ["A"]] = Outcome.ok demoQueued)).2⟩

/-- C4, evaluated on the code: with capacity 1 and buffers of two bytes, `X` is
pinned, the byte `7` is written through its mutable view and `X` is unpinned;
at that point `X`'s buffer is `[7, 0]` and it is what the reclamation for `Y`
writes to the file `X`.  After `Y` was pinned and unpinned, `PinFiles [X]`
finds the old key `X` in the map and `FileData X` returns the buffer that now
belongs to `Y`, `[0, 0]`, without reloading `X`. -/
theorem C4_repin_after_reclaim_reads_other_file :
    (run 2 (FileCacheImpl.new 2 1 emptyDisk)
        [Call.PinFiles ["X"], Call.write "X" [7]]).bind (fun s => FileDataBytes s "X")
      = Outcome.ok (some [7, 0]) ∧
    (run 2 (FileCacheImpl.new 2 1 emptyDisk)
        [Call.PinFiles ["X"], Call.write "X" [7], Call.UnpinFiles ["X"],
         Call.PinFiles ["Y"], Call.UnpinFiles ["Y"], Call.PinFiles ["X"]]).bind
      (fun s => (FileDataBytes s "X").bind (fun v => Outcome.ok (v, s.disk.read "X", s.disk.log)))
      = Outcome.ok (some [0, 0], some [7, 0],
          [IOEvent.create "X", IOEvent.store "X" [7, 0], IOEvent.create "Y"]) := by
  decide

/-- C5: in a state reached from a fresh cache, let `B` be absent from the map,
the map be at capacity and the free list be non-empty with the entry `b` at its
head.  Then `PinFiles [B]` returns and maps `B` to that entry.  If `b` was
dirty, the file of `b`'s old name afterwards holds exactly the `FS` bytes of
`b`'s buffer, and the stream operations of the call are the store to that file
followed by the load (or creation) of `B`.  If `b` was clean, the file of its
old name is as before and the only stream operation is the load (or creation)
of `B`.  The file of the old name is the same again at the return of any call
`PinFiles (B :: more)`. -/
theorem C5_dirty_before_evict {FS max : Nat} {d : Disk} {cs : List Call}
    {s : FileCacheImpl} {B : String} {e : Nat} {rest : List Nat} {b : WriteCacheBuffer}
    (h : run FS (FileCacheImpl.new FS max d) cs = Outcome.ok s)
    (hB : mapFind s.writeCache_ B = none) (hcap : ¬ s.writeCache_.length < max)
    (hsz : 0 < s.freeListSize_) (hfl : freeList s = e :: rest)
    (hb : s.heap[e]? = some b) :
    (∃ s', PinFiles FS s [B] = Outcome.ok s' ∧ mapFind s'.writeCache_ B = some e ∧
      b.fileName ≠ B ∧ b.buffer.length = FS ∧
      (b.status &&& DIRTY ≠ 0 →
        s'.disk.read b.fileName = some b.buffer ∧
        s'.disk.log = s.disk.log ++ [IOEvent.store b.fileName b.buffer, loadEvent s.disk B]) ∧
      (b.status &&& DIRTY = 0 →
        s'.disk.read b.fileName = s.disk.read b.fileName ∧
        s'.disk.log = s.disk.log ++ [loadEvent s.disk B])) ∧
    (∀ (more : List String) (t : FileCacheImpl),
      PinFiles FS s (B :: more) = Outcome.ok t →
      (b.status &&& DIRTY ≠ 0 → t.disk.read b.fileName = some b.buffer) ∧
      (b.status &&& DIRTY = 0 → t.disk.read b.fileName = s.disk.read b.fileName)) := by
  obtain ⟨hi, hmax⟩ := reachable_inv h
  rw [hfl] at hi
  rw [← hmax] at hcap
  have hem : e ∈ e :: rest := by simp
  have he0 : e ≠ 0 := hi.list.mem_ne_zero hem
  have hr := reachable_refused h
  obtain ⟨s', b0, hb0, -, hpin, hi', -, hwc, -, -, hdisk, -⟩ := pinFile_evict hi hB hcap hsz
    (fun b _ _ => not_refused_of_nil hr _) (createFails_of_nil hr _ _)
  rw [hb] at hb0
  cases hb0
  have hne : b.fileName ≠ B := by
    intro heq
    have := hi.named e b he0 hb
    rw [heq, hB] at this
    cases this
  have hlen : b.buffer.length = FS := hi.buflen e b he0 hb
  have hdirty : b.status &&& DIRTY ≠ 0 →
      s'.disk.read b.fileName = some b.buffer ∧
      s'.disk.log = s.disk.log ++ [IOEvent.store b.fileName b.buffer, loadEvent s.disk B] := by
    intro hd
    rw [hdisk]
    exact reclaim_dirty B s.disk hd hne hlen
  have hclean : b.status &&& DIRTY = 0 →
      s'.disk.read b.fileName = s.disk.read b.fileName ∧
      s'.disk.log = s.disk.log ++ [loadEvent s.disk B] := by
    intro hd
    rw [hdisk]
    exact reclaim_clean B s.disk hd hne
  refine ⟨⟨s', by rw [PinFiles_single]; exact hpin, ?_, hne, hlen, hdirty, hclean⟩, ?_⟩
  · rw [hwc, mapFind_mapInsert, if_pos rfl]
  · intro more t ht
    rw [PinFiles_cons, PinFiles_single, hpin, Outcome.ok_bind] at ht
    have horph := orphaned_after_reclaim hi hB hcap hsz hb hpin
    have hsame := PinFiles_orphaned more hi' horph ht
    exact ⟨fun hd => by rw [hsame]; exact (hdirty hd).1,
      fun hd => by rw [hsame]; exact (hclean hd).1⟩

/-- C5 on the cache of capacity one in which the dirty entry of `A`, holding
`[7, 0]`, is queued: pinning `B` stores `[7, 0]` to the file `A` and then
creates `B`. -/
theorem C5_dirty_before_evict_witness :
    run 2 (FileCacheImpl.new 2 1 emptyDisk)
        [Call.PinFiles ["A"], Call.write "A" [7], Call.UnpinFiles ["A"]]
        = Outcome.ok demoDirtyQueued ∧
      mapFind demoDirtyQueued.writeCache_ "B" = none ∧
      ¬ demoDirtyQueued.writeCache_.length < 1 ∧
      0 < demoDirtyQueued.freeListSize_ ∧ freeList demoDirtyQueued = [1] ∧
      demoDirtyBufferA.status &&& DIRTY ≠ 0 ∧
      ∃ s', PinFiles 2 demoDirtyQueued ["B"] = Outcome.ok s' ∧
        mapFind s'.writeCache_ "B" = some 1 ∧
        (demoDirtyBufferA.status &&& DIRTY ≠ 0 →
          s'.disk.read demoDirtyBufferA.fileName = some demoDirtyBufferA.buffer ∧
          s'.disk.log = demoDirtyQueued.disk.log ++
            [IOEvent.store demoDirtyBufferA.fileName demoDirtyBufferA.buffer,
             loadEvent demoDirtyQueued.disk "B"]) :=
  ⟨by decide, by decide, by decide, by decide, by decide, by decide,
   (C5_dirty_before_evict
      (by decide : run 2 (FileCacheImpl.new 2 1 emptyDisk)
        [Call.PinFiles ["A"], Call.write "A" [7], Call.UnpinFiles ["A"]]
        = Outcome.ok demoDirtyQueued)
      (by decide) (by decide) (by decide) (by decide : freeList demoDirtyQueued = [1])
      (by decide : demoDirtyQueued.heap[1]? = some demoDirtyBufferA)).1.imp
     (fun _ hs => ⟨hs.1, hs.2.1, hs.2.2.2.2.1⟩)⟩

/-- What the two accessors do in terms of the map: in every state reached from
a fresh cache and for every name `X`, `FileData X` and `MutableFileData X`
return `NULL` when `X` is not a key of the map or the entry the map gives for
`X` is unpinned, and both return that entry's buffer, with its content
unchanged, when the entry is pinned.  The entry the map gives for `X` need not
be an entry of `X`: a reclaimed key leads to the buffer of another file. -/
theorem view_by_directory {FS max : Nat} {d : Disk} {cs : List Call}
    {s : FileCacheImpl} (h : run FS (FileCacheImpl.new FS max d) cs = Outcome.ok s)
    (X : String) :
    (mapFind s.writeCache_ X = none →
      FileData s X = Outcome.ok none ∧ MutableFileData s X = Outcome.ok (s, none)) ∧
    (∀ a, mapFind s.writeCache_ X = some a → ∃ b, s.heap[a]? = some b ∧
      (b.status &&& PINNED = 0 →
        FileData s X = Outcome.ok none ∧ MutableFileData s X = Outcome.ok (s, none)) ∧
      (b.status &&& PINNED ≠ 0 →
        FileData s X = Outcome.ok (some a) ∧ viewContent s a = some b.buffer ∧
        ∃ s', MutableFileData s X = Outcome.ok (s', some a) ∧
          viewContent s' a = some b.buffer)) := by
  obtain ⟨hi, -⟩ := reachable_inv h
  refine ⟨fun hf => ⟨FileData_absent hf, MutableFileData_absent hf⟩, ?_⟩
  intro a hf
  obtain ⟨ha0, b, hb⟩ := hi.dir_get hf
  refine ⟨b, hb, fun hp => ⟨FileData_unpinned hf hb hp, MutableFileData_unpinned hf hb hp⟩,
    fun hp => ⟨FileData_pinned hf hb hp, by simp [viewContent, hb], _,
      MutableFileData_pinned hf hb hp, ?_⟩⟩
  simp [viewContent, getElem?_modifyAt_of_get _ hb]

/-- C6, evaluated on the code: with capacity 1 and files `A = [1, 1]`,
`B = [2, 2]`, after `A` was pinned and unpinned and `B` was pinned, the entry of
`A` has been reclaimed and no buffer of the cache carries the name `A`.  Yet
neither `FileData A` nor `MutableFileData A` returns `NULL`: both return the
buffer at address 1, which is the buffer of `B` holding `[2, 2]`, and the write
access through the name `A` marks the entry of `B` dirty. -/
theorem C6_evicted_name_gets_a_view :
    run 2 (FileCacheImpl.new 2 1 demoDisk)
        [Call.PinFiles ["A"], Call.UnpinFiles ["A"], Call.PinFiles ["B"]]
      = Outcome.ok demoReclaimed ∧
    (∀ b ∈ demoReclaimed.heap, b.fileName ≠ "A") ∧
    FileData demoReclaimed "A" = Outcome.ok (some 1) ∧
    (MutableFileData demoReclaimed "A").bind (fun r => Outcome.ok r.2)
      = Outcome.ok (some 1) ∧
    demoReclaimed.heap[1]?.map (fun b => (b.fileName, b.status, b.buffer))
      = some ("B", 1, [2, 2]) ∧
    (MutableFileData demoReclaimed "A").bind
      (fun r => Outcome.ok (r.1.heap[1]?.map (fun b => (b.fileName, b.status, b.buffer))))
      = Outcome.ok (some ("B", 3, [2, 2])) := by
  decide

/-- C7, evaluated on the code: with capacity 1 and files `A = [1, 1]`,
`B = [2, 2]`, after `A` was pinned and unpinned and `B` was pinned, the map
holds both keys `A` and `B` for the same entry, whose name is `B`; `FileData A`
is not `NULL` but returns `B`'s content, and a further `PinFiles [A]` is a hit
that loads nothing from the file system. -/
theorem C7_reclaimed_key_stays_in_directory :
    run 2 (FileCacheImpl.new 2 1 demoDisk)
        [Call.PinFiles ["A"], Call.UnpinFiles ["A"], Call.PinFiles ["B"]]
      = Outcome.ok demoReclaimed ∧
    demoReclaimed.writeCache_ = [("A", 1), ("B", 1)] ∧
    demoReclaimed.heap.map (fun b => b.fileName) = ["dummy", "B"] ∧
    FileData demoReclaimed "A" = Outcome.ok (some 1) ∧
    FileDataBytes demoReclaimed "A" = Outcome.ok (some [2, 2]) ∧
    (PinFiles 2 demoReclaimed ["A"]).bind
      (fun s => (FileDataBytes s "A").bind (fun v => Outcome.ok (v, s.disk.log)))
      = Outcome.ok (some [2, 2], demoReclaimed.disk.log) := by
  decide

/-- C8: in every state reached from a fresh cache, (1) releasing the only pin
of an entry appends it at the tail of the free list, (2) releasing one of
several pins leaves the list as it is, (3) pinning a queued entry again removes
it and keeps the order of the others, (4) pinning a pinned entry leaves the
list as it is, (5) a miss at capacity that does not block takes the entry at
the head of the list, and handing out a mutable view leaves the list as it is
(6).  In particular (7), starting from an empty list, when the entries of `A`,
`B`, `C` are released in that order, the next three reclamations, for `D`, `E`
and `F`, take the entry of `A`, then that of `B`, then that of `C`. -/
theorem C8_fifo_eviction_order {FS max : Nat} {d : Disk} {cs : List Call}
    {s : FileCacheImpl} (h : run FS (FileCacheImpl.new FS max d) cs = Outcome.ok s) :
    (∀ (X : String) (a : Nat) (b : WriteCacheBuffer), mapFind s.writeCache_ X = some a →
      s.heap[a]? = some b → b.status &&& PINNED ≠ 0 → b.pinCount = 1 →
      ∃ s', UnpinFiles s [X] = Outcome.ok s' ∧ freeList s' = freeList s ++ [a]) ∧
    (∀ (X : String) (a : Nat) (b : WriteCacheBuffer), mapFind s.writeCache_ X = some a →
      s.heap[a]? = some b → b.status &&& PINNED ≠ 0 → 1 < b.pinCount →
      ∃ s', UnpinFiles s [X] = Outcome.ok s' ∧ freeList s' = freeList s) ∧
    (∀ (X : String) (a : Nat) (b : WriteCacheBuffer), mapFind s.writeCache_ X = some a →
      s.heap[a]? = some b → b.status &&& PINNED = 0 →
      ∃ s', PinFiles FS s [X] = Outcome.ok s' ∧ freeList s' = (freeList s).erase a) ∧
    (∀ (X : String) (a : Nat) (b : WriteCacheBuffer), mapFind s.writeCache_ X = some a →
      s.heap[a]? = some b → b.status &&& PINNED ≠ 0 →
      ∃ s', PinFiles FS s [X] = Outcome.ok s' ∧ freeList s' = freeList s) ∧
    (∀ (Y : String) (e : Nat) (rest : List Nat), mapFind s.writeCache_ Y = none →
      ¬ s.writeCache_.length < max → 0 < s.freeListSize_ → freeList s = e :: rest →
      ∃ s', PinFiles FS s [Y] = Outcome.ok s' ∧ mapFind s'.writeCache_ Y = some e ∧
        freeList s' = rest) ∧
    (∀ (X : String) (r : FileCacheImpl × Option Nat), MutableFileData s X = Outcome.ok r →
      freeList r.1 = freeList s) ∧
    (∀ (A B C D E F : String) (a b c : Nat) (ba bb bc : WriteCacheBuffer),
      freeList s = [] →
      mapFind s.writeCache_ A = some a → mapFind s.writeCache_ B = some b →
      mapFind s.writeCache_ C = some c → a ≠ b → a ≠ c → b ≠ c →
      s.heap[a]? = some ba → s.heap[b]? = some bb → s.heap[c]? = some bc →
      ba.status &&& PINNED ≠ 0 → bb.status &&& PINNED ≠ 0 → bc.status &&& PINNED ≠ 0 →
      ba.pinCount = 1 → bb.pinCount = 1 → bc.pinCount = 1 →
      mapFind s.writeCache_ D = none → mapFind s.writeCache_ E = none →
      mapFind s.writeCache_ F = none → D ≠ E → D ≠ F → E ≠ F →
      ¬ s.writeCache_.length < max →
      ∃ s1 s2, UnpinFiles s [A, B, C] = Outcome.ok s1 ∧ freeList s1 = [a, b, c] ∧
        PinFiles FS s1 [D, E, F] = Outcome.ok s2 ∧
        mapFind s2.writeCache_ D = some a ∧ mapFind s2.writeCache_ E = some b ∧
        mapFind s2.writeCache_ F = some c ∧ freeList s2 = []) := by
  obtain ⟨hi, hmax⟩ := reachable_inv h
  refine ⟨?_, ?_, ?_, ?_, ?_, ?_, ?_⟩
  · intro X a b hX hb hp hc
    obtain ⟨s', h1, hi', -⟩ := UnpinFiles_last hi hX hb hp hc
    exact ⟨s', h1, hi'.list.freeList_eq⟩
  · intro X a b hX hb hp hc
    obtain ⟨h1, hi'⟩ := unpinFile_more hi hX hb hp hc
    exact ⟨_, by rw [UnpinFiles_single]; exact h1, hi'.list.freeList_eq⟩
  · intro X a b hX hb hp
    obtain ⟨s', h1, hi', -⟩ := pinFile_hit_unpinned hi hX hb hp
    exact ⟨s', by rw [PinFiles_single]; exact h1, hi'.list.freeList_eq⟩
  · intro X a b hX hb hp
    obtain ⟨h1, hi'⟩ := pinFile_hit_pinned hi hX hb hp
    exact ⟨_, by rw [PinFiles_single]; exact h1, hi'.list.freeList_eq⟩
  · intro Y e rest hY hcap hsz hfl
    rw [hfl] at hi
    obtain ⟨s', h1, hi', hwc, -⟩ := PinFiles_reclaim hi hY (by rw [hmax]; exact hcap) hsz
      (reachable_refused h)
    exact ⟨s', h1, by rw [hwc, mapFind_mapInsert, if_pos rfl], hi'.list.freeList_eq⟩
  · intro X r hr
    exact (MutableFileData_step_inv hi hr).1.list.freeList_eq
  · intro A B C D E F a b c ba bb bc hfl hA hB hC hab hac hbc hba hbb hbc2 hpa hpb hpc
      hca hcb hcc hD hE hF hDE hDF hEF hcap
    rw [hfl] at hi
    exact fifo_three hi hA hB hC hab hac hbc hba hbb hbc2 hpa hpb hpc hca hcb hcc hD hE hF
      hDE hDF hEF (by rw [hmax]; exact hcap) (reachable_refused h)

/-- C8 on the cache of capacity three with `A`, `B`, `C` pinned once each:
after their release the list is `[1, 2, 3]`, and `D`, `E`, `F` then take the
entries 1, 2 and 3 in that order. -/
theorem C8_fifo_eviction_order_witness :
    run 1 (FileCacheImpl.new 1 3 emptyDisk) [Call.PinFiles ["A", "B", "C"]]
        = Outcome.ok demoThree ∧
      ∃ s1 s2, UnpinFiles demoThree ["A", "B", "C"] = Outcome.ok s1 ∧
        freeList s1 = [1, 2, 3] ∧
        PinFiles 1 s1 ["D", "E", "F"] = Outcome.ok s2 ∧
        mapFind s2.writeCache_ "D" = some 1 ∧ mapFind s2.writeCache_ "E" = some 2 ∧
        mapFind s2.writeCache_ "F" = some 3 ∧ freeList s2 = [] :=
  ⟨by decide,
   (C8_fifo_eviction_order (by decide : run 1 (FileCacheImpl.new 1 3 emptyDisk)
      [Call.PinFiles ["A", "B", "C"]] = Outcome.ok demoThree)).2.2.2.2.2.2
      "A" "B" "C" "D" "E" "F" 1 2 3
      (demoPinnedBuffer "A") (demoPinnedBuffer "B") (demoPinnedBuffer "C")
      (by decide) (by decide) (by decide) (by decide) (by decide) (by decide) (by decide)
      (by decide) (by decide) (by decide) (by decide) (by decide) (by decide)
      (by decide) (by decide) (by decide) (by decide) (by decide) (by decide)
      (by decide) (by decide) (by decide) (by decide)⟩

theorem pinFile_returns {FS : Nat} {s : FileCacheImpl} {l : List Nat} {X : String}
    (hi : Inv FS s l)
    (hnb : mapFind s.writeCache_ X = none → ¬ s.writeCache_.length < s.max_cache_entries_ →
      0 < s.freeListSize_) (hr : s.refused = []) :
    ∃ s0, pinFile FS s X = Outcome.ok s0 := by
  cases hf : mapFind s.writeCache_ X with
  | some a =>
    obtain ⟨ha0, b, hb⟩ := hi.dir_get hf
    by_cases hp : b.status &&& PINNED = 0
    · obtain ⟨s2, h2, -⟩ := pinFile_hit_unpinned hi hf hb hp
      exact ⟨s2, h2⟩
    · exact ⟨_, (pinFile_hit_pinned hi hf hb hp).1⟩
  | none =>
    by_cases hc : s.writeCache_.length < s.max_cache_entries_
    · obtain ⟨s2, h2, -⟩ := pinFile_alloc hi hf hc (fun _ => createFails_of_nil hr _ _)
      exact ⟨s2, h2⟩
    · have hsz := hnb hf hc
      obtain ⟨x, rest, rfl⟩ := hi.size_pos hsz
      obtain ⟨s2, b, -, -, h2, -⟩ := pinFile_evict hi hf hc hsz
        (fun b _ _ => not_refused_of_nil hr _) (createFails_of_nil hr _ _)
      exact ⟨s2, h2⟩

theorem demoQueued_unpinned (a : Nat) (b : WriteCacheBuffer)
    (ha : mapFind demoQueued.writeCache_ "A" = some a) (hb : demoQueued.heap[a]? = some b) :
    b.status &&& PINNED = 0 := by
  have h1 : a = 1 := by
    have : mapFind demoQueued.writeCache_ "A" = some 1 := by decide
    rw [this] at ha; exact (Option.some.inj ha).symm
  subst h1
  have h2 : demoQueued.heap[1]? = some demoBufferA := by decide
  rw [h2] at hb; cases hb; decide

/-- Counting of pins where neither a reclaimed key nor the 32-bit pin count
interferes: in a state reached from a fresh cache let `X` be no key of the map,
or a key whose entry is unpinned, and let its first pin not block.  For
`1 ≤ N < 2 ^ 32`, the
`N` calls `PinFiles [X]` return; after `k < N` calls `UnpinFiles [X]` the entry
of `X` is still pinned, has pin count `N - k` and is not in the free list; after
all `N` of them it is unpinned with pin count 0 and is the last element of the
free list. -/
theorem pin_unpin_counting {FS max : Nat} {d : Disk} {cs : List Call}
    {s : FileCacheImpl} (h : run FS (FileCacheImpl.new FS max d) cs = Outcome.ok s)
    (X : String) (N : Nat)
    (hX : ∀ a b, mapFind s.writeCache_ X = some a → s.heap[a]? = some b →
      b.status &&& PINNED = 0)
    (hnb : mapFind s.writeCache_ X = none → ¬ s.writeCache_.length < max →
      0 < s.freeListSize_)
    (hN1 : 1 ≤ N) (hN : N < UINT_MOD) :
    ∃ s1 a, run FS s (List.replicate N (Call.PinFiles [X])) = Outcome.ok s1 ∧
      mapFind s1.writeCache_ X = some a ∧
      (∀ k, k < N → ∃ s2 b,
        run FS s1 (List.replicate k (Call.UnpinFiles [X])) = Outcome.ok s2 ∧
        mapFind s2.writeCache_ X = some a ∧ s2.heap[a]? = some b ∧
        b.status &&& PINNED ≠ 0 ∧ b.pinCount = N - k ∧ a ∉ freeList s2) ∧
      (∃ s2 b, run FS s1 (List.replicate N (Call.UnpinFiles [X])) = Outcome.ok s2 ∧
        mapFind s2.writeCache_ X = some a ∧ s2.heap[a]? = some b ∧
        b.status &&& PINNED = 0 ∧ b.pinCount = 0 ∧ freeList s2 = freeList s1 ++ [a]) := by
  obtain ⟨hi, hmax⟩ := reachable_inv h
  rw [← hmax] at hnb
  obtain ⟨n, rfl⟩ : ∃ n, N = n + 1 := ⟨N - 1, by omega⟩
  obtain ⟨s0, h0⟩ := pinFile_returns hi hnb (reachable_refused h)
  obtain ⟨l0, a, b0, hi0, hX0, hb0, hp0, hc0⟩ := first_pin hi hX h0
  obtain ⟨s1, b1, h1, hi1, hw1, hb1, hs1, hc1⟩ := pin_hits n hi0 hX0 hb0 hp0
    (by rw [hc0]; decide)
  have hX1 : mapFind s1.writeCache_ X = some a := by rw [hw1]; exact hX0
  have hp1 : b1.status &&& PINNED ≠ 0 := by rw [hs1]; exact hp0
  have hc1n : b1.pinCount = n + 1 := by
    rw [hc1, hc0]
    unfold UINT_MOD at hN ⊢
    omega
  have ha0 : a ≠ 0 := (hi1.dir X a hX1).1
  refine ⟨s1, a, ?_, hX1, ?_, ?_⟩
  · rw [run_replicate_succ, step_PinFiles_single, h0, Outcome.ok_bind]
    exact h1
  · intro k hk
    obtain ⟨s2, b2, h2, hi2, hw2, hb2, hs2, hc2⟩ := unpin_more_iter k hi1 hX1 hb1 hp1
      (by rw [hc1n]; exact hk)
    have hp2 : b2.status &&& PINNED ≠ 0 := by rw [hs2]; exact hp1
    refine ⟨s2, b2, h2, by rw [hw2]; exact hX1, hb2, hp2, by rw [hc2, hc1n], ?_⟩
    rw [hi2.list.freeList_eq]
    exact fun hm => hp2 ((hi2.pinned a b2 ha0 hb2).2 hm)
  · obtain ⟨s2, b2, h2, hi2, hw2, hb2, hs2, hc2⟩ := unpin_more_iter n hi1 hX1 hb1 hp1
      (by rw [hc1n]; omega)
    have hX2 : mapFind s2.writeCache_ X = some a := by rw [hw2]; exact hX1
    obtain ⟨s3, h3, hi3, -, hw3, -, -, -, hself⟩ := unpinFile_last hi2 hX2 hb2
      (by rw [hs2]; exact hp1) (by rw [hc2, hc1n]; omega)
    obtain ⟨b3, hb3, -, hc3, hs3, -⟩ := data_transfer_self hself
    refine ⟨s3, b3, ?_, by rw [hw3]; exact hX2, hb3, ?_, hc3, ?_⟩
    · have hsplit : List.replicate (n + 1) (Call.UnpinFiles [X])
          = List.replicate n (Call.UnpinFiles [X]) ++ [Call.UnpinFiles [X]] :=
        List.replicate_succ' _ _
      rw [hsplit, run_append, h2, Outcome.ok_bind, run_cons, step_UnpinFiles_single, h3]
      rfl
    · rw [hs3]; exact and_not_pinned_and _
    · rw [hi3.list.freeList_eq, hi1.list.freeList_eq]

/-- C9, evaluated on the code.  First, with capacity 1 and files `A = [1, 1]`,
`B = [2, 2]`: after `A` was pinned and unpinned and `B` was pinned, `A` has no
outstanding pin and no buffer carries its name; two calls `PinFiles [A]`
followed by two calls `UnpinFiles [A]` return, and the entry that the map gives
for `A` is then the buffer of `B` with pin count 1, still `PINNED`, and the free
list is empty.  Second, on a fresh cache of capacity one, `2 ^ 32` calls
`PinFiles [A]` return and leave the entry of `A` `PINNED` with pin count 0, and
the `2 ^ 32` calls `UnpinFiles [A]` that follow do not return: the first one
fails the assertion `pinCount > 0`. -/
theorem C9_pin_unpin_counting_fails :
    (run 2 (FileCacheImpl.new 2 1 demoDisk)
        [Call.PinFiles ["A"], Call.UnpinFiles ["A"], Call.PinFiles ["B"]]
      = Outcome.ok demoReclaimed ∧
    (∀ b ∈ demoReclaimed.heap, b.fileName ≠ "A") ∧
    (run 2 demoReclaimed [Call.PinFiles ["A"], Call.PinFiles ["A"],
        Call.UnpinFiles ["A"], Call.UnpinFiles ["A"]]).bind
      (fun s => Outcome.ok (mapFind s.writeCache_ "A")) = Outcome.ok (some 1) ∧
    (run 2 demoReclaimed [Call.PinFiles ["A"], Call.PinFiles ["A"],
        Call.UnpinFiles ["A"], Call.UnpinFiles ["A"]]).bind
      (fun s => Outcome.ok (s.heap[1]?.map WriteCacheBuffer.data))
      = Outcome.ok (some ("B", 1, 1, [2, 2])) ∧
    (run 2 demoReclaimed [Call.PinFiles ["A"], Call.PinFiles ["A"],
        Call.UnpinFiles ["A"], Call.UnpinFiles ["A"]]).bind
      (fun s => Outcome.ok (freeList s)) = Outcome.ok []) ∧
    (∃ s1 b, run 1 (FileCacheImpl.new 1 1 emptyDisk)
        (List.replicate 4294967296 (Call.PinFiles ["A"])) = Outcome.ok s1 ∧
      mapFind s1.writeCache_ "A" = some 1 ∧ s1.heap[1]? = some b ∧
      b.status &&& PINNED ≠ 0 ∧ b.pinCount = 0) ∧
    run 1 (FileCacheImpl.new 1 1 emptyDisk)
      (List.replicate 4294967296 (Call.PinFiles ["A"]) ++
        List.replicate 4294967296 (Call.UnpinFiles ["A"])) = Outcome.aborted := by
  have hfirst : step 1 (FileCacheImpl.new 1 1 emptyDisk) (Call.PinFiles ["A"])
      = Outcome.ok demoOne := by decide
  obtain ⟨l1, hi1, -⟩ := step_inv (Inv.init 1 1 emptyDisk) hfirst
  obtain ⟨s1, b1, h1, hi2, hw, hb1, hs1, hc1⟩ :=
    pin_hits (X := "A") 4294967295 hi1 (by decide : mapFind demoOne.writeCache_ "A" = some 1)
      (by decide : demoOne.heap[1]? = some (demoPinnedBuffer "A")) (by decide) (by decide)
  have hX1 : mapFind s1.writeCache_ "A" = some 1 := by rw [hw]; decide
  have hp1 : b1.status &&& PINNED ≠ 0 := by rw [hs1]; decide
  have hc0 : b1.pinCount = 0 := by rw [hc1]; decide
  have hpins : run 1 (FileCacheImpl.new 1 1 emptyDisk)
      (List.replicate 4294967296 (Call.PinFiles ["A"])) = Outcome.ok s1 := by
    have h2 := run_replicate_succ 1 (FileCacheImpl.new 1 1 emptyDisk)
      (Call.PinFiles ["A"]) 4294967295
    rw [hfirst, Outcome.ok_bind, h1] at h2
    exact h2
  have hunpin : run 1 s1 (List.replicate 4294967296 (Call.UnpinFiles ["A"]))
      = Outcome.aborted := by
    have h2 := run_replicate_succ 1 s1 (Call.UnpinFiles ["A"]) 4294967295
    rw [step_UnpinFiles_single, unpinFile_underflow hX1 hb1 hp1 hc0] at h2
    exact h2
  refine ⟨⟨by decide, by decide, by decide, by decide, by decide⟩,
    ⟨s1, b1, hpins, hX1, hb1, hp1, hc0⟩, ?_⟩
  rw [run_append, hpins, Outcome.ok_bind, hunpin]

/-- C10: in every state reached from a fresh cache, when `X` is not a key of
the map or the entry the map gives for `X` is unpinned, `UnpinFiles [X]`
returns the state it was called in, and so does a second call. -/
theorem C10_unpin_noop {FS max : Nat} {d : Disk} {cs : List Call}
    {s : FileCacheImpl} (h : run FS (FileCacheImpl.new FS max d) cs = Outcome.ok s)
    (X : String)
    (hX : ∀ a b, mapFind s.writeCache_ X = some a → s.heap[a]? = some b →
      b.status &&& PINNED = 0) :
    UnpinFiles s [X] = Outcome.ok s ∧
      (UnpinFiles s [X]).bind (fun t => UnpinFiles t [X]) = Outcome.ok s := by
  obtain ⟨hi, -⟩ := reachable_inv h
  have h1 : UnpinFiles s [X] = Outcome.ok s := by
    rw [UnpinFiles_single]
    cases hf : mapFind s.writeCache_ X with
    | none => exact unpinFile_absent hf
    | some a =>
      obtain ⟨-, b, hb⟩ := hi.dir_get hf
      exact unpinFile_unpinned hf hb (hX a b hf hb)
  exact ⟨h1, by rw [h1, Outcome.ok_bind, h1]⟩

/-- C10 on the cache of capacity one in which `A` is queued. -/
theorem C10_unpin_noop_witness :
    run 2 (FileCacheImpl.new 2 1 demoDisk) [Call.PinFiles ["A"], Call.UnpinFiles ["A"]]
        = Outcome.ok demoQueued ∧
      FileData demoQueued "A" = Outcome.ok none ∧
      UnpinFiles demoQueued ["A"] = Outcome.ok demoQueued ∧
      (UnpinFiles demoQueued ["A"]).bind (fun t => UnpinFiles t ["A"])
        = Outcome.ok demoQueued :=
  ⟨by decide, by decide,
   C10_unpin_noop (by decide : run 2 (FileCacheImpl.new 2 1 demoDisk)
      [Call.PinFiles ["A"], Call.UnpinFiles ["A"]] = Outcome.ok demoQueued) "A"
      demoQueued_unpinned⟩

/-! ## What a load leaves in a buffer -/

theorem loadedBuffer_some (FS : Nat) (c : List Byte) :
    loadedBuffer FS (some c) = zeroPad FS c := by
  simp [loadedBuffer, zeroPad, List.drop_replicate]

theorem loadedBuffer_none (FS : Nat) : loadedBuffer FS none = List.replicate FS 0 := rfl

theorem initialize_blank (FS : Nat) (b : WriteCacheBuffer) (d : Disk)
    (hs : b.status = 0) (hb : b.buffer = List.replicate FS 0) :
    ( WriteCacheBuffer.loaded FS b d).1.status = loadedStatus (d.read b.fileName) ∧
      ( WriteCacheBuffer.loaded FS b d).1.buffer = loadedBuffer FS (d.read b.fileName) := by
  unfold WriteCacheBuffer.loaded loadedStatus loadedBuffer
  split <;> rename_i h <;> simp [h, hs, hb]

theorem new_loaded (FS : Nat) (f : String) (d : Disk) (hf : f ≠ "dummy") :
    ( WriteCacheBuffer.new FS f d).1.status = loadedStatus (d.read f) ∧
      ( WriteCacheBuffer.new FS f d).1.buffer = loadedBuffer FS (d.read f) := by
  unfold WriteCacheBuffer.new
  rw [if_pos hf]
  exact initialize_blank FS _ d rfl rfl

theorem reinitialize_loaded (FS : Nat) (b : WriteCacheBuffer) (f : String) (d : Disk) :
    ( WriteCacheBuffer.reloaded FS b f d).1.status = loadedStatus (d.read f) ∧
      ( WriteCacheBuffer.reloaded FS b f d).1.buffer = loadedBuffer FS (d.read f) := by
  unfold WriteCacheBuffer.reloaded
  exact initialize_blank FS _ d rfl rfl

theorem persistIfDirty_read_ne (FS : Nat) (b : WriteCacheBuffer) (d : Disk) (n : String)
    (hn : n ≠ b.fileName) : (persistIfDirty FS b d).2.read n = d.read n := by
  unfold persistIfDirty
  split
  · exact writeBack_read_ne _ _ _ _ hn
  · rfl

theorem reclaim_loaded (FS : Nat) (b : WriteCacheBuffer) (f : String) (d : Disk)
    (hf : f ≠ b.fileName) :
    (reclaim FS b f d).1.status = loadedStatus (d.read f) ∧
      (reclaim FS b f d).1.buffer = loadedBuffer FS (d.read f) := by
  unfold reclaim
  rw [← persistIfDirty_read_ne FS b d f hf]
  exact reinitialize_loaded _ _ _ _

theorem new_disk_some (FS : Nat) (f : String) (d : Disk) (c : List Byte) (hf : f ≠ "dummy")
    (hc : d.read f = some c) :
    ( WriteCacheBuffer.new FS f d).2 = { d with log := d.log ++ [IOEvent.load f] } := by
  unfold WriteCacheBuffer.new
  rw [if_pos hf]
  unfold WriteCacheBuffer.loaded
  simp [hc]

theorem new_disk_none (FS : Nat) (f : String) (d : Disk) (hf : f ≠ "dummy")
    (hc : d.read f = none) :
    ( WriteCacheBuffer.new FS f d).2 =
      { files := writeFile d.files f [], log := d.log ++ [IOEvent.create f] } := by
  unfold WriteCacheBuffer.new
  rw [if_pos hf]
  unfold WriteCacheBuffer.loaded
  simp [hc]

theorem loadedStatus_dirty (r : Option (List Byte)) :
    (loadedStatus r ||| PINNED) &&& DIRTY = 0 ↔ r ≠ none := by
  cases r with
  | none => simp [loadedStatus]; decide
  | some c => simp [loadedStatus]; decide

/-- Admission under capacity for a name other than `"dummy"`, on a file system
that opens every stream: in a state reached from a fresh cache let
`X ≠ "dummy"` be absent from the map while the map holds fewer than
`max_cache_entries` keys.  Then `PinFiles [X]` returns, allocates one new
entry `b` and maps `X` to it; `b` is named `X`, pinned with pin count 1 and
unlinked.  If a file `X` exists, the buffer is its first `FS` bytes, zero-filled
up to `FS`, the entry is clean and the only stream operation is the load of
`X`; if not, the buffer is all zeros, the entry is dirty and an empty file `X`
was created.  The entry carries the same data as the one with which `X` is
admitted by a reclamation in any reachable state whose file system holds the
same for `X`. -/
theorem admission_under_capacity {FS max : Nat} {d : Disk} {cs : List Call}
    {s : FileCacheImpl} (h : run FS (FileCacheImpl.new FS max d) cs = Outcome.ok s)
    (X : String) (hX : mapFind s.writeCache_ X = none) (hcap : s.writeCache_.length < max)
    (hne : X ≠ "dummy") :
    ∃ s' b, PinFiles FS s [X] = Outcome.ok s' ∧ s'.heap = s.heap ++ [b] ∧
      mapFind s'.writeCache_ X = some s.heap.length ∧
      b.fileName = X ∧ b.pinCount = 1 ∧ b.status &&& PINNED ≠ 0 ∧
      b.next = none ∧ b.prev = none ∧
      (∀ c, s.disk.read X = some c →
        b.buffer = zeroPad FS c ∧ b.status &&& DIRTY = 0 ∧
        s'.disk.files = s.disk.files ∧ s'.disk.log = s.disk.log ++ [IOEvent.load X]) ∧
      (s.disk.read X = none →
        b.buffer = List.replicate FS 0 ∧ b.status &&& DIRTY ≠ 0 ∧
        s'.disk.read X = some [] ∧ s'.disk.log = s.disk.log ++ [IOEvent.create X]) ∧
      (∀ (m : Nat) (d2 : Disk) (cs2 : List Call) (t : FileCacheImpl),
        run FS (FileCacheImpl.new FS m d2) cs2 = Outcome.ok t →
        mapFind t.writeCache_ X = none → ¬ t.writeCache_.length < m →
        0 < t.freeListSize_ → t.disk.read X = s.disk.read X →
        ∃ t' e b2, PinFiles FS t [X] = Outcome.ok t' ∧ mapFind t'.writeCache_ X = some e ∧
          t'.heap[e]? = some b2 ∧ b2.data = b.data) := by
  obtain ⟨hi, hmax⟩ := reachable_inv h
  rw [← hmax] at hcap
  obtain ⟨s', hpin, -, -, hwc, hdisk, hheap⟩ := pinFile_alloc hi hX hcap
    (fun _ => createFails_of_nil (reachable_refused h) _ _)
  obtain ⟨hst, hbuf⟩ := new_loaded FS X s.disk hne
  refine ⟨s', _, by rw [PinFiles_single]; exact hpin, hheap, ?_, ?_, rfl, or_pinned_and_ne _,
    ?_, ?_, ?_, ?_, ?_⟩
  · rw [hwc, mapFind_mapInsert, if_pos rfl]
  · simp only [new_fileName]
  · simp only [new_next]
  · simp only [new_prev]
  · intro c hc
    refine ⟨?_, ?_, ?_, ?_⟩
    · simp only [hbuf, hc, loadedBuffer_some]
    · simp only [hst]
      exact (loadedStatus_dirty _).2 (by rw [hc]; simp)
    · rw [hdisk, new_disk_some FS X s.disk c hne hc]
    · rw [hdisk, new_disk_some FS X s.disk c hne hc]
  · intro hc
    refine ⟨?_, ?_, ?_, ?_⟩
    · simp only [hbuf, hc, loadedBuffer_none]
    · simp only [hst]
      exact fun h0 => (loadedStatus_dirty _).1 h0 hc
    · rw [hdisk, new_disk_none FS X s.disk hne hc]
      simp [Disk.read, lookup_writeFile]
    · rw [hdisk, new_disk_none FS X s.disk hne hc]
  · intro m d2 cs2 t ht hXt hcapt hszt hread
    obtain ⟨hit, hmaxt⟩ := reachable_inv ht
    rw [← hmaxt] at hcapt
    obtain ⟨e, rest, hl⟩ := hit.size_pos hszt
    rw [hl] at hit
    obtain ⟨t', b0, hb0, -, hpin2, -, -, hwc2, -, -, -, hself⟩ :=
      pinFile_evict hit hXt hcapt hszt
        (fun _ _ _ => not_refused_of_nil (reachable_refused ht) _)
        (createFails_of_nil (reachable_refused ht) _ _)
    have he0 : e ≠ 0 := hit.list.mem_ne_zero (by simp)
    have hname : X ≠ b0.fileName := by
      intro heq
      have := hit.named e b0 he0 hb0
      rw [← heq, hXt] at this
      cases this
    obtain ⟨hst2, hbuf2⟩ := reclaim_loaded FS b0 X t.disk hname
    obtain ⟨b2, hb2, hn2, hc2, hs2, hbf2⟩ := data_transfer_self hself
    refine ⟨t', e, b2, by rw [PinFiles_single]; exact hpin2,
      by rw [hwc2, mapFind_mapInsert, if_pos rfl], hb2, ?_⟩
    simp only [WriteCacheBuffer.data, Prod.mk.injEq, new_fileName]
    simp only at hn2 hc2 hs2 hbf2
    refine ⟨hn2, hc2, ?_, ?_⟩
    · rw [hs2, hst2, hst, hread]
    · rw [hbf2, hbuf2, hbuf, hread]

/-- C11, evaluated on the code.  On a file system whose file `dummy` holds
`[5, 5]`, `PinFiles ["dummy"]` under capacity performs no stream operation and
inserts a clean entry whose buffer is `[0, 0]`: the guard of the constructor,
meant for the sentinel, skips the load.  The admission of the same name by
reclaiming the entry of `A` loads `[5, 5]`.  And on a file system that opens no
stream for `nodir/x`, `PinFiles ["nodir/x"]` under capacity inserts nothing: it
fails the assertion that the stream is open. -/
theorem C11_dummy_admitted_without_load :
    (PinFiles 2 (FileCacheImpl.new 2 1 dummyDisk) ["dummy"]).bind
      (fun s => (FileDataBytes s "dummy").bind (fun v =>
        Outcome.ok (v, s.disk.read "dummy", s.disk.log)))
      = Outcome.ok (some [0, 0], some [5, 5], []) ∧
    (PinFiles 2 (FileCacheImpl.new 2 1 dummyDisk) ["dummy"]).bind
      (fun s => Outcome.ok (s.heap[1]?.map WriteCacheBuffer.data))
      = Outcome.ok (some ("dummy", 1, PINNED, [0, 0])) ∧
    (run 2 (FileCacheImpl.new 2 1 dummyDisk)
        [Call.PinFiles ["A"], Call.UnpinFiles ["A"], Call.PinFiles ["dummy"]]).bind
      (fun s => FileDataBytes s "dummy")
      = Outcome.ok (some [5, 5]) ∧
    mapFind (FileCacheImpl.newIn 2 1 demoDisk ["nodir/x"]).writeCache_ "nodir/x" = none ∧
    (FileCacheImpl.newIn 2 1 demoDisk ["nodir/x"]).writeCache_.length < 1 ∧
    PinFiles 2 (FileCacheImpl.newIn 2 1 demoDisk ["nodir/x"]) ["nodir/x"]
      = Outcome.aborted := by
  decide
/-! ## When a pin waits -/

/-- In a state with the invariant and a capacity below `2 ^ 32`, the counter
`freeListSize_` is zero exactly when the free list is empty. -/
theorem Inv.size_eq_zero_iff {FS : Nat} {s : FileCacheImpl} {l : List Nat} (hi : Inv FS s l)
    (hmax : s.max_cache_entries_ < UINT_MOD) : s.freeListSize_ = 0 ↔ l = [] := by
  have h1 := hi.list.size
  have h2 := hi.list.length_lt
  have h3 := hi.cap
  have h4 : l.length % UINT_MOD = l.length := Nat.mod_eq_of_lt (by omega)
  rw [h1, h4]
  exact List.length_eq_zero

/-- The free list is empty exactly when every object other than the sentinel
is pinned. -/
theorem Inv.nil_iff_all_pinned {FS : Nat} {s : FileCacheImpl} {l : List Nat} (hi : Inv FS s l) :
    l = [] ↔ ∀ a b, a ≠ 0 → s.heap[a]? = some b → b.status &&& PINNED ≠ 0 := by
  constructor
  · intro hl a b ha hb hp
    have := (hi.pinned a b ha hb).1 hp
    rw [hl] at this
    cases this
  · intro hall
    cases l with
    | nil => rfl
    | cons x rest =>
      exfalso
      have hx : x ∈ x :: rest := by simp
      have hx0 : x ≠ 0 := hi.list.mem_ne_zero hx
      have hlt := hi.list.bound x hx
      have hb : s.heap[x]? = some (s.heap.get ⟨x, hlt⟩) := by
        simp [List.getElem?_eq_getElem hlt]
      exact hall x _ hx0 hb ((hi.pinned x _ hx0 hb).2 hx)

/-- The loop body of `PinFiles` fails an assertion exactly when it has to open
a stream that the file system refuses. -/
theorem pinFile_aborted_iff {FS : Nat} {s : FileCacheImpl} {l : List Nat} (hi : Inv FS s l)
    (hmax : s.max_cache_entries_ < UINT_MOD) (X : String) :
    pinFile FS s X = Outcome.aborted ↔ openFails s X := by
  have hfl := hi.list.freeList_eq
  constructor
  · intro ha
    cases hf : mapFind s.writeCache_ X with
    | some a =>
      exfalso
      obtain ⟨ha0, b, hb⟩ := hi.dir_get hf
      by_cases hp : b.status &&& PINNED = 0
      · obtain ⟨s2, h2, -⟩ := pinFile_hit_unpinned hi hf hb hp
        rw [h2] at ha; cases ha
      · rw [(pinFile_hit_pinned hi hf hb hp).1] at ha; cases ha
    | none =>
      refine ⟨hf, ?_⟩
      by_cases hc : s.writeCache_.length < s.max_cache_entries_
      · by_cases ho : X ≠ "dummy" ∧ createFails s.refused s.disk X
        · exact Or.inl ⟨hc, ho⟩
        · exfalso
          obtain ⟨s2, h2, -⟩ := pinFile_alloc hi hf hc (fun h1 h2 => ho ⟨h1, h2⟩)
          rw [h2] at ha; cases ha
      · by_cases hsz : s.freeListSize_ = 0
        · rw [pinFile_blocked hf hc hsz] at ha; cases ha
        · have hsz' : 0 < s.freeListSize_ := Nat.pos_of_ne_zero hsz
          obtain ⟨x, rest, hl⟩ := hi.size_pos hsz'
          subst hl
          have hxl : x < s.heap.length := hi.list.bound x (by simp)
          have hb : s.heap[x]? = some (s.heap.get ⟨x, hxl⟩) := by
            simp [List.getElem?_eq_getElem hxl]
          by_cases ho : ((s.heap.get ⟨x, hxl⟩).status &&& DIRTY ≠ 0 ∧
              (s.heap.get ⟨x, hxl⟩).fileName ∈ s.refused) ∨ createFails s.refused s.disk X
          · exact Or.inr ⟨hc, x, rest, _, hfl, hb, ho⟩
          · exfalso
            push_neg at ho
            obtain ⟨s2, b, -, -, h2, -⟩ := pinFile_evict hi hf hc hsz'
              (fun b hb' hd => by rw [hb] at hb'; cases hb'; exact ho.1 hd) ho.2
            rw [h2] at ha; cases ha
  · rintro ⟨hf, ⟨hc, hd, ho⟩ | ⟨hc, x, rest, b, hl, hb, ho⟩⟩
    · exact pinFile_alloc_aborted hf hc hd ho
    · rw [hfl] at hl
      subst hl
      have hsz : 0 < s.freeListSize_ := by
        have h1 := hi.list.size
        have h2 := hi.list.length_lt
        have h3 := hi.cap
        rw [h1, Nat.mod_eq_of_lt (by omega)]
        simp
      exact pinFile_evict_aborted hi hf hc hsz hb ho

/-- The loop body of `PinFiles` waits exactly on a miss at capacity with an
empty free list. -/
theorem pinFile_blocked_iff {FS : Nat} {s : FileCacheImpl} {l : List Nat} (hi : Inv FS s l)
    (hmax : s.max_cache_entries_ < UINT_MOD) (X : String) :
    pinFile FS s X = Outcome.blocked ↔
      (mapFind s.writeCache_ X = none ∧ ¬ s.writeCache_.length < s.max_cache_entries_ ∧
        l = []) := by
  constructor
  · intro hb
    cases hf : mapFind s.writeCache_ X with
    | some a =>
      exfalso
      obtain ⟨ha0, b, hb'⟩ := hi.dir_get hf
      by_cases hp : b.status &&& PINNED = 0
      · obtain ⟨s2, h2, -⟩ := pinFile_hit_unpinned hi hf hb' hp
        rw [h2] at hb; cases hb
      · rw [(pinFile_hit_pinned hi hf hb' hp).1] at hb; cases hb
    | none =>
      by_cases hc : s.writeCache_.length < s.max_cache_entries_
      · exfalso
        by_cases ho : X ≠ "dummy" ∧ createFails s.refused s.disk X
        · rw [pinFile_alloc_aborted hf hc ho.1 ho.2] at hb; cases hb
        · obtain ⟨s2, h2, -⟩ := pinFile_alloc hi hf hc (fun h1 h2 => ho ⟨h1, h2⟩)
          rw [h2] at hb; cases hb
      · refine ⟨rfl, hc, ?_⟩
        by_contra hl
        have hsz : 0 < s.freeListSize_ :=
          Nat.pos_of_ne_zero (fun h0 => hl ((hi.size_eq_zero_iff hmax).1 h0))
        by_cases ha : pinFile FS s X = Outcome.aborted
        · rw [ha] at hb; cases hb
        · have hno : ¬ openFails s X := fun h => ha ((pinFile_aborted_iff hi hmax X).2 h)
          obtain ⟨x, rest, hl'⟩ := hi.size_pos hsz
          subst hl'
          have hfl := hi.list.freeList_eq
          obtain ⟨s2, b, -, -, h2, -⟩ := pinFile_evict hi hf hc hsz
            (fun b hb' hd hm => hno ⟨hf, Or.inr ⟨hc, x, rest, b, hfl, hb', Or.inl ⟨hd, hm⟩⟩⟩)
            (fun ho => by
              have hxl : x < s.heap.length := hi.list.bound x (by simp)
              exact hno ⟨hf, Or.inr ⟨hc, x, rest, _, hfl,
                List.getElem?_eq_getElem hxl, Or.inr ho⟩⟩)
          rw [h2] at hb; cases hb
  · rintro ⟨h1, h2, h3⟩
    exact pinFile_blocked h1 h2 ((hi.size_eq_zero_iff hmax).2 h3)

/-- On a file system that refuses no name the loop body of `PinFiles` either
returns or waits; no assertion fails. -/
theorem pinFile_ok_or_blocked {FS : Nat} {s : FileCacheImpl} {l : List Nat} (hi : Inv FS s l)
    (hr : s.refused = []) (X : String) :
    pinFile FS s X = Outcome.blocked ∨ ∃ s', pinFile FS s X = Outcome.ok s' := by
  by_cases hc : mapFind s.writeCache_ X = none →
      ¬ s.writeCache_.length < s.max_cache_entries_ → 0 < s.freeListSize_
  · exact Or.inr (pinFile_returns hi hc hr)
  · push_neg at hc
    obtain ⟨h1, h2, h3⟩ := hc
    exact Or.inl (pinFile_blocked h1 (Nat.not_lt.2 h2) (by omega))

/-- A batch stops without returning, in a wait or at an assertion, exactly
when after some prefix of the batch has been pinned the loop body for the next
name stops in that way. -/
theorem PinFiles_stops_iff {FS : Nat} (o : Outcome FileCacheImpl)
    (ho : ∀ t, o ≠ Outcome.ok t) (v : List String) :
    ∀ s : FileCacheImpl, PinFiles FS s v = o ↔
      ∃ pre Y post s1, v = pre ++ Y :: post ∧ PinFiles FS s pre = Outcome.ok s1 ∧
        pinFile FS s1 Y = o := by
  induction v with
  | nil =>
    intro s
    constructor
    · intro h
      exact absurd h.symm (ho s)
    · rintro ⟨pre, Y, post, s1, hv, -⟩
      simp at hv
  | cons f rest ih =>
    intro s
    cases hp : pinFile FS s f with
    | ok s1 =>
      have hstep : PinFiles FS s (f :: rest) = PinFiles FS s1 rest := by
        simp only [PinFiles, hp]
        rfl
      rw [hstep, ih s1]
      constructor
      · rintro ⟨pre, Y, post, s2, hv, hq, c⟩
        refine ⟨f :: pre, Y, post, s2, by rw [hv]; rfl, ?_, c⟩
        simp only [PinFiles, hp]
        exact hq
      · rintro ⟨pre, Y, post, s2, hv, hq, c⟩
        cases pre with
        | nil =>
          exfalso
          simp only [List.nil_append, List.cons.injEq] at hv
          obtain ⟨hY, -⟩ := hv
          simp only [PinFiles, Outcome.ok.injEq] at hq
          subst hq
          subst hY
          rw [hp] at c
          exact ho s1 c.symm
        | cons g pre' =>
          simp only [List.cons_append, List.cons.injEq] at hv
          obtain ⟨hg, hv'⟩ := hv
          subst hg
          refine ⟨pre', Y, post, s2, hv', ?_, c⟩
          simp only [PinFiles, hp] at hq
          exact hq
    | blocked =>
      have hstep : PinFiles FS s (f :: rest) = Outcome.blocked := by
        simp only [PinFiles, hp]
        rfl
      rw [hstep]
      constructor
      · intro h
        exact ⟨[], f, rest, s, rfl, rfl, by rw [hp]; exact h⟩
      · rintro ⟨pre, Y, post, s2, hv, hq, c⟩
        cases pre with
        | nil =>
          simp only [List.nil_append, List.cons.injEq] at hv
          obtain ⟨hY, -⟩ := hv
          simp only [PinFiles, Outcome.ok.injEq] at hq
          subst hq
          subst hY
          rw [← c, hp]
        | cons g pre' =>
          exfalso
          simp only [List.cons_append, List.cons.injEq] at hv
          obtain ⟨hg, -⟩ := hv
          subst hg
          simp only [PinFiles, hp] at hq
          cases hq
    | aborted =>
      have hstep : PinFiles FS s (f :: rest) = Outcome.aborted := by
        simp only [PinFiles, hp]
        rfl
      rw [hstep]
      constructor
      · intro h
        exact ⟨[], f, rest, s, rfl, rfl, by rw [hp]; exact h⟩
      · rintro ⟨pre, Y, post, s2, hv, hq, c⟩
        cases pre with
        | nil =>
          simp only [List.nil_append, List.cons.injEq] at hv
          obtain ⟨hY, -⟩ := hv
          simp only [PinFiles, Outcome.ok.injEq] at hq
          subst hq
          subst hY
          rw [← c, hp]
        | cons g pre' =>
          exfalso
          simp only [List.cons_append, List.cons.injEq] at hv
          obtain ⟨hg, -⟩ := hv
          subst hg
          simp only [PinFiles, hp] at hq
          cases hq

/-- A state reached from a fresh cache on any file system satisfies the
invariant, and its capacity is the one the cache was made with. -/
theorem reachable_inv_in {FS max : Nat} {d : Disk} {r : List String} {cs : List Call}
    {s : FileCacheImpl} (h : run FS (FileCacheImpl.newIn FS max d r) cs = Outcome.ok s) :
    Inv FS s (freeList s) ∧ s.max_cache_entries_ = max := by
  obtain ⟨l, hi, hm⟩ := run_inv cs (Inv.init_in FS max d r) h
  rw [hi.list.freeList_eq]
  refine ⟨hi, ?_⟩
  rw [hm]
  simp [FileCacheImpl.newIn, freeListInit, WriteCacheBuffer.new]

/-- The three outcomes of the pin step, on any file system: in a state reached
from a fresh cache whose capacity fits the `unsigned int` of
`fileCacheFactory`, the loop body of `PinFiles` for `X` waits exactly when `X`
is not a key of the map, the map holds at least `max_cache_entries` keys and the
free list is empty, and the free list is empty exactly when every buffer is
pinned.  The body fails the assertion on the stream exactly when it has to open
a stream that the file system refuses.  In every other case the body returns.
A batch waits, or fails the assertion, exactly when after a prefix of it has
been pinned its next name meets the respective condition; otherwise the batch
returns. -/
theorem pin_outcomes {FS max : Nat} {d : Disk} {r : List String} {cs : List Call}
    {s : FileCacheImpl} (h : run FS (FileCacheImpl.newIn FS max d r) cs = Outcome.ok s)
    (hmax : max < UINT_MOD) (X : String) (v : List String) :
    (pinFile FS s X = Outcome.blocked ↔
      (mapFind s.writeCache_ X = none ∧ ¬ s.writeCache_.length < max ∧ freeList s = [])) ∧
    (freeList s = [] ↔
      ∀ a b, a ≠ 0 → s.heap[a]? = some b → b.status &&& PINNED ≠ 0) ∧
    (pinFile FS s X = Outcome.aborted ↔ openFails s X) ∧
    (pinFile FS s X ≠ Outcome.blocked → ¬ openFails s X →
      ∃ s', pinFile FS s X = Outcome.ok s') ∧
    (PinFiles FS s v = Outcome.blocked ↔
      ∃ pre Y post s1, v = pre ++ Y :: post ∧ PinFiles FS s pre = Outcome.ok s1 ∧
        mapFind s1.writeCache_ Y = none ∧ ¬ s1.writeCache_.length < max ∧
        freeList s1 = []) ∧
    (PinFiles FS s v = Outcome.aborted ↔
      ∃ pre Y post s1, v = pre ++ Y :: post ∧ PinFiles FS s pre = Outcome.ok s1 ∧
        openFails s1 Y) ∧
    (PinFiles FS s v ≠ Outcome.blocked → PinFiles FS s v ≠ Outcome.aborted →
      ∃ s', PinFiles FS s v = Outcome.ok s') := by
  obtain ⟨hi, hm⟩ := reachable_inv_in h
  have hmax' : s.max_cache_entries_ < UINT_MOD := by rw [hm]; exact hmax
  have hb := pinFile_blocked_iff hi hmax' X
  rw [hm] at hb
  have ha := pinFile_aborted_iff hi hmax' X
  have hpre : ∀ {pre : List String} {s1 : FileCacheImpl}, PinFiles FS s pre = Outcome.ok s1 →
      Inv FS s1 (freeList s1) ∧ s1.max_cache_entries_ = max := by
    intro pre s1 hp
    obtain ⟨l1, hi1, hm1⟩ := PinFiles_inv pre hi hp
    rw [hi1.list.freeList_eq]
    exact ⟨hi1, hm1.trans hm⟩
  refine ⟨hb, hi.nil_iff_all_pinned, ha, ?_, ?_, ?_, ?_⟩
  · intro hnb hno
    cases hp : pinFile FS s X with
    | ok s' => exact ⟨s', rfl⟩
    | blocked => exact absurd hp hnb
    | aborted => exact absurd (ha.1 hp) hno
  · rw [PinFiles_stops_iff Outcome.blocked (fun t ht => by cases ht) v s]
    constructor
    · rintro ⟨pre, Y, post, s1, e, hp, c⟩
      obtain ⟨hi1, hm1⟩ := hpre hp
      have := (pinFile_blocked_iff hi1 (by rw [hm1]; exact hmax) Y).1 c
      rw [hm1] at this
      exact ⟨pre, Y, post, s1, e, hp, this⟩
    · rintro ⟨pre, Y, post, s1, e, hp, c⟩
      obtain ⟨hi1, hm1⟩ := hpre hp
      rw [← hm1] at c
      exact ⟨pre, Y, post, s1, e, hp,
        (pinFile_blocked_iff hi1 (by rw [hm1]; exact hmax) Y).2 c⟩
  · rw [PinFiles_stops_iff Outcome.aborted (fun t ht => by cases ht) v s]
    constructor
    · rintro ⟨pre, Y, post, s1, e, hp, c⟩
      obtain ⟨hi1, hm1⟩ := hpre hp
      exact ⟨pre, Y, post, s1, e, hp,
        (pinFile_aborted_iff hi1 (by rw [hm1]; exact hmax) Y).1 c⟩
    · rintro ⟨pre, Y, post, s1, e, hp, c⟩
      obtain ⟨hi1, hm1⟩ := hpre hp
      exact ⟨pre, Y, post, s1, e, hp,
        (pinFile_aborted_iff hi1 (by rw [hm1]; exact hmax) Y).2 c⟩
  · intro hnb hna
    cases hp : PinFiles FS s v with
    | ok s' => exact ⟨s', rfl⟩
    | blocked => exact absurd hp hnb
    | aborted => exact absurd hp hna

theorem Inv.with_disk {FS : Nat} {s : FileCacheImpl} {l : List Nat} (hi : Inv FS s l)
    (d : Disk) : Inv FS { s with disk := d } l :=
  ⟨⟨hi.list.head, hi.list.heap_pos, hi.list.ring, hi.list.nodup, hi.list.bound, hi.list.size,
      hi.list.unlinked⟩,
    hi.pinned, hi.count, hi.dir, hi.named, hi.alloc, hi.cap, hi.buflen, hi.keys⟩

/-- Two objects other than the sentinel with the same file name are the same object. -/
theorem Inv.name_inj {FS : Nat} {s : FileCacheImpl} {l : List Nat} (hi : Inv FS s l)
    {a a' : Nat} {b b' : WriteCacheBuffer} (ha : a ≠ 0) (ha' : a' ≠ 0)
    (hb : s.heap[a]? = some b) (hb' : s.heap[a']? = some b')
    (hn : b.fileName = b'.fileName) : a = a' := by
  have h1 := hi.named a b ha hb
  have h2 := hi.named a' b' ha' hb'
  rw [hn, h2] at h1
  exact (Option.some.inj h1).symm

theorem destroyLoop_nil (FS : Nat) (s : FileCacheImpl) :
    destroyLoop FS s [] = Outcome.ok s := rfl

/-- One pass of the destructor's loop on a clean buffer. -/
theorem destroyLoop_clean {FS : Nat} {s : FileCacheImpl} {p : String × Nat}
    {b : WriteCacheBuffer} (rest : List (String × Nat))
    (hb : s.heap[p.2]? = some b) (hc : b.status &&& DIRTY = 0) :
    destroyLoop FS s (p :: rest) = destroyLoop FS s rest := by
  simp only [destroyLoop, deref_ok hb, Outcome.bind, hc, ne_eq, not_true_eq_false, if_false]

/-- One pass of the destructor's loop on a dirty buffer. -/
theorem destroyLoop_dirty {FS : Nat} {s : FileCacheImpl} {p : String × Nat}
    {b : WriteCacheBuffer} (rest : List (String × Nat))
    (hb : s.heap[p.2]? = some b) (hc : b.status &&& DIRTY ≠ 0)
    (hn : b.fileName ∉ s.refused) :
    destroyLoop FS s (p :: rest) =
      destroyLoop FS { s with heap := modifyAt s.heap p.2 (fun _ => (b.stored FS s.disk).1)
                              disk := (b.stored FS s.disk).2 } rest := by
  have hlt : p.2 < s.heap.length := by
    by_contra hge
    rw [List.getElem?_eq_none (Nat.le_of_not_lt hge)] at hb
    cases hb
  simp only [destroyLoop, deref_ok hb, Outcome.bind, hc, ne_eq, not_false_eq_true, if_true,
    writeBack_eq, if_neg hn, update_ok _ hlt]

/-- The destructor's loop over a part `m` of the map: it returns, the stream
operations it adds are stores of dirty buffers of `m`, every dirty buffer of
`m` is in its file afterwards, and the other files are as before. -/
theorem destroyLoop_spec {FS : Nat} (m : List (String × Nat)) :
    ∀ {s : FileCacheImpl} {l : List Nat}, Inv FS s l → s.refused = [] →
      (∀ p ∈ m, p.2 ≠ 0 ∧ p.2 < s.heap.length) →
      ∃ s' evs, destroyLoop FS s m = Outcome.ok s' ∧ Inv FS s' l ∧
        s'.freeListHead_ = s.freeListHead_ ∧
        s'.disk.log = s.disk.log ++ evs ∧
        (∀ e ∈ evs, ∃ p ∈ m, ∃ b, s.heap[p.2]? = some b ∧ b.status &&& DIRTY ≠ 0 ∧
          e = IOEvent.store b.fileName b.buffer) ∧
        (∀ p ∈ m, ∀ b, s.heap[p.2]? = some b → b.status &&& DIRTY ≠ 0 →
          s'.disk.read b.fileName = some b.buffer ∧
          IOEvent.store b.fileName b.buffer ∈ evs) ∧
        (∀ f, (∀ p ∈ m, ∀ b, s.heap[p.2]? = some b → b.status &&& DIRTY ≠ 0 →
          b.fileName ≠ f) → s'.disk.read f = s.disk.read f) := by
  induction m with
  | nil =>
    intro s l hi _ _
    exact ⟨s, [], rfl, hi, rfl, by simp, by simp, by simp, fun _ _ => rfl⟩
  | cons p rest ih =>
    intro s l hi hr hm
    obtain ⟨hp0, hplt⟩ := hm p (by simp)
    have hb : s.heap[p.2]? = some (s.heap.get ⟨p.2, hplt⟩) := by
      simp [List.getElem?_eq_getElem hplt]
    generalize s.heap.get ⟨p.2, hplt⟩ = b at hb
    have hrest : ∀ q ∈ rest, q.2 ≠ 0 ∧ q.2 < s.heap.length :=
      fun q hq => hm q (List.mem_cons_of_mem _ hq)
    by_cases hc : b.status &&& DIRTY = 0
    · obtain ⟨s', evs, h1, h2, h3, h4, h5, h6, h7⟩ := ih hi hr hrest
      refine ⟨s', evs, by rw [destroyLoop_clean rest hb hc]; exact h1, h2, h3, h4, ?_, ?_, ?_⟩
      · intro e he
        obtain ⟨q, hq, r⟩ := h5 e he
        exact ⟨q, List.mem_cons_of_mem _ hq, r⟩
      · intro q hq b' hb' hd
        rcases List.mem_cons.1 hq with rfl | hq
        · rw [hb] at hb'
          cases hb'
          exact absurd hc hd
        · exact h6 q hq b' hb' hd
      · intro f hf
        exact h7 f (fun q hq => hf q (List.mem_cons_of_mem _ hq))
    · have hlen : b.buffer.length = FS := hi.buflen _ _ hp0 hb
      have htake : b.buffer.take FS = b.buffer := by
        rw [← hlen]; exact List.take_length _
      have hi1 : Inv FS { s with heap := modifyAt s.heap p.2
                                    (fun _ => (b.stored FS s.disk).1)
                                 disk := (b.stored FS s.disk).2 } l := by
        have := hi.update hb (fun _ => (b.stored FS s.disk).1) rfl rfl rfl
          (by simp only [WriteCacheBuffer.stored, and_not_dirty_and_pinned])
          (by
            simp only [WriteCacheBuffer.stored, and_not_dirty_and_pinned]
            exact hi.count _ _ hp0 hb)
          hlen hp0
        exact this.with_disk _
      have hget : ∀ i, i ≠ p.2 →
          (modifyAt s.heap p.2 (fun _ => (b.stored FS s.disk).1))[i]? = s.heap[i]? :=
        fun i hne => getElem?_modifyAt_ne _ hne
      have hself : (modifyAt s.heap p.2 (fun _ => (b.stored FS s.disk).1))[p.2]?
          = some (b.stored FS s.disk).1 := by
        rw [getElem?_modifyAt_of_get _ hb, if_pos rfl]
      have hclean : (b.stored FS s.disk).1.status &&& DIRTY = 0 := by
        simp only [WriteCacheBuffer.stored, and_not_dirty_and_dirty]
      -- a dirty object of the new heap is the same object of the old heap
      have hback : ∀ i b', (modifyAt s.heap p.2 (fun _ => (b.stored FS s.disk).1))[i]?
          = some b' → b'.status &&& DIRTY ≠ 0 → i ≠ p.2 ∧ s.heap[i]? = some b' := by
        intro i b' hb' hd
        by_cases hip : i = p.2
        · subst hip
          rw [hself] at hb'
          cases hb'
          exact absurd hclean hd
        · exact ⟨hip, by rw [← hget i hip]; exact hb'⟩
      obtain ⟨s', evs, h1, h2, h3, h4, h5, h6, h7⟩ :=
        ih hi1 hr (fun q hq => by simpa using hrest q hq)
      have hdisk1 : ∀ f, (b.stored FS s.disk).2.read f
          = if f = b.fileName then some b.buffer else s.disk.read f := by
        intro f
        simp only [WriteCacheBuffer.stored, Disk.read, lookup_writeFile, htake]
      refine ⟨s', IOEvent.store b.fileName b.buffer :: evs,
        by rw [destroyLoop_dirty rest hb hc (not_refused_of_nil hr _)]; exact h1, h2, h3, ?_, ?_, ?_, ?_⟩
      · rw [h4]
        simp only [WriteCacheBuffer.stored, htake, List.append_assoc, List.singleton_append]
      · intro e he
        rcases List.mem_cons.1 he with rfl | he
        · exact ⟨p, by simp, b, hb, hc, rfl⟩
        · obtain ⟨q, hq, b', hb', hd, r⟩ := h5 e he
          exact ⟨q, List.mem_cons_of_mem _ hq, b', (hback _ _ hb' hd).2, hd, r⟩
      · intro q hq b' hb' hd
        by_cases hqp : q.2 = p.2
        · rw [hqp, hb] at hb'
          cases hb'
          refine ⟨?_, by simp⟩
          rw [h7 b.fileName, hdisk1, if_pos rfl]
          intro r hr b2 hb2 hd2
          obtain ⟨hne, hb2'⟩ := hback _ _ hb2 hd2
          intro hn
          exact hne (hi.name_inj (hrest r hr).1 hp0 hb2' hb hn)
        · rcases List.mem_cons.1 hq with rfl | hq
          · exact absurd rfl hqp
          · have := h6 q hq b' (by rw [hget _ hqp]; exact hb') hd
            exact ⟨this.1, List.mem_cons_of_mem _ this.2⟩
      · intro f hf
        rw [h7 f, hdisk1, if_neg]
        · exact fun hfe => hf p (by simp) b hb hc hfe.symm
        · intro r hr b2 hb2 hd2
          exact hf r (List.mem_cons_of_mem _ hr) b2 (hback _ _ hb2 hd2).2 hd2

/-- C13: in a state reached from a fresh cache the destructor returns, and
for every buffer `b` that the map refers to: if `b` is dirty, the file named
`b.fileName` afterwards holds the `FS` bytes of `b.buffer`; if `b` is clean,
that file is as before and the destructor performed no store to it. -/
theorem C13_teardown_persists_dirty {FS max : Nat} {d : Disk} {cs : List Call}
    {s : FileCacheImpl} (h : run FS (FileCacheImpl.new FS max d) cs = Outcome.ok s) :
    ∃ d', FileCacheImpl.destroy FS s = Outcome.ok d' ∧
      (∀ k a b, mapFind s.writeCache_ k = some a → s.heap[a]? = some b →
        b.status &&& DIRTY ≠ 0 →
        d'.read b.fileName = some b.buffer ∧ b.buffer.length = FS) ∧
      (∀ k a b, mapFind s.writeCache_ k = some a → s.heap[a]? = some b →
        b.status &&& DIRTY = 0 →
        d'.read b.fileName = s.disk.read b.fileName ∧
        ∀ c, IOEvent.store b.fileName c ∉ newEvents s.disk d') := by
  obtain ⟨hi, -⟩ := reachable_inv h
  have hm : ∀ p ∈ s.writeCache_, p.2 ≠ 0 ∧ p.2 < s.heap.length := by
    intro p hp
    exact hi.dir p.1 p.2 (mapFind_of_mem _ _ _ hi.keys hp)
  obtain ⟨s', evs, h1, h2, h3, h4, h5, h6, h7⟩ := destroyLoop_spec s.writeCache_ hi (reachable_refused h) hm
  have hhead : s'.heap[s'.freeListHead_]? = some (s'.heap.get ⟨0, h2.list.heap_pos⟩) := by
    rw [h2.list.head]
    simp [List.getElem?_eq_getElem h2.list.heap_pos]
  have hclean : ∀ a b, a ≠ 0 → s.heap[a]? = some b → b.status &&& DIRTY = 0 →
      ∀ p ∈ s.writeCache_, ∀ b', s.heap[p.2]? = some b' → b'.status &&& DIRTY ≠ 0 →
        b'.fileName ≠ b.fileName := by
    intro a b ha hb hc p hp b' hb' hd hn
    have := hi.name_inj (hm p hp).1 ha hb' hb hn
    rw [this, hb] at hb'
    cases hb'
    exact hd hc
  refine ⟨s'.disk, ?_, ?_, ?_⟩
  · simp only [FileCacheImpl.destroy, h1, Outcome.bind, deref_ok hhead]
  · intro k a b hk hb hd
    exact ⟨(h6 (k, a) (mem_of_mapFind _ _ _ hk) b hb hd).1,
      hi.buflen a b (hi.dir k a hk).1 hb⟩
  · intro k a b hk hb hc
    have ha := (hi.dir k a hk).1
    refine ⟨h7 b.fileName (hclean a b ha hb hc), ?_⟩
    intro c hmem
    have hev : newEvents s.disk s'.disk = evs := by
      simp [newEvents, h4]
    rw [hev] at hmem
    obtain ⟨p, hp, b', hb', hd, he⟩ := h5 _ hmem
    simp only [IOEvent.store.injEq] at he
    exact hclean a b ha hb hc p hp b' hb' hd he.1.symm

/-- C13 on the cache of capacity one in which the dirty entry of `A`, holding
`[7, 0]`, is queued: the destructor writes these two bytes to the file `A`. -/
theorem C13_teardown_persists_dirty_witness :
    run 2 (FileCacheImpl.new 2 1 emptyDisk)
        [Call.PinFiles ["A"], Call.write "A" [7], Call.UnpinFiles ["A"]]
      = Outcome.ok demoDirtyQueued ∧
    FileCacheImpl.destroy 2 demoDirtyQueued
      = Outcome.ok { files := [("A", [7, 0])],
                     log := [IOEvent.create "A", IOEvent.store "A" [7, 0]] } ∧
    ∃ d', FileCacheImpl.destroy 2 demoDirtyQueued = Outcome.ok d' ∧
      (∀ k a b, mapFind demoDirtyQueued.writeCache_ k = some a →
        demoDirtyQueued.heap[a]? = some b → b.status &&& DIRTY ≠ 0 →
        d'.read b.fileName = some b.buffer ∧ b.buffer.length = 2) :=
  have hr : run 2 (FileCacheImpl.new 2 1 emptyDisk)
      [Call.PinFiles ["A"], Call.write "A" [7], Call.UnpinFiles ["A"]]
      = Outcome.ok demoDirtyQueued := by decide
  ⟨hr, by decide, (C13_teardown_persists_dirty hr).imp (fun _ hd => ⟨hd.1, hd.2.1⟩)⟩

/-! ## The paths of pin and unpin in terms of the data of the buffers -/

theorem pin_alloc_data {FS : Nat} {s : FileCacheImpl} {l : List Nat} {f : String}
    (hi : Inv FS s l) (hf : mapFind s.writeCache_ f = none)
    (hc : s.writeCache_.length < s.max_cache_entries_)
    (ho : f ≠ "dummy" → ¬ createFails s.refused s.disk f) :
    ∃ s', pinFile FS s f = Outcome.ok s' ∧ Inv FS s' l ∧
      s'.max_cache_entries_ = s.max_cache_entries_ ∧
      s'.writeCache_ = mapInsert s.writeCache_ f s.heap.length ∧
      s'.disk = (WriteCacheBuffer.new FS f s.disk).2 ∧
      s'.heap.length = s.heap.length + 1 ∧
      (∀ i : Nat, i ≠ s.heap.length →
        s'.heap[i]?.map WriteCacheBuffer.data = s.heap[i]?.map WriteCacheBuffer.data) ∧
      s'.heap[s.heap.length]?.map WriteCacheBuffer.data =
        some (f, 1, (WriteCacheBuffer.new FS f s.disk).1.status ||| PINNED,
          (WriteCacheBuffer.new FS f s.disk).1.buffer) := by
  obtain ⟨s', h1, h2, h3, h4, h5, h6⟩ := pinFile_alloc hi hf hc ho
  refine ⟨s', h1, h2, h3, h4, h5, by rw [h6]; simp, ?_, ?_⟩
  · intro i hne
    rw [h6, getElem?_append_ne _ _ hne]
  · rw [h6]
    simp [WriteCacheBuffer.data, new_fileName]

theorem pin_hit_pinned_data {FS : Nat} {s : FileCacheImpl} {l : List Nat} {f : String}
    {a : Nat} {n : String} {c st : Nat} {buf : List Byte} (hi : Inv FS s l)
    (hf : mapFind s.writeCache_ f = some a)
    (hd : s.heap[a]?.map WriteCacheBuffer.data = some (n, c, st, buf))
    (hp : st &&& PINNED ≠ 0) :
    ∃ s', pinFile FS s f = Outcome.ok s' ∧ Inv FS s' l ∧
      s'.max_cache_entries_ = s.max_cache_entries_ ∧ s'.writeCache_ = s.writeCache_ ∧
      s'.disk = s.disk ∧ s'.heap.length = s.heap.length ∧
      (∀ i : Nat, i ≠ a →
        s'.heap[i]?.map WriteCacheBuffer.data = s.heap[i]?.map WriteCacheBuffer.data) ∧
      s'.heap[a]?.map WriteCacheBuffer.data = some (n, (c + 1) % UINT_MOD, st, buf) := by
  obtain ⟨b, hb, hn, hc, hs, hbuf⟩ := data_transfer_self hd
  simp only at hn hc hs hbuf
  obtain ⟨h1, h2⟩ := pinFile_hit_pinned hi hf hb (by rw [hs]; exact hp)
  refine ⟨_, h1, h2, rfl, rfl, rfl, by simp, ?_, ?_⟩
  · intro i hne
    simp only
    rw [getElem?_modifyAt_ne _ hne]
  · simp only
    rw [getElem?_modifyAt_of_get _ hb, if_pos rfl]
    simp [WriteCacheBuffer.data, hn, hc, hs, hbuf]

theorem pin_hit_unpinned_data {FS : Nat} {s : FileCacheImpl} {l : List Nat} {f : String}
    {a : Nat} {n : String} {c st : Nat} {buf : List Byte} (hi : Inv FS s l)
    (hf : mapFind s.writeCache_ f = some a)
    (hd : s.heap[a]?.map WriteCacheBuffer.data = some (n, c, st, buf))
    (hp : st &&& PINNED = 0) :
    ∃ s', pinFile FS s f = Outcome.ok s' ∧ Inv FS s' (l.erase a) ∧
      s'.max_cache_entries_ = s.max_cache_entries_ ∧ s'.writeCache_ = s.writeCache_ ∧
      s'.disk = s.disk ∧ s'.heap.length = s.heap.length ∧
      (∀ i : Nat, i ≠ a →
        s'.heap[i]?.map WriteCacheBuffer.data = s.heap[i]?.map WriteCacheBuffer.data) ∧
      s'.heap[a]?.map WriteCacheBuffer.data = some (n, 1, st ||| PINNED, buf) := by
  obtain ⟨b, hb, hn, hc, hs, hbuf⟩ := data_transfer_self hd
  simp only at hn hc hs hbuf
  have hp' : b.status &&& PINNED = 0 := by rw [hs]; exact hp
  obtain ⟨s', h1, h2, h3, h4, h5, h6, h7, h8⟩ := pinFile_hit_unpinned hi hf hb hp'
  refine ⟨s', h1, h2, h3, h4, h5, h6, h7, ?_⟩
  rw [h8, hi.count a b (hi.dir f a hf).1 hb hp', hn, hs, hbuf]
  rfl

theorem unpin_last_data {FS : Nat} {s : FileCacheImpl} {l : List Nat} {f : String}
    {a : Nat} {n : String} {st : Nat} {buf : List Byte} (hi : Inv FS s l)
    (hf : mapFind s.writeCache_ f = some a)
    (hd : s.heap[a]?.map WriteCacheBuffer.data = some (n, 1, st, buf))
    (hp : st &&& PINNED ≠ 0) :
    ∃ s', unpinFile s f = Outcome.ok s' ∧ Inv FS s' (l ++ [a]) ∧
      s'.max_cache_entries_ = s.max_cache_entries_ ∧ s'.writeCache_ = s.writeCache_ ∧
      s'.disk = s.disk ∧ s'.heap.length = s.heap.length ∧
      (∀ i : Nat, i ≠ a →
        s'.heap[i]?.map WriteCacheBuffer.data = s.heap[i]?.map WriteCacheBuffer.data) ∧
      s'.heap[a]?.map WriteCacheBuffer.data = some (n, 0, st &&& bitNot PINNED, buf) := by
  obtain ⟨b, hb, hn, hc, hs, hbuf⟩ := data_transfer_self hd
  simp only at hn hc hs hbuf
  obtain ⟨s', h1, h2, h3, h4, h5, h6, h7, h8⟩ :=
    unpinFile_last hi hf hb (by rw [hs]; exact hp) hc
  refine ⟨s', h1, h2, h3, h4, h5, h6, h7, ?_⟩
  rw [h8, hn, hs, hbuf]

theorem pin_evict_data {FS : Nat} {s : FileCacheImpl} {x : Nat} {rest : List Nat} {f : String}
    {n : String} {c st : Nat} {buf : List Byte} (o : WriteCacheBuffer)
    (hi : Inv FS s (x :: rest)) (hf : mapFind s.writeCache_ f = none)
    (hc : ¬ s.writeCache_.length < s.max_cache_entries_) (hsz : 0 < s.freeListSize_)
    (hd : s.heap[x]?.map WriteCacheBuffer.data = some (n, c, st, buf))
    (ho : o.data = (n, c, st, buf))
    (hw : ∀ b, s.heap[x]? = some b → b.status &&& DIRTY ≠ 0 → b.fileName ∉ s.refused)
    (hcr : ¬ createFails s.refused s.disk f) :
    ∃ s', pinFile FS s f = Outcome.ok s' ∧ Inv FS s' rest ∧
      s'.max_cache_entries_ = s.max_cache_entries_ ∧
      s'.writeCache_ = mapInsert s.writeCache_ f x ∧
      s'.disk = (reclaim FS o f s.disk).2 ∧ s'.heap.length = s.heap.length ∧
      (∀ i : Nat, i ≠ x →
        s'.heap[i]?.map WriteCacheBuffer.data = s.heap[i]?.map WriteCacheBuffer.data) ∧
      s'.heap[x]?.map WriteCacheBuffer.data =
        some (f, 1, (reclaim FS o f s.disk).1.status ||| PINNED,
          (reclaim FS o f s.disk).1.buffer) := by
  obtain ⟨s', b, hb, -, h1, h2, h3, h4, h5, h6, h7, h8⟩ := pinFile_evict hi hf hc hsz hw hcr
  have hbd : b.data = o.data := by
    rw [hb] at hd
    simp only [Option.map_some', Option.some.injEq] at hd
    rw [hd, ho]
  obtain ⟨e1, e2⟩ := reclaim_congr FS f s.disk hbd
  simp only [WriteCacheBuffer.data, Prod.mk.injEq] at e1
  refine ⟨s', h1, h2, h3, h4, by rw [h7, e2], h5, h6, ?_⟩
  rw [h8, e1.2.2.1, e1.2.2.2]

theorem new_heap_length (FS max : Nat) (d : Disk) : (FileCacheImpl.new FS max d).heap.length = 1 := by
  simp [FileCacheImpl.new, FileCacheImpl.newIn, freeListInit, WriteCacheBuffer.new]

theorem new_writeCache (FS max : Nat) (d : Disk) : (FileCacheImpl.new FS max d).writeCache_ = [] := by
  simp [FileCacheImpl.new, FileCacheImpl.newIn, freeListInit, WriteCacheBuffer.new]

theorem new_max (FS max : Nat) (d : Disk) :
    (FileCacheImpl.new FS max d).max_cache_entries_ = max := by
  simp [FileCacheImpl.new, FileCacheImpl.newIn, freeListInit, WriteCacheBuffer.new]

theorem new_disk (FS max : Nat) (d : Disk) : (FileCacheImpl.new FS max d).disk = d := by
  simp [FileCacheImpl.new, FileCacheImpl.newIn, freeListInit, WriteCacheBuffer.new]


theorem new_refused (FS max : Nat) (d : Disk) : (FileCacheImpl.new FS max d).refused = [] := by
  simp [FileCacheImpl.new, FileCacheImpl.newIn, freeListInit, WriteCacheBuffer.new]
/-- C14: the scenario of the test driver, for every buffer size and every
file system.  On a fresh cache of capacity 5, `PinFiles [One, Two, Three]`
makes three entries, all pinned with pin count 1; `UnpinFiles [One, Two]`
leaves the free list `[One, Two]` (addresses 1 and 2) and `Three` pinned;
`PinFiles [Two, Three, Four, Five, Six]` then returns: `Two` is pinned again
with the buffer it had, `Three` has pin count 2, `Four` and `Five` are in the
new objects 4 and 5, the object 1 that held `One` now holds `Six`, the file
system saw the two loads of `Four` and `Five` and the reclamation of `One` for
`Six` and nothing else, and the free list is empty. -/
theorem C14_capacity_five_scenario (FS : Nat) (d : Disk) :
    ∃ s1 s2 s3 : FileCacheImpl,
      PinFiles FS (FileCacheImpl.new FS 5 d) ["One", "Two", "Three"] = Outcome.ok s1 ∧
      s1.heap.length = 4 ∧ s1.writeCache_.length = 3 ∧
      mapFind s1.writeCache_ "One" = some 1 ∧ mapFind s1.writeCache_ "Two" = some 2 ∧
      mapFind s1.writeCache_ "Three" = some 3 ∧
      (∀ a b, a ≠ 0 → s1.heap[a]? = some b → b.status &&& PINNED ≠ 0 ∧ b.pinCount = 1) ∧
      UnpinFiles s1 ["One", "Two"] = Outcome.ok s2 ∧ freeList s2 = [1, 2] ∧
      (∃ b, s2.heap[3]? = some b ∧ b.fileName = "Three" ∧ b.status &&& PINNED ≠ 0 ∧
        b.pinCount = 1) ∧
      PinFiles FS s2 ["Two", "Three", "Four", "Five", "Six"] = Outcome.ok s3 ∧
      mapFind s3.writeCache_ "Two" = some 2 ∧
      (∃ b0 b, s1.heap[2]? = some b0 ∧ s3.heap[2]? = some b ∧ b.fileName = "Two" ∧
        b.status &&& PINNED ≠ 0 ∧ b.pinCount = 1 ∧ b.buffer = b0.buffer) ∧
      mapFind s3.writeCache_ "Three" = some 3 ∧
      (∃ b, s3.heap[3]? = some b ∧ b.fileName = "Three" ∧ b.status &&& PINNED ≠ 0 ∧
        b.pinCount = 2) ∧
      s2.heap.length = 4 ∧ s3.heap.length = 6 ∧
      mapFind s3.writeCache_ "Four" = some 4 ∧ mapFind s3.writeCache_ "Five" = some 5 ∧
      (∃ b4 b5, s3.heap[4]? = some b4 ∧ s3.heap[5]? = some b5 ∧
        b4.fileName = "Four" ∧ b5.fileName = "Five" ∧
        b4.status &&& PINNED ≠ 0 ∧ b5.status &&& PINNED ≠ 0 ∧
        b4.pinCount = 1 ∧ b5.pinCount = 1) ∧
      mapFind s2.writeCache_ "One" = some 1 ∧ mapFind s3.writeCache_ "Six" = some 1 ∧
      (∃ b1 b, s2.heap[1]? = some b1 ∧ b1.fileName = "One" ∧ s3.heap[1]? = some b ∧
        b.fileName = "Six" ∧ b.status &&& PINNED ≠ 0 ∧ b.pinCount = 1 ∧
        s3.disk = (reclaim FS b1 "Six"
          (WriteCacheBuffer.new FS "Five" (WriteCacheBuffer.new FS "Four" s2.disk).2).2).2) ∧
      freeList s3 = [] := by
  have hi0 := Inv.init FS 5 d
  have hw0 := new_writeCache FS 5 d
  have hm0 := new_max FS 5 d
  have hl0 := new_heap_length FS 5 d
  have hR0 := new_refused FS 5 d
  -- the first call: three allocations
  obtain ⟨t1, hp1, hi1, hm1, hw1, -, hl1, ho1, hd1⟩ := pin_alloc_data (f := "One") hi0
    (by rw [hw0]; rfl) (by rw [hw0, hm0]; decide) (fun _ => createFails_of_nil hR0 _ _)
  have hR1 := (pinFile_refused hp1).trans hR0
  rw [hl0] at hl1 ho1 hd1 hw1
  rw [hw0] at hw1
  rw [hm0] at hm1
  obtain ⟨t2, hp2, hi2, hm2, hw2, -, hl2, ho2, hd2⟩ := pin_alloc_data (f := "Two") hi1
    (by rw [hw1]; decide) (by rw [hw1, hm1]; decide) (fun _ => createFails_of_nil hR1 _ _)
  have hR2 := (pinFile_refused hp2).trans hR1
  rw [hl1] at hl2 ho2 hd2 hw2
  rw [hw1] at hw2
  rw [hm1] at hm2
  obtain ⟨s1, hp3, hi3, hm3, hw3, -, hl3, ho3, hd3⟩ := pin_alloc_data (f := "Three") hi2
    (by rw [hw2]; decide) (by rw [hw2, hm2]; decide) (fun _ => createFails_of_nil hR2 _ _)
  have hR3 := (pinFile_refused hp3).trans hR2
  rw [hl2] at hl3 ho3 hd3 hw3
  rw [hw2] at hw3
  rw [hm2] at hm3
  have e1 : s1.heap[1]?.map WriteCacheBuffer.data = _ :=
    ((ho3 1 (by decide)).trans (ho2 1 (by decide))).trans hd1
  have e2 : s1.heap[2]?.map WriteCacheBuffer.data = _ := (ho3 2 (by decide)).trans hd2
  obtain ⟨c1, hc1, hc1n, hc1c, hc1s, -⟩ := data_transfer_self e1
  obtain ⟨c2, hc2, hc2n, hc2c, hc2s, hc2b⟩ := data_transfer_self e2
  obtain ⟨c3, hc3, hc3n, hc3c, hc3s, -⟩ := data_transfer_self hd3
  simp only at hc1n hc1c hc1s hc2n hc2c hc2s hc2b hc3n hc3c hc3s
  -- the second call: two releases
  obtain ⟨u1, hq1, hj1, hn1, hx1, hk1, hy1, hz1, hv1⟩ := unpin_last_data (f := "One") hi3
    (by rw [hw3]; decide) e1 (or_pinned_and_ne _)
  obtain ⟨s2, hq2, hj2, hn2, hx2, hk2, hy2, hz2, hv2⟩ := unpin_last_data (f := "Two") hj1
    (by rw [hx1, hw3]; decide) ((hz1 2 (by decide)).trans e2) (or_pinned_and_ne _)
  have f1 : s2.heap[1]?.map WriteCacheBuffer.data = _ := (hz2 1 (by decide)).trans hv1
  have f3 : s2.heap[3]?.map WriteCacheBuffer.data = _ :=
    ((hz2 3 (by decide)).trans (hz1 3 (by decide))).trans hd3
  obtain ⟨g1, hg1, hg1n, -, -, -⟩ := data_transfer_self f1
  obtain ⟨g3, hg3, hg3n, hg3c, hg3s, -⟩ := data_transfer_self f3
  simp only at hg1n hg3n hg3c hg3s
  have hws2 : s2.writeCache_ = _ := (hx2.trans hx1).trans hw3
  have hms2 : s2.max_cache_entries_ = 5 := (hn2.trans hn1).trans hm3
  have hls2 : s2.heap.length = 4 := (hy2.trans hy1).trans hl3
  have hR5 := (unpinFile_refused hq2).trans ((unpinFile_refused hq1).trans hR3)
  -- the third call
  obtain ⟨v1, hr1, ha1, hb1, he1, hf1, hg1', hh1, hk1'⟩ := pin_hit_unpinned_data (f := "Two") hj2
    (by rw [hws2]; decide) hv2 (and_not_pinned_and _)
  have ha1' : Inv FS v1 [1] := by
    have : ([] ++ [1] ++ [2] : List Nat).erase 2 = [1] := by decide
    rw [this] at ha1
    exact ha1
  obtain ⟨v2, hr2, ha2, hb2, he2, hf2, hg2, hh2, hk2'⟩ := pin_hit_pinned_data (f := "Three") ha1'
    (by rw [he1, hws2]; decide) ((hh1 3 (by decide)).trans f3) (or_pinned_and_ne _)
  have hwv2 : v2.writeCache_ = _ := (he2.trans he1).trans hws2
  have hmv2 : v2.max_cache_entries_ = 5 := (hb2.trans hb1).trans hms2
  have hlv2 : v2.heap.length = 4 := (hg2.trans hg1').trans hls2
  have hR7 := (pinFile_refused hr2).trans ((pinFile_refused hr1).trans hR5)
  obtain ⟨v3, hr3, ha3, hb3, he3, hf3, hg3', hh3, hk3⟩ := pin_alloc_data (f := "Four") ha2
    (by rw [hwv2]; decide) (by rw [hwv2, hmv2]; decide) (fun _ => createFails_of_nil hR7 _ _)
  have hR8 := (pinFile_refused hr3).trans hR7
  rw [hlv2] at hg3' hh3 hk3 he3
  rw [hwv2] at he3
  rw [hmv2] at hb3
  obtain ⟨v4, hr4, ha4, hb4, he4, hf4, hg4, hh4, hk4⟩ := pin_alloc_data (f := "Five") ha3
    (by rw [he3]; decide) (by rw [he3, hb3]; decide) (fun _ => createFails_of_nil hR8 _ _)
  have hR9 := (pinFile_refused hr4).trans hR8
  rw [hg3'] at hg4 hh4 hk4 he4
  rw [he3] at he4
  rw [hb3] at hb4
  have k1 : v4.heap[1]?.map WriteCacheBuffer.data = _ :=
    ((((hh4 1 (by decide)).trans (hh3 1 (by decide))).trans (hh2 1 (by decide))).trans
      (hh1 1 (by decide))).trans f1
  have hsz : 0 < v4.freeListSize_ := by
    rw [ha4.list.size]
    decide
  obtain ⟨s3, hr5, ha5, hb5, he5, hf5, hg5, hh5, hk5⟩ := pin_evict_data (f := "Six") g1 ha4
    (by rw [he4]; decide) (by rw [he4, hb4]; decide) hsz k1
    (by
      rw [hg1] at f1
      simpa using f1)
    (fun _ _ _ => not_refused_of_nil hR9 _) (createFails_of_nil hR9 _ _)
  rw [he4] at he5
  have m2 : s3.heap[2]?.map WriteCacheBuffer.data = _ :=
    ((((hh5 2 (by decide)).trans (hh4 2 (by decide))).trans (hh3 2 (by decide))).trans
      (hh2 2 (by decide))).trans hk1'
  have m3 : s3.heap[3]?.map WriteCacheBuffer.data = _ :=
    (((hh5 3 (by decide)).trans (hh4 3 (by decide))).trans (hh3 3 (by decide))).trans hk2'
  have m4 : s3.heap[4]?.map WriteCacheBuffer.data = _ :=
    ((hh5 4 (by decide)).trans (hh4 4 (by decide))).trans hk3
  have m5 : s3.heap[5]?.map WriteCacheBuffer.data = _ := (hh5 5 (by decide)).trans hk4
  obtain ⟨n1, hn1', hn1n, hn1c, hn1s, -⟩ := data_transfer_self hk5
  obtain ⟨n2, hn2', hn2n, hn2c, hn2s, hn2b⟩ := data_transfer_self m2
  obtain ⟨n3, hn3', hn3n, hn3c, hn3s, -⟩ := data_transfer_self m3
  obtain ⟨n4, hn4', hn4n, hn4c, hn4s, -⟩ := data_transfer_self m4
  obtain ⟨n5, hn5', hn5n, hn5c, hn5s, -⟩ := data_transfer_self m5
  simp only at hn1n hn1c hn1s hn2n hn2c hn2s hn2b hn3n hn3c hn3s hn4n hn4c hn4s hn5n hn5c hn5s
  refine ⟨s1, s2, s3, ?_, hl3, by rw [hw3]; decide, by rw [hw3]; decide, by rw [hw3]; decide,
    by rw [hw3]; decide, ?_, ?_, hj2.list.freeList_eq, ?_, ?_, by rw [he5]; decide, ?_,
    by rw [he5]; decide, ?_, hls2, hg5.trans hg4, by rw [he5]; decide, by rw [he5]; decide,
    ?_, by rw [hws2]; decide, by rw [he5]; decide, ?_, ha5.list.freeList_eq⟩
  · simp only [PinFiles, hp1, hp2, hp3, Outcome.bind]
  · intro a b ha hb
    have hlt : a < 4 := by
      by_contra hge
      rw [List.getElem?_eq_none (by rw [hl3]; omega)] at hb
      cases hb
    have h123 : a = 1 ∨ a = 2 ∨ a = 3 := by omega
    rcases h123 with rfl | rfl | rfl
    · rw [hc1] at hb; cases hb
      exact ⟨by rw [hc1s]; exact or_pinned_and_ne _, hc1c⟩
    · rw [hc2] at hb; cases hb
      exact ⟨by rw [hc2s]; exact or_pinned_and_ne _, hc2c⟩
    · rw [hc3] at hb; cases hb
      exact ⟨by rw [hc3s]; exact or_pinned_and_ne _, hc3c⟩
  · simp only [UnpinFiles, hq1, hq2, Outcome.bind]
  · exact ⟨g3, hg3, hg3n, by rw [hg3s]; exact or_pinned_and_ne _, hg3c⟩
  · simp only [PinFiles, hr1, hr2, hr3, hr4, hr5, Outcome.bind]
  · exact ⟨c2, n2, hc2, hn2', hn2n, by rw [hn2s]; exact or_pinned_and_ne _, hn2c,
      by rw [hn2b, hc2b]⟩
  · exact ⟨n3, hn3', hn3n, by rw [hn3s]; exact or_pinned_and_ne _, by rw [hn3c]; decide⟩
  · exact ⟨n4, n5, hn4', hn5', hn4n, hn5n, by rw [hn4s]; exact or_pinned_and_ne _,
      by rw [hn5s]; exact or_pinned_and_ne _, hn4c, hn5c⟩
  · refine ⟨g1, n1, hg1, hg1n, hn1', hn1n, by rw [hn1s]; exact or_pinned_and_ne _, hn1c, ?_⟩
    rw [hf5, hf4, hf3, hf2, hf1]

/-! ## The mutexes held while a pin waits -/

theorem holdStep_mem_of_freeList {h : List Mutex} {e : SyncEvent}
    (he : e ≠ SyncEvent.unlock Mutex.mapMut_ ∧ e ≠ SyncEvent.condWait Mutex.mapMut_)
    (hm : Mutex.mapMut_ ∈ h) : Mutex.mapMut_ ∈ holdStep h e := by
  cases e with
  | lock m => exact List.mem_cons_of_mem _ hm
  | unlock m =>
    cases m with
    | mapMut_ => exact absurd rfl he.1
    | freeListMut_ => exact (List.mem_erase_of_ne (by decide)).2 hm
  | condWait m =>
    cases m with
    | mapMut_ => exact absurd rfl he.2
    | freeListMut_ => exact (List.mem_erase_of_ne (by decide)).2 hm
  | broadcast => exact hm

theorem foldl_holdStep_mem (t : List SyncEvent) :
    ∀ h : List Mutex, Mutex.mapMut_ ∈ h →
      (∀ e ∈ t, e ≠ SyncEvent.unlock Mutex.mapMut_ ∧ e ≠ SyncEvent.condWait Mutex.mapMut_) →
      Mutex.mapMut_ ∈ t.foldl holdStep h := by
  induction t with
  | nil => intro h hm _; exact hm
  | cons e rest ih =>
    intro h hm ht
    exact ih _ (holdStep_mem_of_freeList (ht e (by simp)) hm)
      (fun e' he' => ht e' (List.mem_cons_of_mem _ he'))

theorem pinFileSync_freeList (s : FileCacheImpl) (f : String) :
    ∀ e ∈ pinFileSync s f,
      e ≠ SyncEvent.unlock Mutex.mapMut_ ∧ e ≠ SyncEvent.condWait Mutex.mapMut_ := by
  intro e he
  unfold pinFileSync at he
  split at he
  · split at he
    · split at he
      · simp at he
        rcases he with rfl | rfl <;> exact ⟨by decide, by decide⟩
      · simp at he
    · simp at he
  · split at he
    · simp at he
    · split at he
      · simp at he
        rcases he with rfl | rfl <;> exact ⟨by decide, by decide⟩
      · simp at he
        rcases he with rfl | rfl <;> exact ⟨by decide, by decide⟩

/-- While a call of `PinFiles` does not return, it does not unlock `mapMut_`. -/
theorem pinLoopSync_blocked {FS : Nat} (v : List String) :
    ∀ s : FileCacheImpl, PinFiles FS s v = Outcome.blocked →
      ∀ e ∈ pinLoopSync FS s v,
        e ≠ SyncEvent.unlock Mutex.mapMut_ ∧ e ≠ SyncEvent.condWait Mutex.mapMut_ := by
  induction v with
  | nil =>
    intro s h
    simp [PinFiles] at h
  | cons f rest ih =>
    intro s h e he
    simp only [pinLoopSync, List.mem_append] at he
    rcases he with he | he
    · exact pinFileSync_freeList s f e he
    · simp only [PinFiles] at h
      cases hp : pinFile FS s f with
      | ok s1 =>
        rw [hp] at h he
        exact ih s1 h e he
      | blocked =>
        rw [hp] at he
        simp at he
      | aborted =>
        rw [hp] at he
        simp at he

/-- A call of `PinFiles` that waits holds `mapMut_` while it waits. -/
theorem PinFiles_blocked_holds_mapMut {FS : Nat} (s : FileCacheImpl) (v : List String)
    (h : PinFiles FS s v = Outcome.blocked) : Mutex.mapMut_ ∈ held (PinFilesSync FS s v) := by
  unfold held PinFilesSync
  rw [List.foldl_cons]
  exact foldl_holdStep_mem _ _ (by simp [holdStep]) (pinLoopSync_blocked v s h)

/-- C15 fails on the cache of capacity one in which `A` is pinned: the call
`PinFiles [B]` waits on the condition variable after it locked `mapMut_` and
`freeListMut_`; the wait releases `freeListMut_` only, so the waiting thread
holds `mapMut_`.  The first operation of `UnpinFiles [A]`, which would queue
the entry of `A` and broadcast, is the lock of `mapMut_`. -/
theorem C15_pin_waits_holding_map_lock :
    run 1 (FileCacheImpl.new 1 1 emptyDisk) [Call.PinFiles ["A"]] = Outcome.ok demoOne ∧
    PinFiles 1 demoOne ["B"] = Outcome.blocked ∧
    PinFilesSync 1 demoOne ["B"] =
      [SyncEvent.lock Mutex.mapMut_, SyncEvent.lock Mutex.freeListMut_,
       SyncEvent.condWait Mutex.freeListMut_] ∧
    held (PinFilesSync 1 demoOne ["B"]) = [Mutex.mapMut_] ∧
    UnpinFilesSync demoOne ["A"] =
      [SyncEvent.lock Mutex.mapMut_, SyncEvent.lock Mutex.freeListMut_, SyncEvent.broadcast,
       SyncEvent.unlock Mutex.freeListMut_, SyncEvent.unlock Mutex.mapMut_] := by
  decide

/-! ## Many pins of one name -/

/-- On a fresh cache of capacity one, `n + 1` calls `PinFiles [A]` return and
leave the entry of `A` pinned with pin count `(1 + n) % 2 ^ 32`. -/
theorem demo_pins (n : Nat) :
    ∃ s b l, run 1 (FileCacheImpl.new 1 1 emptyDisk)
        (List.replicate (n + 1) (Call.PinFiles ["A"])) = Outcome.ok s ∧
      Inv 1 s l ∧ mapFind s.writeCache_ "A" = some 1 ∧ s.heap[1]? = some b ∧
      b.status &&& PINNED ≠ 0 ∧ b.pinCount = (1 + n) % UINT_MOD := by
  have hfirst : step 1 (FileCacheImpl.new 1 1 emptyDisk) (Call.PinFiles ["A"])
      = Outcome.ok demoOne := by decide
  obtain ⟨l1, hi1, -⟩ := step_inv (Inv.init 1 1 emptyDisk) hfirst
  obtain ⟨s1, b1, h1, hi2, hw, hb1, hs1, hc1⟩ :=
    pin_hits (X := "A") n hi1 (by decide : mapFind demoOne.writeCache_ "A" = some 1)
      (by decide : demoOne.heap[1]? = some (demoPinnedBuffer "A")) (by decide) (by decide)
  refine ⟨s1, b1, l1, ?_, hi2, by rw [hw]; decide, hb1, by rw [hs1]; decide, hc1⟩
  have h2 := run_replicate_succ 1 (FileCacheImpl.new 1 1 emptyDisk) (Call.PinFiles ["A"]) n
  rw [hfirst, Outcome.ok_bind, h1] at h2
  exact h2

/-- The frame of a pin hit, with the pin count taken modulo `2 ^ 32`: in a state
reached from a fresh cache let the map give the entry `b` at address `a` for `X`.  Then
`PinFiles [X]` returns; the pin count of the entry becomes
`(b.pinCount + 1) % 2 ^ 32`, which is `b.pinCount + 1` unless the count was
`2 ^ 32 - 1`; the entry is pinned; its buffer, dirty bit and file name, the data
of every other object, the map and the file system with its trace are
unchanged.  If `b` was pinned the free list is unchanged; if it was unpinned,
`a` was in the free list and is erased from it, the others keeping their order. -/
theorem pin_hit_frame {FS max : Nat} {d : Disk} {cs : List Call}
    {s : FileCacheImpl} (h : run FS (FileCacheImpl.new FS max d) cs = Outcome.ok s)
    (X : String) (a : Nat) (b : WriteCacheBuffer)
    (hX : mapFind s.writeCache_ X = some a) (hb : s.heap[a]? = some b) :
    ∃ s' b', PinFiles FS s [X] = Outcome.ok s' ∧ s'.heap[a]? = some b' ∧
      b'.pinCount = (b.pinCount + 1) % UINT_MOD ∧
      (b.pinCount + 1 < UINT_MOD → b'.pinCount = b.pinCount + 1) ∧
      b'.status &&& PINNED ≠ 0 ∧ b'.buffer = b.buffer ∧
      b'.status &&& DIRTY = b.status &&& DIRTY ∧ b'.fileName = b.fileName ∧
      s'.heap.length = s.heap.length ∧
      (∀ i : Nat, i ≠ a →
        s'.heap[i]?.map WriteCacheBuffer.data = s.heap[i]?.map WriteCacheBuffer.data) ∧
      s'.writeCache_ = s.writeCache_ ∧ s'.disk = s.disk ∧
      (b.status &&& PINNED ≠ 0 → freeList s' = freeList s) ∧
      (b.status &&& PINNED = 0 →
        a ∈ freeList s ∧ freeList s' = (freeList s).erase a ∧
        (freeList s').length + 1 = (freeList s).length ∧
        (freeList s').Sublist (freeList s)) := by
  obtain ⟨hi, -⟩ := reachable_inv h
  have ha0 : a ≠ 0 := (hi.dir X a hX).1
  have hd : s.heap[a]?.map WriteCacheBuffer.data
      = some (b.fileName, b.pinCount, b.status, b.buffer) := by
    rw [hb]; rfl
  by_cases hp : b.status &&& PINNED = 0
  · obtain ⟨s', h1, h2, -, h4, h5, h6, h7, h8⟩ := pin_hit_unpinned_data hi hX hd hp
    obtain ⟨b', hb', hn, hc, hs, hbuf⟩ := data_transfer_self h8
    simp only at hn hc hs hbuf
    have hc0 : b.pinCount = 0 := hi.count a b ha0 hb hp
    have hmem : a ∈ freeList s := (hi.pinned a b ha0 hb).1 hp
    refine ⟨s', b', by rw [PinFiles_single]; exact h1, hb', ?_, ?_, ?_, hbuf, ?_, hn, h6, h7,
      h4, h5, fun hne => absurd hp hne, fun _ => ⟨hmem, h2.list.freeList_eq, ?_, ?_⟩⟩
    · rw [hc, hc0]; decide
    · intro _; rw [hc, hc0]
    · rw [hs]; exact or_pinned_and_ne _
    · rw [hs, or_pinned_and_dirty]
    · rw [h2.list.freeList_eq, List.length_erase_of_mem hmem]
      have : 0 < (freeList s).length := List.length_pos_of_mem hmem
      omega
    · rw [h2.list.freeList_eq]
      exact List.erase_sublist _ _
  · obtain ⟨s', h1, h2, -, h4, h5, h6, h7, h8⟩ := pin_hit_pinned_data hi hX hd hp
    obtain ⟨b', hb', hn, hc, hs, hbuf⟩ := data_transfer_self h8
    simp only at hn hc hs hbuf
    refine ⟨s', b', by rw [PinFiles_single]; exact h1, hb', hc, ?_, ?_, hbuf, by rw [hs], hn,
      h6, h7, h4, h5, fun _ => h2.list.freeList_eq, fun h0 => absurd h0 hp⟩
    · intro hlt; rw [hc, Nat.mod_eq_of_lt hlt]
    · rw [hs]; exact hp

/-- C16, evaluated on the code: on a fresh cache of capacity one, after
`2 ^ 32 - 1` calls `PinFiles [A]` the entry of `A` has pin count `2 ^ 32 - 1`.
One more call `PinFiles [A]`, a hit, does not raise the count by one: it leaves
the entry `PINNED` with pin count 0, and the call `UnpinFiles [A]` that follows
fails the assertion `pinCount > 0`. -/
theorem C16_pin_hit_wraps_pin_count :
    ∃ s s' b b', run 1 (FileCacheImpl.new 1 1 emptyDisk)
        (List.replicate 4294967295 (Call.PinFiles ["A"])) = Outcome.ok s ∧
      mapFind s.writeCache_ "A" = some 1 ∧ s.heap[1]? = some b ∧
      b.pinCount = 4294967295 ∧
      PinFiles 1 s ["A"] = Outcome.ok s' ∧ s'.heap[1]? = some b' ∧ b'.pinCount = 0 ∧
      b'.status &&& PINNED ≠ 0 ∧ UnpinFiles s' ["A"] = Outcome.aborted := by
  obtain ⟨s, b, l, hrun, hi, hX, hb, hp, hc⟩ := demo_pins 4294967294
  have hd : s.heap[1]?.map WriteCacheBuffer.data
      = some (b.fileName, b.pinCount, b.status, b.buffer) := by
    rw [hb]; rfl
  obtain ⟨s', h1, -, -, h4, -, -, -, h8⟩ := pin_hit_pinned_data hi hX hd hp
  obtain ⟨b', hb', -, hc', hs', -⟩ := data_transfer_self h8
  simp only at hc' hs'
  have hcb : b.pinCount = 4294967295 := by rw [hc]; decide
  have hc0 : b'.pinCount = 0 := by
    rw [hc', hcb]
    decide
  have hp' : b'.status &&& PINNED ≠ 0 := by rw [hs']; exact hp
  refine ⟨s, s', b, b', hrun, hX, hb, hcb, by rw [PinFiles_single]; exact h1, hb', hc0, hp', ?_⟩
  rw [UnpinFiles_single]
  exact unpinFile_underflow (by rw [h4]; exact hX) hb' hp' hc0
/-- C17: in a state reached from a fresh cache, `FileData X` returns and
leaves the state as it is.  `MutableFileData X` returns; when it returns
`NULL` the state is as before; when it returns the buffer at address `a`,
then `a` is the entry of `X`, its status has become `status | DIRTY` with the
`PINNED` bit as before, its pin count, buffer, file name and links are as
before, and every other object, the map, the capacity, the free list with its
size and the file system are as before. -/
theorem C17_view_effects {FS max : Nat} {d : Disk} {cs : List Call}
    {s : FileCacheImpl} (h : run FS (FileCacheImpl.new FS max d) cs = Outcome.ok s)
    (X : String) :
    (∃ v, FileData s X = Outcome.ok v) ∧ step FS s (Call.FileData X) = Outcome.ok s ∧
    ∃ s' v, MutableFileData s X = Outcome.ok (s', v) ∧
      step FS s (Call.MutableFileData X) = Outcome.ok s' ∧
      (v = none → s' = s) ∧
      (∀ a, v = some a → mapFind s.writeCache_ X = some a ∧
        (∃ b b', s.heap[a]? = some b ∧ s'.heap[a]? = some b' ∧
          b'.status = b.status ||| DIRTY ∧ b'.status &&& DIRTY ≠ 0 ∧
          b'.status &&& PINNED = b.status &&& PINNED ∧ b'.pinCount = b.pinCount ∧
          b'.buffer = b.buffer ∧ b'.fileName = b.fileName ∧
          b'.next = b.next ∧ b'.prev = b.prev) ∧
        (∀ i : Nat, i ≠ a → s'.heap[i]? = s.heap[i]?) ∧
        s'.heap.length = s.heap.length ∧
        s'.writeCache_ = s.writeCache_ ∧ s'.max_cache_entries_ = s.max_cache_entries_ ∧
        s'.freeListHead_ = s.freeListHead_ ∧ s'.freeListSize_ = s.freeListSize_ ∧
        freeList s' = freeList s ∧ s'.disk = s.disk) := by
  obtain ⟨hi, -⟩ := reachable_inv h
  cases hf : mapFind s.writeCache_ X with
  | none =>
    have h1 := FileData_absent hf
    have h2 := MutableFileData_absent hf
    refine ⟨⟨none, h1⟩, by simp only [step, h1, Outcome.bind], s, none, h2,
      by simp only [step, h2, Outcome.bind], fun _ => rfl, fun a ha => by cases ha⟩
  | some a =>
    obtain ⟨ha0, b, hb⟩ := hi.dir_get hf
    by_cases hp : b.status &&& PINNED = 0
    · have h1 := FileData_unpinned hf hb hp
      have h2 := MutableFileData_unpinned hf hb hp
      refine ⟨⟨none, h1⟩, by simp only [step, h1, Outcome.bind], s, none, h2,
        by simp only [step, h2, Outcome.bind], fun _ => rfl, fun a ha => by cases ha⟩
    · have h1 := FileData_pinned hf hb hp
      have h2 := MutableFileData_pinned hf hb hp
      have hi2 := MutableFileData_inv hi hf hb
      refine ⟨⟨some a, h1⟩, by simp only [step, h1, Outcome.bind], _, some a, h2,
        by simp only [step, h2, Outcome.bind], (fun hv => by cases hv), ?_⟩
      intro a' ha'
      cases ha'
      refine ⟨rfl, ⟨b, { b with status := b.status ||| DIRTY }, hb, ?_, rfl,
        or_dirty_and_dirty_ne _, or_dirty_and_pinned _, rfl, rfl, rfl, rfl, rfl⟩, ?_,
        by simp, rfl, rfl, rfl, rfl, hi2.list.freeList_eq, rfl⟩
      · simp only
        rw [getElem?_modifyAt_of_get _ hb, if_pos rfl]
      · intro i hne
        simp only
        rw [getElem?_modifyAt_ne _ hne]

/-- C17 on the cache of capacity one in which `A` is pinned: `MutableFileData`
returns the buffer of `A` and sets its dirty bit, returns `NULL` for `B` and
then changes nothing. -/
theorem C17_view_effects_witness :
    run 1 (FileCacheImpl.new 1 1 emptyDisk) [Call.PinFiles ["A"]] = Outcome.ok demoOne ∧
    step 1 demoOne (Call.FileData "A") = Outcome.ok demoOne ∧
    (MutableFileData demoOne "A").bind (fun r => Outcome.ok r.2) = Outcome.ok (some 1) ∧
    MutableFileData demoOne "B" = Outcome.ok (demoOne, none) ∧
    ∃ s' v, MutableFileData demoOne "A" = Outcome.ok (s', v) ∧
      step 1 demoOne (Call.MutableFileData "A") = Outcome.ok s' ∧
      (v = none → s' = demoOne) :=
  have hr : run 1 (FileCacheImpl.new 1 1 emptyDisk) [Call.PinFiles ["A"]]
      = Outcome.ok demoOne := by decide
  ⟨hr, (C17_view_effects hr "A").2.1, by decide, by decide,
   (C17_view_effects hr "A").2.2.imp (fun _ hs => hs.imp (fun _ hv =>
     ⟨hv.1, hv.2.1, hv.2.2.1⟩))⟩

/-! ## The four ways in which a pin returns, the three in which an unpin does -/

/-- How the loop body of `PinFiles` returns: a hit on a pinned entry, a hit on
an unpinned entry, an allocation, or a reclamation.  In each case one object
`a` changes and the data of the others stay. -/
theorem pinFile_cases {FS : Nat} {s s' : FileCacheImpl} {l : List Nat} {f : String}
    (hi : Inv FS s l) (h : pinFile FS s f = Outcome.ok s') :
    ∃ a, a ≠ 0 ∧
      (∀ i : Nat, i ≠ a →
        s'.heap[i]?.map WriteCacheBuffer.data = s.heap[i]?.map WriteCacheBuffer.data) ∧
      ((∃ b, mapFind s.writeCache_ f = some a ∧ s.heap[a]? = some b ∧
          b.status &&& PINNED ≠ 0 ∧ s'.disk = s.disk ∧
          s'.heap[a]?.map WriteCacheBuffer.data =
            some (b.fileName, (b.pinCount + 1) % UINT_MOD, b.status, b.buffer)) ∨
       (∃ b, mapFind s.writeCache_ f = some a ∧ s.heap[a]? = some b ∧
          b.status &&& PINNED = 0 ∧ s'.disk = s.disk ∧
          s'.heap[a]?.map WriteCacheBuffer.data =
            some (b.fileName, 1, b.status ||| PINNED, b.buffer)) ∨
       (mapFind s.writeCache_ f = none ∧ a = s.heap.length ∧
          s'.disk = (WriteCacheBuffer.new FS f s.disk).2 ∧
          s'.heap[a]?.map WriteCacheBuffer.data =
            some (f, 1, (WriteCacheBuffer.new FS f s.disk).1.status ||| PINNED,
              (WriteCacheBuffer.new FS f s.disk).1.buffer)) ∨
       (∃ b, mapFind s.writeCache_ f = none ∧ s.heap[a]? = some b ∧
          b.status &&& PINNED = 0 ∧ s'.disk = (reclaim FS b f s.disk).2 ∧
          s'.heap[a]?.map WriteCacheBuffer.data =
            some (f, 1, (reclaim FS b f s.disk).1.status ||| PINNED,
              (reclaim FS b f s.disk).1.buffer))) := by
  cases hf : mapFind s.writeCache_ f with
  | some a =>
    obtain ⟨ha0, b, hb⟩ := hi.dir_get hf
    have hd : s.heap[a]?.map WriteCacheBuffer.data
        = some (b.fileName, b.pinCount, b.status, b.buffer) := by
      rw [hb]; rfl
    by_cases hp : b.status &&& PINNED = 0
    · obtain ⟨s2, h1, -, -, -, h5, -, h7, h8⟩ := pin_hit_unpinned_data hi hf hd hp
      rw [h1] at h; cases h
      exact ⟨a, ha0, h7, Or.inr (Or.inl ⟨b, rfl, hb, hp, h5, h8⟩)⟩
    · obtain ⟨s2, h1, -, -, -, h5, -, h7, h8⟩ := pin_hit_pinned_data hi hf hd hp
      rw [h1] at h; cases h
      exact ⟨a, ha0, h7, Or.inl ⟨b, rfl, hb, hp, h5, h8⟩⟩
  | none =>
    by_cases hc : s.writeCache_.length < s.max_cache_entries_
    · obtain ⟨s2, h1, -, -, -, h5, -, h7, h8⟩ :=
        pin_alloc_data hi hf hc (pinFile_alloc_of_ok hf hc h)
      rw [h1] at h; cases h
      exact ⟨s.heap.length, Nat.pos_iff_ne_zero.1 hi.list.heap_pos, h7,
        Or.inr (Or.inr (Or.inl ⟨rfl, rfl, h5, h8⟩))⟩
    · by_cases hsz : 0 < s.freeListSize_
      · obtain ⟨x, rest, hl⟩ := hi.size_pos hsz
        rw [hl] at hi
        obtain ⟨hw, ho⟩ := pinFile_evict_of_ok hi hf hc hsz h
        obtain ⟨s2, b, hb, hp, h1, -, -, -, -, h7, h8, h9⟩ := pinFile_evict hi hf hc hsz hw ho
        rw [h1] at h; cases h
        exact ⟨x, hi.list.mem_ne_zero (by simp), h7,
          Or.inr (Or.inr (Or.inr ⟨b, rfl, hb, hp, h8, h9⟩))⟩
      · rw [pinFile_blocked hf hc (by omega)] at h
        cases h

/-- How the loop body of `UnpinFiles` returns: without effect, or with the pin
count of a pinned entry lowered by one, the `PINNED` bit being cleared when
the count reaches zero. -/
theorem unpinFile_cases {FS : Nat} {s s' : FileCacheImpl} {l : List Nat} {f : String}
    (hi : Inv FS s l) (h : unpinFile s f = Outcome.ok s') :
    s' = s ∨
    ∃ a b, a ≠ 0 ∧ mapFind s.writeCache_ f = some a ∧ s.heap[a]? = some b ∧
      b.status &&& PINNED ≠ 0 ∧ 0 < b.pinCount ∧ s'.disk = s.disk ∧
      (∀ i : Nat, i ≠ a →
        s'.heap[i]?.map WriteCacheBuffer.data = s.heap[i]?.map WriteCacheBuffer.data) ∧
      s'.heap[a]?.map WriteCacheBuffer.data =
        some (b.fileName, b.pinCount - 1,
          if b.pinCount = 1 then b.status &&& bitNot PINNED else b.status, b.buffer) := by
  cases hf : mapFind s.writeCache_ f with
  | none =>
    rw [unpinFile_absent hf] at h; cases h
    exact Or.inl rfl
  | some a =>
    obtain ⟨ha0, b, hb⟩ := hi.dir_get hf
    by_cases hp : b.status &&& PINNED = 0
    · rw [unpinFile_unpinned hf hb hp] at h; cases h
      exact Or.inl rfl
    · rcases Nat.lt_trichotomy b.pinCount 1 with hc | hc | hc
      · rw [unpinFile_underflow hf hb hp (by omega)] at h
        cases h
      · obtain ⟨s2, h1, -, -, -, h5, -, h7, h8⟩ := unpinFile_last hi hf hb hp hc
        rw [h1] at h; cases h
        refine Or.inr ⟨a, b, ha0, rfl, hb, hp, by omega, h5, h7, ?_⟩
        rw [h8, hc]
        rfl
      · obtain ⟨h1, -⟩ := unpinFile_more hi hf hb hp hc
        rw [h1] at h; cases h
        refine Or.inr ⟨a, b, ha0, rfl, hb, hp, by omega, rfl, ?_, ?_⟩
        · intro i hne
          simp only
          rw [getElem?_modifyAt_ne _ hne]
        · simp only
          rw [getElem?_modifyAt_of_get _ hb, if_pos rfl, if_neg (by omega)]
          rfl

/-- The loop body of `UnpinFiles` returns unless it meets a pinned entry whose
pin count is zero. -/
theorem unpinFile_returns {FS : Nat} {s : FileCacheImpl} {l : List Nat} {f : String}
    (hi : Inv FS s l)
    (hc : ∀ a b, mapFind s.writeCache_ f = some a → s.heap[a]? = some b →
      b.status &&& PINNED ≠ 0 → 0 < b.pinCount) :
    ∃ s', unpinFile s f = Outcome.ok s' := by
  cases hf : mapFind s.writeCache_ f with
  | none => exact ⟨s, unpinFile_absent hf⟩
  | some a =>
    obtain ⟨ha0, b, hb⟩ := hi.dir_get hf
    by_cases hp : b.status &&& PINNED = 0
    · exact ⟨s, unpinFile_unpinned hf hb hp⟩
    · have hpos := hc a b hf hb hp
      rcases Nat.lt_or_ge 1 b.pinCount with h1 | h1
      · exact ⟨_, (unpinFile_more hi hf hb hp h1).1⟩
      · obtain ⟨s', h2, -⟩ := unpinFile_last hi hf hb hp (by omega)
        exact ⟨s', h2⟩

/-! ## Pin counts that do not wrap -/

theorem Counted.fresh (FS max : Nat) (d : Disk) : Counted (FileCacheImpl.new FS max d) 0 := by
  intro a b ha hb
  have hlen := new_heap_length FS max d
  rw [List.getElem?_eq_none (by rw [hlen]; omega)] at hb
  cases hb

theorem Counted.mono {s : FileCacheImpl} {n m : Nat} (hc : Counted s n) (hnm : n ≤ m) :
    Counted s m :=
  fun a b ha hb => ⟨le_trans (hc a b ha hb).1 hnm, (hc a b ha hb).2⟩

/-- An object whose data did not change keeps what `Counted` says about it. -/
theorem Counted.frame {s s' : FileCacheImpl} {n : Nat} (hc : Counted s n) {i : Nat}
    {b' : WriteCacheBuffer} (hi0 : i ≠ 0)
    (hd : s'.heap[i]?.map WriteCacheBuffer.data = s.heap[i]?.map WriteCacheBuffer.data)
    (hb' : s'.heap[i]? = some b') :
    b'.pinCount ≤ n ∧ (b'.status &&& PINNED ≠ 0 → 0 < b'.pinCount) := by
  obtain ⟨b, hb, -, h2, h3, -⟩ := data_transfer hd.symm hb'
  have := hc i b hi0 hb
  rw [h2, h3] at this
  exact this

/-- What `Counted` needs of the one object that changed. -/
theorem Counted.by_frame {s s' : FileCacheImpl} {n m : Nat} {a : Nat} (hc : Counted s n)
    (hnm : n ≤ m)
    (hfr : ∀ i : Nat, i ≠ a →
      s'.heap[i]?.map WriteCacheBuffer.data = s.heap[i]?.map WriteCacheBuffer.data)
    (hself : ∀ b', s'.heap[a]? = some b' →
      b'.pinCount ≤ m ∧ (b'.status &&& PINNED ≠ 0 → 0 < b'.pinCount)) :
    Counted s' m := by
  intro i b' hi0 hb'
  by_cases hia : i = a
  · subst hia
    exact hself b' hb'
  · have := hc.frame hi0 (hfr i hia) hb'
    exact ⟨le_trans this.1 hnm, this.2⟩

theorem self_of_data {h : List WriteCacheBuffer} {a : Nat} {b' : WriteCacheBuffer}
    {d : String × Nat × Nat × List Byte}
    (hd : h[a]?.map WriteCacheBuffer.data = some d) (hb' : h[a]? = some b') :
    b'.fileName = d.1 ∧ b'.pinCount = d.2.1 ∧ b'.status = d.2.2.1 ∧ b'.buffer = d.2.2.2 := by
  obtain ⟨b2, hb2, h1, h2, h3, h4⟩ := data_transfer_self hd
  rw [hb'] at hb2
  cases hb2
  exact ⟨h1, h2, h3, h4⟩

theorem Counted.pinFile_step {FS : Nat} {s s' : FileCacheImpl} {l : List Nat} {f : String} {n : Nat}
    (hi : Inv FS s l) (hc : Counted s n) (hn : n + 1 < UINT_MOD)
    (h : pinFile FS s f = Outcome.ok s') : Counted s' (n + 1) := by
  obtain ⟨a, ha0, hfr, hcase⟩ := pinFile_cases hi h
  refine hc.by_frame (Nat.le_succ n) hfr ?_
  intro b' hb'
  rcases hcase with ⟨b, -, hb, -, -, hd⟩ | ⟨b, -, -, -, -, hd⟩ | ⟨-, -, -, hd⟩ |
    ⟨b, -, -, -, -, hd⟩
  · obtain ⟨-, h2, -, -⟩ := self_of_data hd hb'
    simp only at h2
    have hle := (hc a b ha0 hb).1
    rw [h2, Nat.mod_eq_of_lt (by omega)]
    exact ⟨by omega, fun _ => by omega⟩
  · obtain ⟨-, h2, -, -⟩ := self_of_data hd hb'
    simp only at h2
    rw [h2]
    exact ⟨by omega, fun _ => by omega⟩
  · obtain ⟨-, h2, -, -⟩ := self_of_data hd hb'
    simp only at h2
    rw [h2]
    exact ⟨by omega, fun _ => by omega⟩
  · obtain ⟨-, h2, -, -⟩ := self_of_data hd hb'
    simp only at h2
    rw [h2]
    exact ⟨by omega, fun _ => by omega⟩

theorem Counted.unpinFile_step {FS : Nat} {s s' : FileCacheImpl} {l : List Nat} {f : String}
    {n : Nat} (hi : Inv FS s l) (hc : Counted s n) (h : unpinFile s f = Outcome.ok s') :
    Counted s' n := by
  rcases unpinFile_cases hi h with rfl | ⟨a, b, ha0, -, hb, hp, hpos, -, hfr, hd⟩
  · exact hc
  · refine hc.by_frame (le_refl n) hfr ?_
    intro b' hb'
    obtain ⟨-, h2, h3, -⟩ := self_of_data hd hb'
    simp only at h2 h3
    have hle := (hc a b ha0 hb).1
    refine ⟨by rw [h2]; omega, ?_⟩
    intro hp'
    by_cases h1 : b.pinCount = 1
    · rw [h3, if_pos h1, and_not_pinned_and] at hp'
      exact absurd rfl hp'
    · rw [h2]; omega

theorem Counted.PinFiles_call {FS : Nat} (v : List String) :
    ∀ {s s' : FileCacheImpl} {l : List Nat} {n : Nat}, Inv FS s l → Counted s n →
      n + v.length < UINT_MOD → PinFiles FS s v = Outcome.ok s' →
      Counted s' (n + v.length) := by
  induction v with
  | nil =>
    intro s s' l n _ hc _ h
    simp only [PinFiles, Outcome.ok.injEq] at h
    subst h
    exact hc
  | cons f rest ih =>
    intro s s' l n hi hc hn h
    simp only [PinFiles] at h
    obtain ⟨s1, h1, h2⟩ := Outcome.bind_eq_ok.1 h
    obtain ⟨l1, hi1, -⟩ := pinFile_inv hi h1
    simp only [List.length_cons] at hn ⊢
    have hc1 := hc.pinFile_step hi (by omega) h1
    have := ih hi1 hc1 (by omega) h2
    rw [show n + (rest.length + 1) = n + 1 + rest.length by omega]
    exact this

theorem Counted.UnpinFiles_call {FS : Nat} (v : List String) :
    ∀ {s s' : FileCacheImpl} {l : List Nat} {n : Nat}, Inv FS s l → Counted s n →
      UnpinFiles s v = Outcome.ok s' → Counted s' n := by
  induction v with
  | nil =>
    intro s s' l n _ hc h
    simp only [UnpinFiles, Outcome.ok.injEq] at h
    subst h
    exact hc
  | cons f rest ih =>
    intro s s' l n hi hc h
    simp only [UnpinFiles] at h
    obtain ⟨s1, h1, h2⟩ := Outcome.bind_eq_ok.1 h
    obtain ⟨l1, hi1, -⟩ := unpinFile_inv hi h1
    exact ih hi1 (hc.unpinFile_step hi h1) h2

/-- Setting the dirty bit, and overwriting the buffer, keep `Counted`. -/
theorem Counted.modify {s : FileCacheImpl} {n : Nat} {a : Nat}
    (g : WriteCacheBuffer → WriteCacheBuffer) (hc : Counted s n)
    (h1 : ∀ b, (g b).pinCount = b.pinCount)
    (h2 : ∀ b, (g b).status &&& PINNED = b.status &&& PINNED) :
    Counted { s with heap := modifyAt s.heap a g } n := by
  intro i b' hi0 hb'
  simp only [getElem?_modifyAt] at hb'
  split at hb'
  · cases hs : s.heap[i]? with
    | none => rw [hs] at hb'; cases hb'
    | some b =>
      rw [hs] at hb'
      simp only [Option.map_some', Option.some.injEq] at hb'
      subst hb'
      rw [h1, h2]
      exact hc i b hi0 hs
  · exact hc i b' hi0 hb'

theorem pinNames_cons (c : Call) (cs : List Call) :
    pinNames (c :: cs) = pinNames [c] + pinNames cs := by
  cases c <;> simp [pinNames]

theorem pinNames_append (cs ds : List Call) :
    pinNames (cs ++ ds) = pinNames cs + pinNames ds := by
  induction cs with
  | nil => simp [pinNames]
  | cons c rest ih =>
    rw [List.cons_append, pinNames_cons, ih, pinNames_cons c rest, Nat.add_assoc]

theorem FileData_returns {FS : Nat} {s : FileCacheImpl} {l : List Nat} (hi : Inv FS s l)
    (X : String) : ∃ v, FileData s X = Outcome.ok v := by
  cases hf : mapFind s.writeCache_ X with
  | none => exact ⟨none, FileData_absent hf⟩
  | some a =>
    obtain ⟨-, b, hb⟩ := hi.dir_get hf
    by_cases hp : b.status &&& PINNED = 0
    · exact ⟨none, FileData_unpinned hf hb hp⟩
    · exact ⟨some a, FileData_pinned hf hb hp⟩

/-- The state after `MutableFileData`: the one before, or the one before with
the dirty bit of one buffer set. -/
theorem MutableFileData_cases {FS : Nat} {s : FileCacheImpl} {l : List Nat} (hi : Inv FS s l)
    (X : String) :
    MutableFileData s X = Outcome.ok (s, none) ∨
    ∃ a b, mapFind s.writeCache_ X = some a ∧ s.heap[a]? = some b ∧
      b.status &&& PINNED ≠ 0 ∧
      MutableFileData s X = Outcome.ok
        ({ s with heap := modifyAt s.heap a (fun b => { b with status := b.status ||| DIRTY }) },
          some a) := by
  cases hf : mapFind s.writeCache_ X with
  | none => exact Or.inl (MutableFileData_absent hf)
  | some a =>
    obtain ⟨-, b, hb⟩ := hi.dir_get hf
    by_cases hp : b.status &&& PINNED = 0
    · exact Or.inl (MutableFileData_unpinned hf hb hp)
    · exact Or.inr ⟨a, b, rfl, hb, hp, MutableFileData_pinned hf hb hp⟩

/-- The state after a write through the view of `X` that returned. -/
theorem writeThrough_cases {FS : Nat} {s s' : FileCacheImpl} {l : List Nat} {X : String}
    {w : List Byte} (hi : Inv FS s l) (h : writeThrough FS s X w = Outcome.ok s') :
    ∃ a b, mapFind s.writeCache_ X = some a ∧ s.heap[a]? = some b ∧
      b.status &&& PINNED ≠ 0 ∧ w.length ≤ FS ∧
      s' = { s with
        heap := modifyAt s.heap a (fun b =>
          { b with status := b.status ||| DIRTY, buffer := w ++ b.buffer.drop w.length }) } := by
  cases hf : mapFind s.writeCache_ X with
  | none =>
    simp [writeThrough, MutableFileData_absent hf, Outcome.ofOption] at h
  | some a =>
    obtain ⟨-, b, hb⟩ := hi.dir_get hf
    by_cases hp : b.status &&& PINNED = 0
    · simp [writeThrough, MutableFileData_unpinned hf hb hp, Outcome.ofOption] at h
    · by_cases hw : w.length ≤ FS
      · rw [writeThrough_pinned hf hb hp hw] at h
        cases h
        exact ⟨a, b, rfl, hb, hp, hw, rfl⟩
      · have hal : a < s.heap.length := (List.getElem?_eq_some.1 hb).1
        simp [writeThrough, MutableFileData_pinned hf hb hp, Outcome.ofOption, hw] at h

theorem Counted.call {FS : Nat} {s s' : FileCacheImpl} {l : List Nat} {c : Call} {n : Nat}
    (hi : Inv FS s l) (hc : Counted s n) (hn : n + pinNames [c] < UINT_MOD)
    (h : step FS s c = Outcome.ok s') : Counted s' (n + pinNames [c]) := by
  cases c with
  | PinFiles v =>
    simp only [pinNames, Nat.add_zero] at hn ⊢
    exact Counted.PinFiles_call v hi hc hn h
  | UnpinFiles v =>
    exact Counted.UnpinFiles_call v hi hc h
  | FileData X =>
    simp only [step] at h
    obtain ⟨_, _, h2⟩ := Outcome.bind_eq_ok.1 h
    cases h2
    exact hc
  | MutableFileData X =>
    simp only [step] at h
    obtain ⟨r, h1, h2⟩ := Outcome.bind_eq_ok.1 h
    cases h2
    rcases MutableFileData_cases hi X with h3 | ⟨a, b, -, -, -, h3⟩
    · rw [h3] at h1; cases h1
      exact hc
    · rw [h3] at h1; cases h1
      exact Counted.modify _ hc (fun _ => rfl) (fun _ => or_dirty_and_pinned _)
  | write X w =>
    obtain ⟨a, b, -, -, -, -, rfl⟩ := writeThrough_cases hi h
    exact Counted.modify _ hc (fun _ => rfl) (fun _ => or_dirty_and_pinned _)

theorem Counted.calls {FS : Nat} (cs : List Call) :
    ∀ {s s' : FileCacheImpl} {l : List Nat} {n : Nat}, Inv FS s l → Counted s n →
      n + pinNames cs < UINT_MOD → run FS s cs = Outcome.ok s' →
      Counted s' (n + pinNames cs) := by
  induction cs with
  | nil =>
    intro s s' l n _ hc _ h
    simp only [run, Outcome.ok.injEq] at h
    subst h
    exact hc
  | cons c rest ih =>
    intro s s' l n hi hc hn h
    rw [run_cons] at h
    obtain ⟨s1, h1, h2⟩ := Outcome.bind_eq_ok.1 h
    obtain ⟨l1, hi1, -⟩ := step_inv hi h1
    rw [pinNames_cons] at hn ⊢
    have hc1 := hc.call hi (by omega) h1
    have := ih hi1 hc1 (by omega) h2
    rw [← Nat.add_assoc]
    exact this

/-- In a state reached by calls that passed fewer than `2 ^ 32` names to
`PinFiles`, a pinned buffer has a positive pin count. -/
theorem reachable_counted {FS max : Nat} {d : Disk} {cs : List Call} {s : FileCacheImpl}
    (h : run FS (FileCacheImpl.new FS max d) cs = Outcome.ok s)
    (hn : pinNames cs < UINT_MOD) : Counted s (pinNames cs) := by
  have := Counted.calls cs (Inv.init FS max d) (Counted.fresh FS max d) (by omega) h
  rw [Nat.zero_add] at this
  exact this

theorem PinFiles_not_aborted {FS : Nat} (v : List String) :
    ∀ {s : FileCacheImpl} {l : List Nat}, Inv FS s l → s.refused = [] →
      PinFiles FS s v ≠ Outcome.aborted := by
  induction v with
  | nil =>
    intro s l _ _ h
    simp [PinFiles] at h
  | cons f rest ih =>
    intro s l hi hr h
    simp only [PinFiles] at h
    rcases pinFile_ok_or_blocked hi hr f with hb | ⟨s1, h1⟩
    · rw [hb] at h
      cases h
    · rw [h1] at h
      obtain ⟨l1, hi1, -⟩ := pinFile_inv hi h1
      exact ih hi1 ((pinFile_refused h1).trans hr) h

theorem UnpinFiles_returns {FS : Nat} (v : List String) :
    ∀ {s : FileCacheImpl} {l : List Nat} {n : Nat}, Inv FS s l → Counted s n →
      ∃ s', UnpinFiles s v = Outcome.ok s' := by
  induction v with
  | nil =>
    intro s l n _ _
    exact ⟨s, rfl⟩
  | cons f rest ih =>
    intro s l n hi hc
    obtain ⟨s1, h1⟩ := unpinFile_returns hi
      (fun a b hf hb hp => (hc a b (hi.dir f a hf).1 hb).2 hp)
    obtain ⟨l1, hi1, -⟩ := unpinFile_inv hi h1
    obtain ⟨s2, h2⟩ := ih hi1 (hc.unpinFile_step hi h1)
    refine ⟨s2, ?_⟩
    simp only [UnpinFiles, h1]
    exact h2

/-- The `PINNED` bit and the pin count, up to the wrap of the count: in a state
reached from a fresh cache, for every entry the map refers to, a clear `PINNED` bit implies
`pinCount = 0`, and every entry linked in the free list has `pinCount = 0`.  If
the calls that led to the state passed fewer than `2 ^ 32` names to `PinFiles`,
the `PINNED` bit is set exactly when `pinCount > 0`. -/
theorem pinned_flag_and_count {FS max : Nat} {d : Disk} {cs : List Call}
    {s : FileCacheImpl} (h : run FS (FileCacheImpl.new FS max d) cs = Outcome.ok s) :
    (∀ k a b, mapFind s.writeCache_ k = some a → s.heap[a]? = some b →
      b.status &&& PINNED = 0 → b.pinCount = 0) ∧
    (∀ a ∈ freeList s, ∃ b, s.heap[a]? = some b ∧ b.status &&& PINNED = 0 ∧ b.pinCount = 0) ∧
    (pinNames cs < UINT_MOD →
      ∀ k a b, mapFind s.writeCache_ k = some a → s.heap[a]? = some b →
        (b.status &&& PINNED ≠ 0 ↔ 0 < b.pinCount)) := by
  obtain ⟨hi, -⟩ := reachable_inv h
  refine ⟨fun k a b hk hb hp => hi.count a b (hi.dir k a hk).1 hb hp, ?_, ?_⟩
  · intro a ha
    have ha0 : a ≠ 0 := hi.list.mem_ne_zero ha
    have hlt := hi.list.bound a ha
    have hb : s.heap[a]? = some (s.heap.get ⟨a, hlt⟩) := by
      simp [List.getElem?_eq_getElem hlt]
    have hp := (hi.pinned a _ ha0 hb).2 ha
    exact ⟨_, hb, hp, hi.count a _ ha0 hb hp⟩
  · intro hn k a b hk hb
    have ha0 := (hi.dir k a hk).1
    have hc := reachable_counted h hn
    constructor
    · exact (hc a b ha0 hb).2
    · intro hpos hp
      have := hi.count a b ha0 hb (by simpa using hp)
      omega

/-- C18, evaluated on the code: on a fresh cache of capacity one, `2 ^ 32`
calls `PinFiles [A]` return and leave the entry that the map gives for `A` with
the `PINNED` bit set and `pinCount = 0`, so that the bit is not set exactly when
the count is positive. -/
theorem C18_pinned_with_zero_count :
    ∃ s b, run 1 (FileCacheImpl.new 1 1 emptyDisk)
        (List.replicate 4294967296 (Call.PinFiles ["A"])) = Outcome.ok s ∧
      mapFind s.writeCache_ "A" = some 1 ∧ s.heap[1]? = some b ∧
      b.status &&& PINNED ≠ 0 ∧ b.pinCount = 0 ∧
      ¬ (b.status &&& PINNED ≠ 0 ↔ 0 < b.pinCount) := by
  obtain ⟨s, b, l, hrun, -, hX, hb, hp, hc⟩ := demo_pins 4294967295
  have hc0 : b.pinCount = 0 := by rw [hc]; decide
  refine ⟨s, b, hrun, hX, hb, hp, hc0, ?_⟩
  intro hiff
  have := hiff.1 hp
  omega
/-- An entry of the free list has both links set. -/
theorem ListInv.links_of_mem {s : FileCacheImpl} {l : List Nat} {x : Nat} {b : WriteCacheBuffer}
    (hi : ListInv s l) (hx : x ∈ l) (hb : s.heap[x]? = some b) :
    b.next ≠ none ∧ b.prev ≠ none := by
  obtain ⟨p, n, hn, hp, -⟩ := ring_unlink hi.ring hi.nodup hx
  rw [nextOf_of_get hb] at hn
  rw [prevOf_of_get hb] at hp
  rw [hn, hp]
  exact ⟨by simp, by simp⟩

/-- The state assertions other than the one on the pin count, on a file system
that opens every stream: in a state reached from a fresh
cache no call of `PinFiles`, `FileData` or `MutableFileData` fails an
assertion.  On a miss at capacity with `freeListSize_ > 0` the link of the
sentinel leads to an entry other than the sentinel, which is linked and not
`PINNED`; an unpinned entry of the map has both links set and lies on the free
list; with a capacity below `2 ^ 32`, `freeListSize_` is the length of the free
list.  If the calls that led to the state passed fewer than `2 ^ 32` names to
`PinFiles`, every entry that is `PINNED` has `pinCount > 0` and every call of
`UnpinFiles` returns. -/
theorem state_assertions_hold {FS max : Nat} {d : Disk} {cs : List Call}
    {s : FileCacheImpl} (h : run FS (FileCacheImpl.new FS max d) cs = Outcome.ok s) :
    (∀ v, PinFiles FS s v ≠ Outcome.aborted) ∧
    (∀ X, (∃ v, FileData s X = Outcome.ok v) ∧ ∃ r, MutableFileData s X = Outcome.ok r) ∧
    (∀ X, mapFind s.writeCache_ X = none → ¬ s.writeCache_.length < max →
      0 < s.freeListSize_ →
      ∃ x rest b, freeList s = x :: rest ∧ nextOf s.heap s.freeListHead_ = some x ∧
        x ≠ s.freeListHead_ ∧ s.heap[x]? = some b ∧ b.status &&& PINNED = 0 ∧
        b.next ≠ none ∧ b.prev ≠ none) ∧
    (∀ X a b, mapFind s.writeCache_ X = some a → s.heap[a]? = some b →
      b.status &&& PINNED = 0 → b.next ≠ none ∧ b.prev ≠ none ∧ a ∈ freeList s) ∧
    (max < UINT_MOD → s.freeListSize_ = (freeList s).length) ∧
    (pinNames cs < UINT_MOD →
      (∀ X a b, mapFind s.writeCache_ X = some a → s.heap[a]? = some b →
        b.status &&& PINNED ≠ 0 → 0 < b.pinCount) ∧
      ∀ v, ∃ s', UnpinFiles s v = Outcome.ok s') := by
  obtain ⟨hi, hm⟩ := reachable_inv h
  refine ⟨fun v => PinFiles_not_aborted v hi (reachable_refused h), fun X => ⟨FileData_returns hi X, ?_⟩, ?_, ?_, ?_,
    ?_⟩
  · rcases MutableFileData_cases hi X with h1 | ⟨_, _, -, -, -, h1⟩
    · exact ⟨_, h1⟩
    · exact ⟨_, h1⟩
  · intro X _ _ hsz
    obtain ⟨x, rest, hl⟩ := hi.size_pos hsz
    have hx : x ∈ freeList s := by rw [hl]; simp
    have hx0 : x ≠ 0 := hi.list.mem_ne_zero hx
    have hlt := hi.list.bound x hx
    have hb : s.heap[x]? = some (s.heap.get ⟨x, hlt⟩) := by
      simp [List.getElem?_eq_getElem hlt]
    have hring := hi.list.ring
    rw [hl] at hring
    have hlinks := hi.list.links_of_mem hx hb
    refine ⟨x, rest, _, hl, ?_, ?_, hb, (hi.pinned x _ hx0 hb).2 hx, hlinks.1, hlinks.2⟩
    · rw [hi.list.head]
      exact (ring_head hring).1
    · rw [hi.list.head]
      exact hx0
  · intro X a b hX hb hp
    have ha : a ∈ freeList s := (hi.pinned a b (hi.dir X a hX).1 hb).1 hp
    have hlinks := hi.list.links_of_mem ha hb
    exact ⟨hlinks.1, hlinks.2, ha⟩
  · intro hmax
    have h1 := hi.list.size
    have h2 := hi.list.length_lt
    have h3 := hi.cap
    rw [h1, Nat.mod_eq_of_lt (by omega)]
  · intro hn
    have hc := reachable_counted h hn
    exact ⟨fun X a b hX hb hp => (hc a b (hi.dir X a hX).1 hb).2 hp,
      fun v => UnpinFiles_returns v hi hc⟩

/-- C19, evaluated on the code: on a fresh cache of capacity one, `2 ^ 32`
calls `PinFiles [A]` return, and the call `UnpinFiles [A]` that follows finds
the entry `PINNED` with pin count 0 and fails the assertion `pinCount > 0`. -/
theorem C19_unpin_assertion_fails :
    (∃ s, run 1 (FileCacheImpl.new 1 1 emptyDisk)
        (List.replicate 4294967296 (Call.PinFiles ["A"])) = Outcome.ok s ∧
      UnpinFiles s ["A"] = Outcome.aborted) ∧
    run 1 (FileCacheImpl.new 1 1 emptyDisk)
      (List.replicate 4294967296 (Call.PinFiles ["A"]) ++ [Call.UnpinFiles ["A"]])
      = Outcome.aborted := by
  obtain ⟨s, b, l, hrun, -, hX, hb, hp, hc⟩ := demo_pins 4294967295
  have hc0 : b.pinCount = 0 := by rw [hc]; decide
  have hu : UnpinFiles s ["A"] = Outcome.aborted := by
    rw [UnpinFiles_single, unpinFile_underflow hX hb hp hc0]
  refine ⟨⟨s, hrun, hu⟩, ?_⟩
  rw [run_append, hrun, Outcome.ok_bind, run_cons]
  simp only [step, hu]
  rfl

/-! ## Clean buffers and their files -/

theorem initialize_read_some (FS : Nat) (b : WriteCacheBuffer) (d : Disk) (c : List Byte)
    (hc : d.read b.fileName = some c) (n : String) :
    ( WriteCacheBuffer.loaded FS b d).2.read n = d.read n := by
  unfold WriteCacheBuffer.loaded
  rw [hc]
  rfl

theorem reclaim_read_self (FS : Nat) (b : WriteCacheBuffer) (f : String) (d : Disk)
    (c : List Byte) (hf : f ≠ b.fileName) (hc : d.read f = some c) :
    (reclaim FS b f d).2.read f = some c := by
  have h1 := persistIfDirty_read_ne FS b d f hf
  unfold reclaim WriteCacheBuffer.reloaded
  rw [initialize_read_some FS _ _ c (by simpa [h1] using hc), h1, hc]

theorem new_read_self (FS : Nat) (f : String) (d : Disk) (c : List Byte)
    (hc : d.read f = some c) : ( WriteCacheBuffer.new FS f d).2.read f = some c := by
  unfold WriteCacheBuffer.new
  split
  · rw [initialize_read_some FS _ _ c (by simpa using hc), hc]
  · exact hc

theorem Mirror.start (FS max : Nat) (d : Disk) : Mirror FS (FileCacheImpl.new FS max d) := by
  intro a b ha hb
  have hlen := new_heap_length FS max d
  rw [List.getElem?_eq_none (by rw [hlen]; omega)] at hb
  cases hb

/-- The invariant `Mirror` after a step that changed one object `a`: the files
of the other objects must be as before, and `a` must satisfy it anew. -/
theorem Mirror.of_frame {FS : Nat} {s s' : FileCacheImpl} {a : Nat} (hm : Mirror FS s)
    (hfr : ∀ i : Nat, i ≠ a →
      s'.heap[i]?.map WriteCacheBuffer.data = s.heap[i]?.map WriteCacheBuffer.data)
    (hdisk : ∀ i b, i ≠ 0 → i ≠ a → s.heap[i]? = some b →
      s'.disk.read b.fileName = s.disk.read b.fileName)
    (hself : ∀ b', s'.heap[a]? = some b' → b'.fileName ≠ "dummy" → b'.status &&& DIRTY = 0 →
      ∃ c, s'.disk.read b'.fileName = some c ∧ b'.buffer = zeroPad FS c) :
    Mirror FS s' := by
  intro i b' hi0 hb' hn hc
  by_cases hia : i = a
  · subst hia
    exact hself b' hb' hn hc
  · obtain ⟨b, hb, h1, -, h3, h4⟩ := data_transfer (hfr i hia).symm hb'
    obtain ⟨c, hc1, hc2⟩ := hm i b hi0 hb (by rw [h1]; exact hn) (by rw [h3]; exact hc)
    refine ⟨c, ?_, by rw [← h4]; exact hc2⟩
    rw [← h1, hdisk i b hi0 hia hb]
    exact hc1

theorem Mirror.of_pinFile {FS : Nat} {s s' : FileCacheImpl} {l : List Nat} {f : String}
    (hi : Inv FS s l) (hm : Mirror FS s) (h : pinFile FS s f = Outcome.ok s') :
    Mirror FS s' := by
  obtain ⟨a, ha0, hfr, hcase⟩ := pinFile_cases hi h
  rcases hcase with ⟨b, -, hb, -, hdk, hd⟩ | ⟨b, -, hb, -, hdk, hd⟩ | ⟨hf, hal, hdk, hd⟩ |
    ⟨b, hf, hb, -, hdk, hd⟩
  · refine hm.of_frame hfr (fun _ _ _ _ _ => by rw [hdk]) ?_
    intro b' hb' hn hc
    obtain ⟨h1, -, h3, h4⟩ := self_of_data hd hb'
    simp only at h1 h3 h4
    rw [hdk, h1, h4]
    exact hm a b ha0 hb (by rw [← h1]; exact hn) (by rw [← h3]; exact hc)
  · refine hm.of_frame hfr (fun _ _ _ _ _ => by rw [hdk]) ?_
    intro b' hb' hn hc
    obtain ⟨h1, -, h3, h4⟩ := self_of_data hd hb'
    simp only at h1 h3 h4
    rw [hdk, h1, h4]
    refine hm a b ha0 hb (by rw [← h1]; exact hn) ?_
    rw [h3, or_pinned_and_dirty] at hc
    exact hc
  · refine hm.of_frame hfr ?_ ?_
    · intro i b hi0 _ hb
      rw [hdk]
      apply new_read_ne
      intro hnf
      have := hi.named i b hi0 hb
      rw [hnf, hf] at this
      cases this
    · intro b' hb' hn hc
      obtain ⟨h1, -, h3, h4⟩ := self_of_data hd hb'
      simp only at h1 h3 h4
      rw [h1] at hn ⊢
      obtain ⟨hst, hbuf⟩ := new_loaded FS f s.disk hn
      rw [h3, hst] at hc
      have hsome := (loadedStatus_dirty _).1 hc
      obtain ⟨c, hc'⟩ := Option.ne_none_iff_exists'.1 hsome
      refine ⟨c, by rw [hdk]; exact new_read_self FS f s.disk c hc', ?_⟩
      rw [h4, hbuf, hc', loadedBuffer_some]
  · have hfb : f ≠ b.fileName := by
      intro hnf
      have := hi.named a b ha0 hb
      rw [← hnf, hf] at this
      cases this
    refine hm.of_frame hfr ?_ ?_
    · intro i c hi0 hia hc
      rw [hdk]
      apply reclaim_read_ne
      · intro hn
        exact hia (hi.name_inj hi0 ha0 hc hb hn)
      · intro hnf
        have := hi.named i c hi0 hc
        rw [hnf, hf] at this
        cases this
    · intro b' hb' hn hc
      obtain ⟨h1, -, h3, h4⟩ := self_of_data hd hb'
      simp only at h1 h3 h4
      rw [h1]
      obtain ⟨hst, hbuf⟩ := reclaim_loaded FS b f s.disk hfb
      rw [h3, hst] at hc
      have hsome := (loadedStatus_dirty _).1 hc
      obtain ⟨c, hc'⟩ := Option.ne_none_iff_exists'.1 hsome
      refine ⟨c, by rw [hdk]; exact reclaim_read_self FS b f s.disk c hfb hc', ?_⟩
      rw [h4, hbuf, hc', loadedBuffer_some]

theorem Mirror.of_unpinFile {FS : Nat} {s s' : FileCacheImpl} {l : List Nat} {f : String}
    (hi : Inv FS s l) (hm : Mirror FS s) (h : unpinFile s f = Outcome.ok s') :
    Mirror FS s' := by
  rcases unpinFile_cases hi h with rfl | ⟨a, b, ha0, -, hb, -, -, hdk, hfr, hd⟩
  · exact hm
  · refine hm.of_frame hfr (fun _ _ _ _ _ => by rw [hdk]) ?_
    intro b' hb' hn hc
    obtain ⟨h1, -, h3, h4⟩ := self_of_data hd hb'
    simp only at h1 h3 h4
    rw [hdk, h1, h4]
    refine hm a b ha0 hb (by rw [← h1]; exact hn) ?_
    rw [h3] at hc
    split at hc
    · rw [and_not_pinned_and_dirty] at hc
      exact hc
    · exact hc

/-- Setting the dirty bit of a buffer, with or without a change of its bytes,
keeps `Mirror`. -/
theorem Mirror.modify_dirty {FS : Nat} {s : FileCacheImpl} {a : Nat}
    (g : WriteCacheBuffer → WriteCacheBuffer) (hm : Mirror FS s)
    (hg : ∀ b, (g b).status &&& DIRTY ≠ 0) :
    Mirror FS { s with heap := modifyAt s.heap a g } := by
  intro i b' hi0 hb' hn hc
  simp only [getElem?_modifyAt] at hb'
  split at hb'
  · cases hs : s.heap[i]? with
    | none => rw [hs] at hb'; cases hb'
    | some b =>
      rw [hs] at hb'
      simp only [Option.map_some', Option.some.injEq] at hb'
      subst hb'
      exact absurd hc (hg b)
  · exact hm i b' hi0 hb' hn hc

theorem Mirror.of_PinFiles {FS : Nat} (v : List String) :
    ∀ {s s' : FileCacheImpl} {l : List Nat}, Inv FS s l → Mirror FS s →
      PinFiles FS s v = Outcome.ok s' → Mirror FS s' := by
  induction v with
  | nil =>
    intro s s' l _ hm h
    simp only [PinFiles, Outcome.ok.injEq] at h
    subst h
    exact hm
  | cons f rest ih =>
    intro s s' l hi hm h
    simp only [PinFiles] at h
    obtain ⟨s1, h1, h2⟩ := Outcome.bind_eq_ok.1 h
    obtain ⟨l1, hi1, -⟩ := pinFile_inv hi h1
    exact ih hi1 (hm.of_pinFile hi h1) h2

theorem Mirror.of_UnpinFiles {FS : Nat} (v : List String) :
    ∀ {s s' : FileCacheImpl} {l : List Nat}, Inv FS s l → Mirror FS s →
      UnpinFiles s v = Outcome.ok s' → Mirror FS s' := by
  induction v with
  | nil =>
    intro s s' l _ hm h
    simp only [UnpinFiles, Outcome.ok.injEq] at h
    subst h
    exact hm
  | cons f rest ih =>
    intro s s' l hi hm h
    simp only [UnpinFiles] at h
    obtain ⟨s1, h1, h2⟩ := Outcome.bind_eq_ok.1 h
    obtain ⟨l1, hi1, -⟩ := unpinFile_inv hi h1
    exact ih hi1 (hm.of_unpinFile hi h1) h2

theorem Mirror.of_step {FS : Nat} {s s' : FileCacheImpl} {l : List Nat} {c : Call}
    (hi : Inv FS s l) (hm : Mirror FS s) (h : step FS s c = Outcome.ok s') : Mirror FS s' := by
  cases c with
  | PinFiles v => exact Mirror.of_PinFiles v hi hm h
  | UnpinFiles v => exact Mirror.of_UnpinFiles v hi hm h
  | FileData X =>
    simp only [step] at h
    obtain ⟨_, _, h2⟩ := Outcome.bind_eq_ok.1 h
    cases h2
    exact hm
  | MutableFileData X =>
    simp only [step] at h
    obtain ⟨r, h1, h2⟩ := Outcome.bind_eq_ok.1 h
    cases h2
    rcases MutableFileData_cases hi X with h3 | ⟨a, b, -, -, -, h3⟩
    · rw [h3] at h1; cases h1
      exact hm
    · rw [h3] at h1; cases h1
      exact Mirror.modify_dirty _ hm (fun _ => or_dirty_and_dirty_ne _)
  | write X w =>
    obtain ⟨a, b, -, -, -, -, rfl⟩ := writeThrough_cases hi h
    exact Mirror.modify_dirty _ hm (fun _ => or_dirty_and_dirty_ne _)

theorem Mirror.of_run {FS : Nat} (cs : List Call) :
    ∀ {s s' : FileCacheImpl} {l : List Nat}, Inv FS s l → Mirror FS s →
      run FS s cs = Outcome.ok s' → Mirror FS s' := by
  induction cs with
  | nil =>
    intro s s' l _ hm h
    simp only [run, Outcome.ok.injEq] at h
    subst h
    exact hm
  | cons c rest ih =>
    intro s s' l hi hm h
    rw [run_cons] at h
    obtain ⟨s1, h1, h2⟩ := Outcome.bind_eq_ok.1 h
    obtain ⟨l1, hi1, -⟩ := step_inv hi h1
    exact ih hi1 (hm.of_step hi h1) h2

/-- Clean entries of a name other than `"dummy"` mirror their file: in a state
reached from a fresh cache by calls of the cache and writes through the view of a pinned
entry, every entry `b` that the map refers to, whose file name is not
`"dummy"` and whose dirty bit is clear, has a file, and `b.buffer` is the first
`FS` bytes of that file, zero-filled up to `FS` bytes. -/
theorem clean_entries_mirror_files {FS max : Nat} {d : Disk} {cs : List Call}
    {s : FileCacheImpl} (h : run FS (FileCacheImpl.new FS max d) cs = Outcome.ok s)
    (k : String) (a : Nat) (b : WriteCacheBuffer)
    (hk : mapFind s.writeCache_ k = some a) (hb : s.heap[a]? = some b)
    (hn : b.fileName ≠ "dummy") (hc : b.status &&& DIRTY = 0) :
    ∃ c, s.disk.read b.fileName = some c ∧ b.buffer = zeroPad FS c ∧ b.buffer.length = FS := by
  obtain ⟨hi, -⟩ := reachable_inv h
  have hm := Mirror.of_run cs (Inv.init FS max d) (Mirror.start FS max d) h
  have ha0 := (hi.dir k a hk).1
  obtain ⟨c, h1, h2⟩ := hm a b ha0 hb hn hc
  exact ⟨c, h1, h2, hi.buflen a b ha0 hb⟩

/-- C20, evaluated on the code: on a file system whose file `dummy` holds
`[5, 5]`, after `PinFiles ["dummy"]` on a fresh cache the entry of `"dummy"` is
clean and its buffer is `[0, 0]`, not the content of the file: the guard of the
constructor, meant for the sentinel, skipped the load.  When the same name is
admitted by reclaiming the entry of `A`, the clean entry holds `[5, 5]`. -/
theorem C20_clean_dummy_entry_differs_from_file :
    (run 2 (FileCacheImpl.new 2 1 dummyDisk) [Call.PinFiles ["dummy"]]).bind
      (fun s => Outcome.ok (mapFind s.writeCache_ "dummy")) = Outcome.ok (some 1) ∧
    (run 2 (FileCacheImpl.new 2 1 dummyDisk) [Call.PinFiles ["dummy"]]).bind
      (fun s => Outcome.ok (s.heap[1]?.map (fun b => b.fileName))) = Outcome.ok (some "dummy") ∧
    (run 2 (FileCacheImpl.new 2 1 dummyDisk) [Call.PinFiles ["dummy"]]).bind
      (fun s => Outcome.ok (s.heap[1]?.map (fun b => b.status &&& DIRTY)))
      = Outcome.ok (some 0) ∧
    (run 2 (FileCacheImpl.new 2 1 dummyDisk) [Call.PinFiles ["dummy"]]).bind
      (fun s => Outcome.ok (s.heap[1]?.map (fun b => b.buffer))) = Outcome.ok (some [0, 0]) ∧
    (run 2 (FileCacheImpl.new 2 1 dummyDisk) [Call.PinFiles ["dummy"]]).bind
      (fun s => Outcome.ok (s.disk.read "dummy")) = Outcome.ok (some [5, 5]) ∧
    zeroPad 2 [5, 5] = [5, 5] ∧
    (run 2 (FileCacheImpl.new 2 1 dummyDisk)
        [Call.PinFiles ["A"], Call.UnpinFiles ["A"], Call.PinFiles ["dummy"]]).bind
      (fun s => Outcome.ok (s.heap[1]?.map (fun b => (b.fileName, b.status &&& DIRTY, b.buffer))))
      = Outcome.ok (some ("dummy", 0, [5, 5])) := by
  decide
end FileCache
